import Mathlib

/-!
# Cycle detection in directed graphs: DFS detector and Kahn detector

A shallow embedding of `cyclic_dfs.cpp` (class `CyclicDFS`) and `cyclic_bfs.cpp`
(class `CyclicBFS`), followed by theorems about the two detectors.

Conventions of the embedding.

* A `vector<int>` is a `List Int`; a `vector<vector<int>>` is a `List (List Int)`;
  a `vector<bool>` is a `List Bool`.  `xs[i] = x` is `List.set`, `xs[i]` is `List.getD`.
  The detectors index their vectors with loop counters below `vertices`, which is in range
  for every object whose vectors have the sizes the constructor gives them (`WF`).
* Loop counters and vertex arguments that the source only ever draws from `0 .. vertices - 1`
  are `Nat`, and so are the `int` containers that only ever receive loop counters (the queue,
  `topoOrder`, `component`, `path` and `cyclePath` of `CyclicBFS`).  Cells that can hold `-1`
  or a caller's argument (`parent`, `cycleStart`, `cycleEnd`, the `cyclePath` of `CyclicDFS`)
  are `Int`.  The in-degree counters are unbounded `Int`: the source's `int` counters would
  need `2^31` calls of `addEdge` to leave their range.
* An access whose index the source does not control (`addEdge(u, v)`, the parent walk of
  `findCyclePath`) is checked: the embedding returns `none` where the C++ would read or write
  outside the vector.
* Recursion and `while` loops carry a fuel argument; `none` also stands for "fuel exhausted".
  The theorems show that the fuel handed out by the entry points is always enough
  (`CyclicDFS.hasCycle_spec`, `CyclicBFS.hasCycleKahn_returns`, `CyclicBFS.displayCycle_spec`).
* Printing (`cout`) is dropped; values that the source only prints (`topoOrder`, the traced
  path) are returned.
-/

/-! ## `cyclic_dfs.cpp` -/

/-- The fields of class `CyclicDFS`. -/
structure CyclicDFS where
  vertices : Nat
  adjMatrix : List (List Int)
  visited : List Int
  recStack : List Int
  parent : List Int
  cyclePath : List Int
deriving DecidableEq

/-- The object and the two `int&` parameters that `dfsUtil` threads through its recursion. -/
structure DfsState where
  self : CyclicDFS
  cycleStart : Int
  cycleEnd : Int
deriving DecidableEq

namespace CyclicDFS

/-- The constructor `CyclicDFS(int v)`. -/
def init (v : Nat) : CyclicDFS :=
  { vertices := v
    adjMatrix := List.replicate v (List.replicate v 0)
    visited := List.replicate v 0
    recStack := List.replicate v 0
    parent := List.replicate v (-1)
    cyclePath := [] }

/-- The cell `adjMatrix[v][u]`. -/
def adj (c : CyclicDFS) (v u : Nat) : Int :=
  (c.adjMatrix.getD v []).getD u 0

/-- The method `addEdge(u, v)`: `adjMatrix[u][v] = 1`; `none` when the cell does not exist. -/
def addEdge (c : CyclicDFS) (u v : Int) : Option CyclicDFS :=
  if 0 ≤ u ∧ u.toNat < c.adjMatrix.length ∧ 0 ≤ v ∧
      v.toNat < (c.adjMatrix.getD u.toNat []).length then
    some { c with
      adjMatrix := c.adjMatrix.set u.toNat ((c.adjMatrix.getD u.toNat []).set v.toNat 1) }
  else none

/-- The `for (u = 0; u < vertices; u++)` loop of `dfsUtil(v, ..)`, over the remaining
counters `us`; `rec` is the recursive call.  The result `true` is the early `return true`,
`false` means the loop ran to its end. -/
def dfsUtilLoop (rec : Nat → DfsState → Option (Bool × DfsState)) (v : Nat) :
    List Nat → DfsState → Option (Bool × DfsState)
  | [], s => some (false, s)
  | u :: us, s =>
    if s.self.adj v u = 1 then
      if s.self.visited.getD u 0 = 0 then
        match rec u { s with self := { s.self with parent := s.self.parent.set u (v : Int) } } with
        | none => none
        | some (true, s') => some (true, s')
        | some (false, s') => dfsUtilLoop rec v us s'
      else if s.self.recStack.getD u 0 ≠ 0 then
        some (true, { s with cycleStart := (u : Int), cycleEnd := (v : Int) })
      else dfsUtilLoop rec v us s
    else dfsUtilLoop rec v us s

/-- The method `dfsUtil(v, cycleStart, cycleEnd)`, with a fuel argument for the recursion. -/
def dfsUtil : Nat → Nat → DfsState → Option (Bool × DfsState)
  | 0, _, _ => none
  | fuel + 1, v, s =>
    let s1 : DfsState :=
      { s with self := { s.self with
          visited := s.self.visited.set v 1
          recStack := s.self.recStack.set v 1 } }
    match dfsUtilLoop (dfsUtil fuel) v (List.range s.self.vertices) s1 with
    | none => none
    | some (true, s') => some (true, s')
    | some (false, s') =>
      some (false, { s' with self := { s'.self with recStack := s'.self.recStack.set v 0 } })

/-- The `while (current != cycleStart)` loop of `findCyclePath`; `none` when `parent[current]`
would be read outside the vector or the fuel runs out. -/
def findCyclePathLoop (parent : List Int) (cycleStart : Int) :
    Nat → Int → List Int → Option (List Int)
  | 0, _, _ => none
  | fuel + 1, current, tempPath =>
    if current ≠ cycleStart then
      if 0 ≤ current ∧ current.toNat < parent.length then
        findCyclePathLoop parent cycleStart fuel (parent.getD current.toNat 0)
          (tempPath ++ [current])
      else none
    else some tempPath

/-- The method `findCyclePath(cycleStart, cycleEnd)`. -/
def findCyclePath (c : CyclicDFS) (cycleStart cycleEnd : Int) : Option CyclicDFS :=
  match findCyclePathLoop c.parent cycleStart (c.vertices + 1) cycleEnd [] with
  | none => none
  | some tempPath =>
    some { c with cyclePath := (tempPath ++ [cycleStart]).reverse ++ [cycleStart] }

/-- The `for (i = 0; i < vertices; i++)` loop of `hasCycle`, over the remaining counters. -/
def hasCycleLoop : List Nat → DfsState → Option (Bool × DfsState)
  | [], s => some (false, s)
  | i :: is, s =>
    if s.self.visited.getD i 0 = 0 then
      match dfsUtil s.self.vertices i s with
      | none => none
      | some (true, s') =>
        match s'.self.findCyclePath s'.cycleStart s'.cycleEnd with
        | none => none
        | some c' => some (true, { s' with self := c' })
      | some (false, s') => hasCycleLoop is s'
    else hasCycleLoop is s

/-- The method `hasCycle()`: the returned flag and the object it leaves behind. -/
def hasCycle (c : CyclicDFS) : Option (Bool × CyclicDFS) :=
  let c0 : CyclicDFS :=
    { c with
      visited := List.replicate c.visited.length 0
      recStack := List.replicate c.recStack.length 0
      parent := List.replicate c.parent.length (-1) }
  match hasCycleLoop (List.range c0.vertices) { self := c0, cycleStart := -1, cycleEnd := -1 } with
  | none => none
  | some (b, s) => some (b, s.self)

end CyclicDFS

/-! ## `cyclic_bfs.cpp` -/

/-- The fields of class `CyclicBFS`.  `cyclePath` only ever receives loop counters. -/
structure CyclicBFS where
  vertices : Nat
  adjMatrix : List (List Int)
  inDegree : List Int
  cyclePath : List Nat
deriving DecidableEq

/-- What `hasCycleKahn` returns, the `topoOrder` it computed, and the object it leaves behind. -/
structure KahnResult where
  ret : Bool
  topoOrder : List Nat
  self : CyclicBFS
deriving DecidableEq

/-- What `findCyclePath(component)` prints after its heading: nothing (component of fewer than
two vertices), `Complete cycle path: ..`, or `Cycle exists among these vertices: ..`. -/
inductive CycleTrace where
  | nothing
  | complete (path : List Nat)
  | among (component : List Nat)
deriving DecidableEq

/-- What `displayCycle` / `findStronglyConnectedComponents` report: no unprocessed vertex at all,
no component of more than one vertex, or the first such component (as `dfsComponent` built it)
with the outcome of `findCyclePath` on it. -/
inductive SccReport where
  | noVertices
  | noComponent
  | selected (component : List Nat) (trace : CycleTrace)
deriving DecidableEq

namespace CyclicBFS

/-- The constructor `CyclicBFS(int v)`. -/
def init (v : Nat) : CyclicBFS :=
  { vertices := v
    adjMatrix := List.replicate v (List.replicate v 0)
    inDegree := List.replicate v 0
    cyclePath := [] }

/-- The cell `adjMatrix[u][v]`. -/
def adj (c : CyclicBFS) (u v : Nat) : Int :=
  (c.adjMatrix.getD u []).getD v 0

/-- The method `addEdge(u, v)`: `adjMatrix[u][v] = 1; inDegree[v]++`; `none` when a cell does
not exist. -/
def addEdge (c : CyclicBFS) (u v : Int) : Option CyclicBFS :=
  if 0 ≤ u ∧ u.toNat < c.adjMatrix.length ∧ 0 ≤ v ∧
      v.toNat < (c.adjMatrix.getD u.toNat []).length ∧ v.toNat < c.inDegree.length then
    some { c with
      adjMatrix := c.adjMatrix.set u.toNat ((c.adjMatrix.getD u.toNat []).set v.toNat 1)
      inDegree := c.inDegree.set v.toNat (c.inDegree.getD v.toNat 0 + 1) }
  else none

/-- The `for (v = 0; v < vertices; v++)` loop inside the `while` loop of `hasCycleKahn`, for the
popped vertex `u`, over the remaining counters; the state is `(tempInDegree, q)`. -/
def kahnRelax (c : CyclicBFS) (u : Nat) : List Nat → List Int × List Nat → List Int × List Nat
  | [], st => st
  | v :: vs, (temp, q) =>
    if c.adj u v = 1 then
      let temp' := temp.set v (temp.getD v 0 - 1)
      if temp'.getD v 0 = 0 then kahnRelax c u vs (temp', q ++ [v])
      else kahnRelax c u vs (temp', q)
    else kahnRelax c u vs (temp, q)

/-- The `while (!q.empty())` loop of `hasCycleKahn`, with fuel; it returns the final
`(tempInDegree, topoOrder)`. -/
def kahnLoop (c : CyclicBFS) : Nat → List Int → List Nat → List Nat → Option (List Int × List Nat)
  | _, temp, [], topo => some (temp, topo)
  | 0, _, _ :: _, _ => none
  | fuel + 1, temp, u :: q, topo =>
    let st := kahnRelax c u (List.range c.vertices) (temp, q)
    kahnLoop c fuel st.1 st.2 (topo ++ [u])

/-- The method `hasCycleKahn()`.  The seeding loop (`if (tempInDegree[i] == 0) q.push(i)`) and
the loop that collects the unprocessed vertices (`if (!processed[i]) cyclePath.push_back(i)`)
are filters of `0 .. vertices - 1`. -/
def hasCycleKahn (c : CyclicBFS) : Option KahnResult :=
  let tempInDegree := c.inDegree
  let q := (List.range c.vertices).filter (fun i => tempInDegree.getD i 0 = 0)
  match kahnLoop c c.vertices tempInDegree q [] with
  | none => none
  | some (_, topoOrder) =>
    if topoOrder.length = c.vertices then
      some { ret := false, topoOrder := topoOrder, self := c }
    else
      let processed := topoOrder.foldl (fun p v => p.set v true) (List.replicate c.vertices false)
      let cyclePath := (List.range c.vertices).filter (fun i => processed.getD i false = false)
      some { ret := true, topoOrder := topoOrder, self := { c with cyclePath := cyclePath } }

/-- The `for (u = 0; u < vertices; u++)` loop of `dfsComponent(v, ..)`; the state is
`(visited, component)`, `rec` is the recursive call. -/
def dfsComponentLoop (rec : Nat → List Bool × List Nat → Option (List Bool × List Nat))
    (c : CyclicBFS) (v : Nat) :
    List Nat → List Bool × List Nat → Option (List Bool × List Nat)
  | [], st => some st
  | u :: us, (visited, component) =>
    if c.adj v u = 1 ∧ visited.getD u false = false then
      if u ∈ c.cyclePath then
        match rec u (visited, component) with
        | none => none
        | some st' => dfsComponentLoop rec c v us st'
      else dfsComponentLoop rec c v us (visited, component)
    else dfsComponentLoop rec c v us (visited, component)

/-- The method `dfsComponent(v, visited, component)`, with fuel for the recursion. -/
def dfsComponent (c : CyclicBFS) : Nat → Nat → List Bool × List Nat →
    Option (List Bool × List Nat)
  | 0, _, _ => none
  | fuel + 1, v, (visited, component) =>
    dfsComponentLoop (dfsComponent c fuel) c v (List.range c.vertices)
      (visited.set v true, component ++ [v])

/-- The `for (next = 0; next < vertices; next++)` loop of `dfsForCycle(current, target, ..)`; the
state is `(path, visited)`, `rec next path visited (depth + 1)` is the recursive call.  The
result `true` is the early `return true`. -/
def dfsForCycleLoop
    (rec : Nat → List Nat → List Bool → Option (Bool × List Nat × List Bool))
    (c : CyclicBFS) (current target : Nat) (component : List Nat) (depth : Nat) :
    List Nat → List Nat → List Bool → Option (Bool × List Nat × List Bool)
  | [], path, visited => some (false, path, visited)
  | next :: rest, path, visited =>
    if c.adj current next = 1 then
      if next ∈ component then
        if next = target ∧ depth > 0 then some (true, path ++ [next], visited)
        else if visited.getD next false = false then
          match rec next path visited with
          | none => none
          | some (true, path', visited') => some (true, path', visited')
          | some (false, path', visited') =>
            dfsForCycleLoop rec c current target component depth rest path' visited'
        else dfsForCycleLoop rec c current target component depth rest path visited
      else dfsForCycleLoop rec c current target component depth rest path visited
    else dfsForCycleLoop rec c current target component depth rest path visited

/-- The method `dfsForCycle(current, target, component, path, visited, depth)`, with fuel for
the recursion; it returns the flag and the final `(path, visited)`. -/
def dfsForCycle (c : CyclicBFS) (target : Nat) (component : List Nat) :
    Nat → Nat → List Nat → List Bool → Nat → Option (Bool × List Nat × List Bool)
  | 0, _, _, _, _ => none
  | fuel + 1, current, path, visited, depth =>
    let path1 := path ++ [current]
    if depth > 0 ∧ current = target then some (true, path1, visited)
    else if depth ≥ component.length then some (false, path1.dropLast, visited)
    else
      let visited1 := visited.set current true
      match dfsForCycleLoop (fun next p vis => dfsForCycle c target component fuel next p vis
          (depth + 1)) c current target component depth (List.range c.vertices) path1 visited1 with
      | none => none
      | some (true, path', visited') => some (true, path', visited')
      | some (false, path', visited') => some (false, path'.dropLast, visited'.set current false)

/-- The method `findCyclePath(component)`: sort the component (`std::sort`, ascending; here
insertion sort), search from its first vertex. -/
def findCyclePath (c : CyclicBFS) (component : List Nat) : Option CycleTrace :=
  if component.length < 2 then some CycleTrace.nothing
  else
    let sorted := component.insertionSort (· ≤ ·)
    let start := sorted.getD 0 0
    match dfsForCycle c start sorted (sorted.length + 1) start []
        (List.replicate c.vertices false) 0 with
    | none => none
    | some (true, path, _) => some (CycleTrace.complete path)
    | some (false, _, _) => some (CycleTrace.among sorted)

/-- The `for (int start : cyclePath)` loop of `findStronglyConnectedComponents`, over the
remaining seeds, with the current `visited`. -/
def sccLoop (c : CyclicBFS) : List Nat → List Bool → Option SccReport
  | [], _ => some SccReport.noComponent
  | start :: rest, visited =>
    if visited.getD start false = false then
      match dfsComponent c c.vertices start (visited, []) with
      | none => none
      | some (visited', component) =>
        if component.length > 1 then
          match findCyclePath c component with
          | none => none
          | some trace => some (SccReport.selected component trace)
        else sccLoop c rest visited'
    else sccLoop c rest visited

/-- The method `findStronglyConnectedComponents()`. -/
def findStronglyConnectedComponents (c : CyclicBFS) : Option SccReport :=
  sccLoop c c.cyclePath (List.replicate c.vertices false)

/-- The method `displayCycle()`. -/
def displayCycle (c : CyclicBFS) : Option SccReport :=
  if c.cyclePath = [] then some SccReport.noVertices
  else findStronglyConnectedComponents c

/-- The sizes the constructor gives the vectors of the object. -/
def WF (c : CyclicBFS) : Prop :=
  c.adjMatrix.length = c.vertices ∧ (∀ row ∈ c.adjMatrix, row.length = c.vertices) ∧
    c.inDegree.length = c.vertices

/-- Number of rows `u` with `adjMatrix[u][v] == 1`: the in-degree of `v` in the matrix. -/
def columnCount (c : CyclicBFS) (v : Nat) : Nat :=
  ((List.range c.vertices).filter (fun u => c.adj u v = 1)).length

end CyclicBFS

/-! ## Directed cycles -/

/-- The cell `m[a][b]` of an adjacency matrix. -/
def matCell (m : List (List Int)) (a b : Nat) : Int :=
  (m.getD a []).getD b 0

/-- There is an edge `a -> b` among the vertices `0 .. n - 1`: `m[a][b] == 1`. -/
def IsEdge (n : Nat) (m : List (List Int)) (a b : Nat) : Prop :=
  a < n ∧ b < n ∧ matCell m a b = 1

/-- A closed walk: at least two entries (so at least one edge), consecutive entries joined by
an edge, and the last entry equal to the first.  A self-loop on `v` is `[v, v]`. -/
def IsClosedWalk (n : Nat) (m : List (List Int)) (p : List Nat) : Prop :=
  2 ≤ p.length ∧ List.Chain' (IsEdge n m) p ∧ p.head? = p.getLast?

/-- The graph contains a directed cycle. -/
def HasDirectedCycle (n : Nat) (m : List (List Int)) : Prop :=
  ∃ p : List Nat, IsClosedWalk n m p

/-- The contract of a reported cycle path (a `vector<int>`): at least two entries, every entry
a vertex index, first entry equal to last, every consecutive pair an edge of the matrix. -/
def IsCyclePath (n : Nat) (m : List (List Int)) (p : List Int) : Prop :=
  2 ≤ p.length ∧ (∀ x ∈ p, 0 ≤ x ∧ x < (n : Int)) ∧ p.head? = p.getLast? ∧
    List.Chain' (fun a b => matCell m a.toNat b.toNat = 1) p

namespace CyclicDFS

/-- The sizes the constructor gives the vectors of the object. -/
def WF (c : CyclicDFS) : Prop :=
  c.adjMatrix.length = c.vertices ∧ (∀ row ∈ c.adjMatrix, row.length = c.vertices) ∧
    c.visited.length = c.vertices ∧ c.recStack.length = c.vertices ∧
    c.parent.length = c.vertices

/-! ## The DFS detector: invariants -/

/-- Vertex `u` is marked visited. -/
def Vis (c : CyclicDFS) (u : Nat) : Prop := c.visited.getD u 0 ≠ 0

/-- Vertex `u` is marked as being on the recursion stack. -/
def OnStack (c : CyclicDFS) (u : Nat) : Prop := c.recStack.getD u 0 ≠ 0

/-- Vertex `u` is finished: visited, and no longer on the recursion stack. -/
def Done (c : CyclicDFS) (u : Nat) : Prop := c.Vis u ∧ ¬ c.OnStack u

/-- The edge relation of the object's matrix. -/
def Edge (c : CyclicDFS) (a b : Nat) : Prop := IsEdge c.vertices c.adjMatrix a b

/-- Link between consecutive entries of the recursion stack (top first): `x` is the recorded
parent of `y` and `x -> y` is an edge. -/
def Link (c : CyclicDFS) (y x : Nat) : Prop := c.parent.getD y 0 = (x : Int) ∧ c.Edge x y

/-- Number of vertices not yet visited. -/
def unvisited (c : CyclicDFS) : Nat :=
  ((Finset.range c.vertices).filter (fun u => c.visited.getD u 0 = 0)).card

/-- The graph part of the object is the same. -/
def SameGraph (c c' : CyclicDFS) : Prop :=
  c'.vertices = c.vertices ∧ c'.adjMatrix = c.adjMatrix ∧ c'.cyclePath = c.cyclePath

/-- The state invariant of the search, relative to the recursion stack `S` (top first). -/
structure Inv (c : CyclicDFS) (S : List Nat) : Prop where
  lenV : c.visited.length = c.vertices
  lenR : c.recStack.length = c.vertices
  lenP : c.parent.length = c.vertices
  stk : ∀ u, c.OnStack u ↔ u ∈ S
  stkV : ∀ u ∈ S, c.Vis u
  nodup : S.Nodup
  chain : S.Chain' c.Link
  closed : ∀ u w, c.Done u → c.Edge u w → c.Done w
  acyc : ∀ u, c.Done u → ¬ Relation.TransGen c.Edge u u

/-- What a `true` result records: the stack `w :: T` at the moment the back edge `w -> u`
was met. -/
def Back (s : DfsState) : Prop :=
  ∃ (w u : Nat) (T : List Nat), s.cycleEnd = (w : Int) ∧ s.cycleStart = (u : Int) ∧
    u ∈ w :: T ∧ (w :: T).Nodup ∧ (∀ x ∈ w :: T, x < s.self.vertices) ∧
    (w :: T).Chain' s.self.Link ∧ s.self.Edge w u ∧ s.self.parent.length = s.self.vertices

/-- What a `false` result guarantees about the state. -/
structure Kept (s s' : DfsState) : Prop where
  vis : ∀ u, s.self.Vis u → s'.self.Vis u
  par : ∀ u, s.self.Vis u → s'.self.parent.getD u 0 = s.self.parent.getD u 0
  stkEq : s'.self.recStack = s.self.recStack
  cs : s'.cycleStart = s.cycleStart
  ce : s'.cycleEnd = s.cycleEnd

/-- Postcondition of a call `dfsUtil(v, ..)` entered in state `s` with stack `S`. -/
def Post (v : Nat) (s : DfsState) (S : List Nat) (b : Bool) (s' : DfsState) : Prop :=
  SameGraph s.self s'.self ∧
    (b = false → Inv s'.self S ∧ s'.self.Vis v ∧ Kept s s' ∧
      s'.self.parent.getD v 0 = s.self.parent.getD v 0) ∧
    (b = true → Back s')

/-- Specification of the recursive call, for states with at most `k` unvisited vertices. -/
def RecSpec (rec : Nat → DfsState → Option (Bool × DfsState)) (k : Nat) : Prop :=
  ∀ (v : Nat) (s : DfsState) (S : List Nat),
    Inv s.self S → v < s.self.vertices → ¬ s.self.Vis v → (v :: S).Chain' s.self.Link →
    unvisited s.self ≤ k →
    ∃ b s', rec v s = some (b, s') ∧ Post v s S b s'

/-- What `hasCycle` leaves in `cyclePath` after a `true` result: a closed walk whose entries,
the closing one apart, are pairwise distinct. -/
def Found (c : CyclicDFS) : Prop :=
  ∃ P : List Nat, c.cyclePath = P.map (fun x : Nat => (x : Int)) ∧
    IsClosedWalk c.vertices c.adjMatrix P ∧ P.dropLast.Nodup

end CyclicDFS

namespace CyclicBFS

/-! ## The Kahn detector: invariants -/

/-- The edge relation of the object's matrix. -/
def Edge (c : CyclicBFS) (a b : Nat) : Prop := IsEdge c.vertices c.adjMatrix a b

/-- Number of entries `u` of `T` with an edge `u -> v`. -/
def preds (c : CyclicBFS) (T : List Nat) (v : Nat) : Nat :=
  (T.filter (fun u => c.adj u v = 1)).length

/-- The in-degree table is at least the in-degree of the matrix. -/
def Covers (c : CyclicBFS) : Prop :=
  ∀ v, v < c.vertices → (c.columnCount v : Int) ≤ c.inDegree.getD v 0

/-- The in-degree table equals the column counts of the matrix. -/
def Exact (c : CyclicBFS) : Prop :=
  ∀ v, v < c.vertices → c.inDegree.getD v 0 = (c.columnCount v : Int)

/-- The invariant of the `while` loop of `hasCycleKahn`, for an object whose in-degree table
covers the matrix: `topo ++ q` lists every vertex whose remaining in-degree is zero, once, and
behind all of its predecessors, which have been processed. -/
structure KInv (c : CyclicBFS) (temp : List Int) (q topo : List Nat) : Prop where
  len : temp.length = c.vertices
  nodup : (topo ++ q).Nodup
  lt : ∀ v ∈ topo ++ q, v < c.vertices
  val : ∀ v, v < c.vertices → temp.getD v 0 = c.inDegree.getD v 0 - (c.preds topo v : Int)
  mem : ∀ v, v < c.vertices → (v ∈ topo ++ q ↔ temp.getD v 0 = 0)
  ord : ∀ v ∈ topo ++ q, ∀ u, c.Edge u v →
    u ∈ topo ∧ (topo ++ q).indexOf u < (topo ++ q).indexOf v

/-- What the final `topoOrder` of Kahn's loop satisfies. -/
structure KahnFacts (c : CyclicBFS) (topo : List Nat) : Prop where
  nodup : topo.Nodup
  lt : ∀ v ∈ topo, v < c.vertices
  mem : ∀ v, v < c.vertices → (v ∈ topo ↔ c.inDegree.getD v 0 = (c.preds topo v : Int))
  ord : ∀ v ∈ topo, ∀ u, c.Edge u v → u ∈ topo ∧ topo.indexOf u < topo.indexOf v

/-- The object `hasCycleKahn` leaves behind when it reports a cycle: `cyclePath` holds the
unprocessed vertices in ascending order. -/
def withUnprocessed (c : CyclicBFS) (topo : List Nat) : CyclicBFS :=
  { c with cyclePath := (List.range c.vertices).filter (fun i => i ∉ topo) }

/-- The part of the loop invariant that holds for any in-degree table: no vertex is enqueued
twice, because a remaining in-degree passes through zero at most once. -/
structure KOnce (c : CyclicBFS) (temp : List Int) (q topo : List Nat) : Prop where
  len : temp.length = c.vertices
  nodup : (topo ++ q).Nodup
  lt : ∀ v ∈ topo ++ q, v < c.vertices
  inside : ∀ v ∈ topo ++ q, temp.getD v 0 ≤ 0
  outside : ∀ v, v < c.vertices → v ∉ topo ++ q → temp.getD v 0 ≠ 0

/-! ## The path search `dfsForCycle` -/

/-- Precondition of a call `dfsForCycle(current, target, component, path, visited, depth)` made
on behalf of `findCyclePath`: `path ++ [current]` is a walk from `target` inside the component
without repeated vertices, and `visited` flags exactly the vertices of `path`. -/
structure FcPre (c : CyclicBFS) (target : Nat) (component path : List Nat)
    (visited : List Bool) (current : Nat) : Prop where
  head : (path ++ [current]).head? = some target
  chain : (path ++ [current]).Chain' c.Edge
  sub : ∀ x ∈ path ++ [current], x ∈ component
  vlen : visited.length = c.vertices
  vis : ∀ x, visited.getD x false = true ↔ x ∈ path
  fresh : current ∉ path
  nodup : path.Nodup
  lt : current < c.vertices

/-- A path returned with `true` by a call at depth `depth`: a closed walk through `target`
inside the component. -/
def FcGood (c : CyclicBFS) (target : Nat) (component : List Nat) (depth : Nat)
    (p : List Nat) : Prop :=
  p.head? = some target ∧ p.getLast? = some target ∧ p.Chain' c.Edge ∧
    (∀ x ∈ p, x ∈ component) ∧ depth + 2 ≤ p.length ∧ 3 ≤ p.length

/-- Postcondition of a call entered with `(path, visited)` at depth `depth`: `false` restores
both, `true` leaves a good path. -/
def FcPost (c : CyclicBFS) (target : Nat) (component path : List Nat) (visited : List Bool)
    (depth : Nat) (r : Bool × List Nat × List Bool) : Prop :=
  (r.1 = false → r.2.1 = path ∧ r.2.2 = visited) ∧
    (r.1 = true → FcGood c target component depth r.2.1)

/-! ## The component walk `dfsComponent` -/

/-- Number of vertices whose flag in `visited` is still `false`. -/
def unvisitedB (n : Nat) (visited : List Bool) : Nat :=
  ((Finset.range n).filter (fun u => visited.getD u false = false)).card

/-- An edge of the matrix into a vertex recorded in `cyclePath`. -/
def EdgeIn (c : CyclicBFS) (a b : Nat) : Prop := c.Edge a b ∧ b ∈ c.cyclePath

/-- What a walk started at `v` from flags `vis` adds: the vertices `new`, each reached from `v`
along edges into `cyclePath`, each flagged for the first time. -/
structure CompPost (c : CyclicBFS) (v : Nat) (vis vis' : List Bool) (new : List Nat) :
    Prop where
  len : vis'.length = c.vertices
  flags : ∀ x, vis'.getD x false = true ↔ (vis.getD x false = true ∨ x ∈ new)
  nodup : new.Nodup
  elems : ∀ x ∈ new, x < c.vertices ∧ x ∈ c.cyclePath ∧ vis.getD x false = false ∧
    Relation.TransGen c.EdgeIn v x

/-- Specification of the recursive call, for flag vectors with at most `k` unflagged
vertices. -/
def CompRecSpec (c : CyclicBFS)
    (rec : Nat → List Bool × List Nat → Option (List Bool × List Nat)) (k : Nat) : Prop :=
  ∀ (v : Nat) (vis : List Bool) (comp : List Nat),
    vis.length = c.vertices → v < c.vertices → vis.getD v false = false →
    unvisitedB c.vertices vis ≤ k →
    ∃ vis' new, rec v (vis, comp) = some (vis', comp ++ v :: new) ∧
      CompPost c v (vis.set v true) vis' new

/-! ## The refinement: `findCyclePath`, `findStronglyConnectedComponents`, `displayCycle` -/

/-- A traced path is acceptable for a component: a closed walk of at least three entries
(two edges) that stays inside the component. -/
def GoodTrace (c : CyclicBFS) (component : List Nat) (trace : CycleTrace) : Prop :=
  trace ≠ CycleTrace.nothing ∧
    ∀ p, trace = CycleTrace.complete p →
      IsClosedWalk c.vertices c.adjMatrix p ∧ 3 ≤ p.length ∧ ∀ x ∈ p, x ∈ component

/-- What a report of `findStronglyConnectedComponents` satisfies. -/
def GoodReport (c : CyclicBFS) (seeds : List Nat) (rep : SccReport) : Prop :=
  rep ≠ SccReport.noVertices ∧
    ∀ comp trace, rep = SccReport.selected comp trace →
      2 ≤ comp.length ∧ (∀ x ∈ comp, x < c.vertices) ∧ GoodTrace c comp trace ∧
      ∃ start new, comp = start :: new ∧ start ∈ seeds ∧
        ∀ x ∈ new, x ∈ c.cyclePath ∧ Relation.TransGen c.EdgeIn start x

end CyclicBFS

namespace CyclicDFS

/-! ## Sequences of `addEdge` calls and sample objects -/

/-- A sequence of `addEdge` calls, in order. -/
def addEdges : CyclicDFS → List (Int × Int) → Option CyclicDFS
  | c, [] => some c
  | c, e :: es =>
    match c.addEdge e.1 e.2 with
    | none => none
    | some c' => addEdges c' es

/-- A freshly constructed object with the given matrix. -/
def ofMatrix (n : Nat) (m : List (List Int)) : CyclicDFS :=
  { vertices := n
    adjMatrix := m
    visited := List.replicate n 0
    recStack := List.replicate n 0
    parent := List.replicate n (-1)
    cyclePath := [] }

end CyclicDFS

namespace CyclicBFS

/-- A sequence of `addEdge` calls, in order. -/
def addEdges : CyclicBFS → List (Int × Int) → Option CyclicBFS
  | c, [] => some c
  | c, e :: es =>
    match c.addEdge e.1 e.2 with
    | none => none
    | some c' => addEdges c' es

/-- An object with the given matrix and in-degree table, `cyclePath` empty. -/
def ofMatrix (n : Nat) (m : List (List Int)) (d : List Int) : CyclicBFS :=
  { vertices := n, adjMatrix := m, inDegree := d, cyclePath := [] }

end CyclicBFS

namespace CyclicDFS

/-- The state in which the outer loop of `hasCycle` reaches counter `k` when no vertex below
`k` has an outgoing edge: the vertices below `k` are visited, nothing else is, and the recursion
stack is empty. -/
structure Swept (c : CyclicDFS) (s : DfsState) (k : Nat) : Prop where
  vert : s.self.vertices = c.vertices
  mat : s.self.adjMatrix = c.adjMatrix
  lenV : s.self.visited.length = c.vertices
  lenR : s.self.recStack.length = c.vertices
  stack : ∀ w, s.self.recStack.getD w 0 = 0
  below : ∀ w, w < k → s.self.visited.getD w 0 ≠ 0
  above : ∀ w, k ≤ w → s.self.visited.getD w 0 = 0

end CyclicDFS

namespace CyclicBFS

/-- The vertices `x` and `y` form a two-cycle with no other outgoing edges. -/
structure TwoCycle (c : CyclicBFS) (x y : Nat) : Prop where
  ne : x ≠ y
  xlt : x < c.vertices
  ylt : y < c.vertices
  outx : ∀ u, u < c.vertices → (c.adj x u = 1 ↔ u = y)
  outy : ∀ u, u < c.vertices → (c.adj y u = 1 ↔ u = x)

end CyclicBFS

/-- The edge set of the matrix, among the vertices `0 .. n - 1`, is exactly
`a -> b, b -> a, c -> d, d -> c`, for four distinct vertices. -/
structure TwoDisjointCycles (n : Nat) (m : List (List Int)) (a b c d : Nat) : Prop where
  alt : a < n
  blt : b < n
  clt : c < n
  dlt : d < n
  ab : a ≠ b
  ac : a ≠ c
  ad : a ≠ d
  bc : b ≠ c
  bd : b ≠ d
  cd : c ≠ d
  edges : ∀ u w, u < n → w < n →
    (matCell m u w = 1 ↔ (u = a ∧ w = b) ∨ (u = b ∧ w = a) ∨ (u = c ∧ w = d) ∨ (u = d ∧ w = c))

namespace CyclicBFS

/-- The inner `for (j = 0; j < vertices; j++)` loop of `inputGraph`, for row `i`, over the
remaining counters: `cin >> adjMatrix[i][j]; if (adjMatrix[i][j] == 1) inDegree[j]++`.  The
value that the cell holds after the extraction is `inp i j`. -/
def inputGraphRow (inp : Nat → Nat → Int) (i : Nat) : List Nat → CyclicBFS → CyclicBFS
  | [], c => c
  | j :: js, c =>
    let c1 : CyclicBFS :=
      { c with adjMatrix := c.adjMatrix.set i ((c.adjMatrix.getD i []).set j (inp i j)) }
    if c1.adj i j = 1 then
      inputGraphRow inp i js
        { c1 with inDegree := c1.inDegree.set j (c1.inDegree.getD j 0 + 1) }
    else inputGraphRow inp i js c1

/-- The outer `for (i = 0; i < vertices; i++)` loop of `inputGraph`, over the remaining
counters. -/
def inputGraphRows (inp : Nat → Nat → Int) : List Nat → CyclicBFS → CyclicBFS
  | [], c => c
  | i :: is, c =>
    inputGraphRows inp is (inputGraphRow inp i (List.range c.vertices) c)

/-- The method `inputGraph()`, for the values `inp i j` that the extractions leave in the
cells. -/
def inputGraph (c : CyclicBFS) (inp : Nat → Nat → Int) : CyclicBFS :=
  inputGraphRows inp (List.range c.vertices) c

/-- The objects a caller can obtain: the constructor's, and what `addEdge` (with arguments in
range), `inputGraph` and `hasCycleKahn` leave behind. -/
inductive Built : CyclicBFS → Prop where
  | init (n : Nat) : Built (init n)
  | addEdge {c c' : CyclicBFS} (u v : Int) : Built c → c.addEdge u v = some c' → Built c'
  | inputGraph {c : CyclicBFS} (inp : Nat → Nat → Int) : Built c → Built (c.inputGraph inp)
  | hasCycleKahn {c : CyclicBFS} {r : KahnResult} :
      Built c → c.hasCycleKahn = some r → Built r.self

end CyclicBFS

namespace CyclicDFS

/-- The state in which `hasCycle` enters its loop: the three `fill` calls done,
`cycleStart = cycleEnd = -1`. -/
def hasCycleEntry (c : CyclicDFS) : DfsState :=
  { self :=
      { c with
        visited := List.replicate c.visited.length 0
        recStack := List.replicate c.recStack.length 0
        parent := List.replicate c.parent.length (-1) }
    cycleStart := -1
    cycleEnd := -1 }

/-- The state `s` with `cyclePath` replaced by `p`. -/
def withPath (p : List Int) (s : DfsState) : DfsState :=
  { s with self := { s.self with cyclePath := p } }

/-- The objects `c` and `c'` agree on everything the search reads before it writes: the
vertex count, the matrix and the sizes of the three work vectors. -/
def SameShape (c c' : CyclicDFS) : Prop :=
  c'.vertices = c.vertices ∧ c'.adjMatrix = c.adjMatrix ∧
    c'.visited.length = c.visited.length ∧ c'.recStack.length = c.recStack.length ∧
    c'.parent.length = c.parent.length

end CyclicDFS

namespace CyclicBFS

/-- The method `dfsForCycle` with the branch `if (depth >= component.size())` turned into a
failure: the result is `none` as soon as any call of the recursion takes that branch (`none`
propagates through the neighbour scan and through every caller). -/
def dfsForCycleStrict (c : CyclicBFS) (target : Nat) (component : List Nat) :
    Nat → Nat → List Nat → List Bool → Nat → Option (Bool × List Nat × List Bool)
  | 0, _, _, _, _ => none
  | fuel + 1, current, path, visited, depth =>
    let path1 := path ++ [current]
    if depth > 0 ∧ current = target then some (true, path1, visited)
    else if depth ≥ component.length then none
    else
      let visited1 := visited.set current true
      match dfsForCycleLoop (fun next p vis => dfsForCycleStrict c target component fuel next p
          vis (depth + 1)) c current target component depth (List.range c.vertices) path1
          visited1 with
      | none => none
      | some (true, path', visited') => some (true, path', visited')
      | some (false, path', visited') => some (false, path'.dropLast, visited'.set current false)

/-- The method `dfsForCycle` with the branch `if (depth >= component.size())` deleted: only the
`visited` flags stop the recursion. -/
def dfsForCycleNoBound (c : CyclicBFS) (target : Nat) (component : List Nat) :
    Nat → Nat → List Nat → List Bool → Nat → Option (Bool × List Nat × List Bool)
  | 0, _, _, _, _ => none
  | fuel + 1, current, path, visited, depth =>
    let path1 := path ++ [current]
    if depth > 0 ∧ current = target then some (true, path1, visited)
    else
      let visited1 := visited.set current true
      match dfsForCycleLoop (fun next p vis => dfsForCycleNoBound c target component fuel next p
          vis (depth + 1)) c current target component depth (List.range c.vertices) path1
          visited1 with
      | none => none
      | some (true, path', visited') => some (true, path', visited')
      | some (false, path', visited') => some (false, path'.dropLast, visited'.set current false)

/-- A simple path that the call `dfsForCycle(current, target, component, path, ..)` can still
follow: from `current` along edges through distinct vertices of the component that are neither
on `path` nor `current`, ending with an edge into `target`; at depth 0 (empty `path`) it has at
least one intermediate vertex. -/
def FcWalk (c : CyclicBFS) (target : Nat) (component path : List Nat) (current : Nat) : Prop :=
  ∃ l : List Nat, List.Chain' c.Edge (current :: (l ++ [target])) ∧ l.Nodup ∧
    (∀ x ∈ l, x ∈ component ∧ x ∉ path ∧ x ≠ current) ∧ (path = [] → l ≠ [])

/-- An edge between two vertices of the component. -/
def EdgeWithin (c : CyclicBFS) (component : List Nat) (x y : Nat) : Prop :=
  c.Edge x y ∧ x ∈ component ∧ y ∈ component

/-- The component is strongly connected using only edges between its vertices. -/
def StronglyConnected (c : CyclicBFS) (component : List Nat) : Prop :=
  ∀ a ∈ component, ∀ b ∈ component, Relation.ReflTransGen (c.EdgeWithin component) a b

end CyclicBFS

/-! ## The DFS detector with a log of its states and calls -/

/-- An entry of the log kept by the instrumented detector: the state right after an
assignment, or a finished call `dfsUtil(v, ..)` with the state at its entry, the flag it
returned and the state at its return. -/
inductive DfsEvent where
  | state (s : DfsState)
  | ret (v : Nat) (entry : DfsState) (result : Bool) (exit : DfsState)
deriving DecidableEq

namespace CyclicDFS

/-- The loop of `dfsUtil` as in `dfsUtilLoop`, appending to `log` the state after every
assignment (`parent[u] = v`, `cycleStart = u`, `cycleEnd = v`). -/
def dfsUtilLoopTr
    (rec : Nat → DfsState → List DfsEvent → Option (Bool × DfsState × List DfsEvent))
    (v : Nat) : List Nat → DfsState → List DfsEvent → Option (Bool × DfsState × List DfsEvent)
  | [], s, log => some (false, s, log)
  | u :: us, s, log =>
    if s.self.adj v u = 1 then
      if s.self.visited.getD u 0 = 0 then
        let s1 : DfsState :=
          { s with self := { s.self with parent := s.self.parent.set u (v : Int) } }
        match rec u s1 (log ++ [DfsEvent.state s1]) with
        | none => none
        | some (true, s', log') => some (true, s', log')
        | some (false, s', log') => dfsUtilLoopTr rec v us s' log'
      else if s.self.recStack.getD u 0 ≠ 0 then
        let s1 : DfsState := { s with cycleStart := (u : Int) }
        let s2 : DfsState := { s1 with cycleEnd := (v : Int) }
        some (true, s2, log ++ [DfsEvent.state s1, DfsEvent.state s2])
      else dfsUtilLoopTr rec v us s log
    else dfsUtilLoopTr rec v us s log

/-- The method `dfsUtil` as in `dfsUtil`, appending to `log` the state after every assignment
(`visited[v] = 1`, `recStack[v] = 1`, `recStack[v] = 0`) and, at its return, the record of the
call. -/
def dfsUtilTr : Nat → Nat → DfsState → List DfsEvent → Option (Bool × DfsState × List DfsEvent)
  | 0, _, _, _ => none
  | fuel + 1, v, s, log =>
    let s1 : DfsState := { s with self := { s.self with visited := s.self.visited.set v 1 } }
    let s2 : DfsState :=
      { s1 with self := { s1.self with recStack := s1.self.recStack.set v 1 } }
    match dfsUtilLoopTr (dfsUtilTr fuel) v (List.range s.self.vertices) s2
        (log ++ [DfsEvent.state s1, DfsEvent.state s2]) with
    | none => none
    | some (true, s', log') => some (true, s', log' ++ [DfsEvent.ret v s true s'])
    | some (false, s', log') =>
      let s3 : DfsState :=
        { s' with self := { s'.self with recStack := s'.self.recStack.set v 0 } }
      some (false, s3, log' ++ [DfsEvent.state s3, DfsEvent.ret v s false s3])

/-- The loop of `hasCycle` as in `hasCycleLoop`, with the log; the state after `findCyclePath`
is logged as well. -/
def hasCycleLoopTr : List Nat → DfsState → List DfsEvent →
    Option (Bool × DfsState × List DfsEvent)
  | [], s, log => some (false, s, log)
  | i :: is, s, log =>
    if s.self.visited.getD i 0 = 0 then
      match dfsUtilTr s.self.vertices i s log with
      | none => none
      | some (true, s', log') =>
        match s'.self.findCyclePath s'.cycleStart s'.cycleEnd with
        | none => none
        | some c' =>
          some (true, { s' with self := c' }, log' ++ [DfsEvent.state { s' with self := c' }])
      | some (false, s', log') => hasCycleLoopTr is s' log'
    else hasCycleLoopTr is s log

/-- The method `hasCycle` as in `hasCycle`, returning in addition the log, which starts with
the reset state (after the three `fill` calls). -/
def hasCycleTr (c : CyclicDFS) : Option (Bool × CyclicDFS × List DfsEvent) :=
  match hasCycleLoopTr (List.range c.vertices) (hasCycleEntry c)
      [DfsEvent.state (hasCycleEntry c)] with
  | none => none
  | some (b, s, log) => some (b, s.self, log)

/-- The claimed invariant of a state: `recStack[v] == 1` implies `visited[v] == 1`. -/
def StackVisited (s : DfsState) : Prop :=
  ∀ v, s.self.recStack.getD v 0 = 1 → s.self.visited.getD v 0 = 1

/-- What the claim asks of a log entry: a state satisfies `StackVisited`; a call that returned
`false` left `recStack` exactly as it was at its entry. -/
def EventOk : DfsEvent → Prop
  | DfsEvent.state s => StackVisited s
  | DfsEvent.ret _ entry result exit => result = false → exit.self.recStack = entry.self.recStack

/-- The invariant carried through the search: `visited` and `recStack` have one size, and a
non-zero `recStack[v]` implies `visited[v] == 1`. -/
def StackGood (s : DfsState) : Prop :=
  s.self.visited.length = s.self.recStack.length ∧
    ∀ v, s.self.recStack.getD v 0 ≠ 0 → s.self.visited.getD v 0 = 1

/-- The invariant of a log entry carried through the search: `StackGood` for a state, and for
a call that returned `false` the same `recStack` at return as at entry. -/
def EventGood : DfsEvent → Prop
  | DfsEvent.state s => StackGood s
  | DfsEvent.ret _ entry result exit => result = false → exit.self.recStack = entry.self.recStack

/-- What a logged call or scan guarantees: the invariant at its end, a good log, and on
`false` the `recStack` it started with. -/
def TrPost (s : DfsState) (b : Bool) (s' : DfsState) (log' : List DfsEvent) : Prop :=
  StackGood s' ∧ (∀ e ∈ log', EventGood e) ∧ (b = false → s'.self.recStack = s.self.recStack)

/-- Vertex `x` can be reached from a vertex with an index below `v` along edges that do not
enter `v`.  These are the vertices that the ascending search can visit before it examines the
cell `adjMatrix[v][v]`. -/
def ReachedBefore (c : CyclicDFS) (v x : Nat) : Prop :=
  ∃ u, u < v ∧
    Relation.ReflTransGen (fun a b => IsEdge c.vertices c.adjMatrix a b ∧ b ≠ v) u x

/-- Every visited vertex of the state is `v` or a vertex of `ReachedBefore c v`. -/
def EarlyOnly (c : CyclicDFS) (v : Nat) (s : DfsState) : Prop :=
  ∀ x, s.self.Vis x → x = v ∨ ReachedBefore c v x

/-- Specification of a recursive call while no cycle other than the self-loop on `v` can be
met: a `true` result records the back edge `v -> v`; a `false` result was not a call on `v`
and has visited only `v` and vertices of `ReachedBefore c v`. -/
def FirstSpec (c : CyclicDFS) (v : Nat) (rec : Nat → DfsState → Option (Bool × DfsState))
    (k : Nat) : Prop :=
  ∀ (u : Nat) (s : DfsState) (S : List Nat),
    Inv s.self S → u < s.self.vertices → ¬ s.self.Vis u → (u :: S).Chain' s.self.Link →
    unvisited s.self ≤ k → SameGraph c s.self → EarlyOnly c v s →
    (u = v ∨ ReachedBefore c v u) →
    ∀ b s', rec u s = some (b, s') →
      (b = true → s'.cycleStart = (v : Int) ∧ s'.cycleEnd = (v : Int)) ∧
      (b = false → EarlyOnly c v s' ∧ u ≠ v)

end CyclicDFS

/-! # Lemmas -/

/-! ## Vector lemmas -/

theorem getD_set_eq {α : Type} (l : List α) (i j : Nat) (a d : α) :
    (l.set i a).getD j d = if i = j ∧ i < l.length then a else l.getD j d := by
  simp only [List.getD_eq_getElem?_getD, List.getElem?_set]
  by_cases h : i = j
  · subst h
    by_cases h2 : i < l.length
    · simp [h2]
    · simp [h2, List.getElem?_eq_none (Nat.le_of_not_lt h2)]
  · simp [h]

theorem getD_set_ne {α : Type} (l : List α) (i j : Nat) (a d : α) (h : i ≠ j) :
    (l.set i a).getD j d = l.getD j d := by
  simp [getD_set_eq, h]

theorem getD_set_self {α : Type} (l : List α) (i : Nat) (a d : α) (h : i < l.length) :
    (l.set i a).getD i d = a := by
  simp [getD_set_eq, h]

theorem getD_ge {α : Type} (l : List α) (i : Nat) (d : α) (h : l.length ≤ i) :
    l.getD i d = d := by
  simp [List.getD_eq_getElem?_getD, List.getElem?_eq_none h]

theorem set_getD_self {α : Type} (l : List α) (i : Nat) (d : α) :
    l.set i (l.getD i d) = l := by
  apply List.ext_getElem?
  intro j
  rw [List.getElem?_set]
  by_cases h : i = j
  · subst h
    by_cases h2 : i < l.length
    · simp [h2, List.getD_eq_getElem?_getD, List.getElem?_eq_getElem h2]
    · simp [h2, List.getElem?_eq_none (Nat.le_of_not_lt h2)]
  · simp [h]

theorem getD_replicate {α : Type} (n i : Nat) (a : α) : (List.replicate n a).getD i a = a := by
  by_cases h : i < n
  · simp [List.getD_eq_getElem?_getD, List.getElem?_replicate, h]
  · simp [List.getD_eq_getElem?_getD, List.getElem?_replicate, h]

theorem nodup_lt_length_le (n : Nat) (l : List Nat) (hn : l.Nodup) (hl : ∀ x ∈ l, x < n) :
    l.length ≤ n := by
  have h : l ⊆ List.range n := fun x hx => List.mem_range.mpr (hl x hx)
  have := (List.subperm_of_subset hn h).length_le
  simpa using this

namespace CyclicDFS

theorem vis_lt {c : CyclicDFS} {u : Nat} (h : c.Vis u) (hl : c.visited.length = c.vertices) :
    u < c.vertices := by
  by_contra hn
  exact h (getD_ge _ _ _ (by omega))

theorem unvisited_le (c : CyclicDFS) : unvisited c ≤ c.vertices := by
  unfold unvisited
  calc _ ≤ (Finset.range c.vertices).card := Finset.card_filter_le _ _
    _ = c.vertices := Finset.card_range _

theorem unvisited_mono {c c' : CyclicDFS} (hn : c'.vertices = c.vertices)
    (h : ∀ u, c.Vis u → c'.Vis u) : unvisited c' ≤ unvisited c := by
  unfold unvisited
  rw [hn]
  apply Finset.card_le_card
  intro u hu
  simp only [Finset.mem_filter] at hu ⊢
  refine ⟨hu.1, ?_⟩
  by_contra h0
  exact h u h0 hu.2

theorem unvisited_lt {c c' : CyclicDFS} (hn : c'.vertices = c.vertices)
    (h : ∀ u, c.Vis u → c'.Vis u) (v : Nat) (hv : v < c.vertices) (h1 : ¬ c.Vis v)
    (h2 : c'.Vis v) : unvisited c' < unvisited c := by
  unfold unvisited
  rw [hn]
  apply Finset.card_lt_card
  constructor
  · intro u hu
    simp only [Finset.mem_filter] at hu ⊢
    refine ⟨hu.1, ?_⟩
    by_contra h0
    exact h u h0 hu.2
  · intro hsub
    have hmem : v ∈ (Finset.range c.vertices).filter (fun u => c.visited.getD u 0 = 0) := by
      simp only [Finset.mem_filter, Finset.mem_range]
      refine ⟨hv, ?_⟩
      by_contra h0
      exact h1 h0
    have := hsub hmem
    simp only [Finset.mem_filter] at this
    exact h2 this.2

/-- A chain of links only depends on the parents of its entries and on the graph. -/
theorem chain_congr {c c' : CyclicDFS} {S : List Nat} (hg : SameGraph c c')
    (hp : ∀ u ∈ S, c'.parent.getD u 0 = c.parent.getD u 0) (h : S.Chain' c.Link) :
    S.Chain' c'.Link := by
  induction S with
  | nil => exact List.chain'_nil
  | cons a S ih =>
    cases S with
    | nil => exact List.chain'_singleton a
    | cons b S =>
      rw [List.chain'_cons] at h ⊢
      refine ⟨?_, ih (fun u hu => hp u (List.mem_cons_of_mem _ hu)) h.2⟩
      obtain ⟨h1, h2⟩ := h.1
      refine ⟨by rw [hp a (List.mem_cons_self _ _)]; exact h1, ?_⟩
      unfold Edge at h2 ⊢
      rw [hg.1, hg.2.1]
      exact h2

theorem edge_congr {c c' : CyclicDFS} (hg : SameGraph c c') (a b : Nat) :
    c'.Edge a b ↔ c.Edge a b := by
  unfold Edge
  rw [hg.1, hg.2.1]

theorem edge_eq {c c' : CyclicDFS} (hg : SameGraph c c') : c'.Edge = c.Edge := by
  funext a b
  exact propext (edge_congr hg a b)

/-- Finished vertices only reach finished vertices. -/
theorem done_reach {c : CyclicDFS} (hcl : ∀ u w, c.Done u → c.Edge u w → c.Done w)
    {u w : Nat} (hu : c.Done u) (h : Relation.ReflTransGen c.Edge u w) : c.Done w := by
  induction h with
  | refl => exact hu
  | tail _ hbc ih => exact hcl _ _ ih hbc

theorem kept_same (s : DfsState) : Kept s s :=
  ⟨fun _ h => h, fun _ _ => rfl, rfl, rfl, rfl⟩

theorem kept_chain {s s' s'' : DfsState} (h1 : Kept s s') (h2 : Kept s' s'') : Kept s s'' :=
  ⟨fun u h => h2.vis u (h1.vis u h),
   fun u h => (h2.par u (h1.vis u h)).trans (h1.par u h),
   h2.stkEq.trans h1.stkEq, h2.cs.trans h1.cs, h2.ce.trans h1.ce⟩

theorem sameGraph_same (c : CyclicDFS) : SameGraph c c := ⟨rfl, rfl, rfl⟩

theorem sameGraph_chain {c c' c'' : CyclicDFS} (h1 : SameGraph c c') (h2 : SameGraph c' c'') :
    SameGraph c c'' :=
  ⟨h2.1.trans h1.1, h2.2.1.trans h1.2.1, h2.2.2.trans h1.2.2⟩

theorem done_kept {s s' : DfsState} (h : Kept s s') {w : Nat} (hw : s.self.Done w) :
    s'.self.Done w := by
  refine ⟨h.vis w hw.1, ?_⟩
  unfold OnStack
  rw [h.stkEq]
  exact hw.2

/-- The scan of the neighbours of `v` keeps the invariant with `v` on top of the stack. -/
theorem dfsUtilLoop_spec (rec : Nat → DfsState → Option (Bool × DfsState)) (k : Nat)
    (hrec : RecSpec rec k) (v : Nat) (S : List Nat) :
    ∀ (us : List Nat) (s : DfsState),
      Inv s.self (v :: S) → (∀ u ∈ us, u < s.self.vertices) →
      (∀ w, s.self.Edge v w → w ∉ us → s.self.Done w) →
      unvisited s.self ≤ k →
      ∃ b s', dfsUtilLoop rec v us s = some (b, s') ∧ SameGraph s.self s'.self ∧
        (b = false → Inv s'.self (v :: S) ∧ Kept s s' ∧
          (∀ w, s'.self.Edge v w → s'.self.Done w)) ∧
        (b = true → Back s') := by
  intro us
  induction us with
  | nil =>
    intro s hinv _ hdone _
    exact ⟨false, s, rfl, sameGraph_same _,
      fun _ => ⟨hinv, kept_same s, fun w hw => hdone w hw (List.not_mem_nil w)⟩,
      fun h => by cases h⟩
  | cons u us ih =>
    intro s hinv hlt hdone hk
    have hvlt : v < s.self.vertices :=
      vis_lt (hinv.stkV v (List.mem_cons_self _ _)) hinv.lenV
    have hult : u < s.self.vertices := hlt u (List.mem_cons_self _ _)
    have hlt' : ∀ x ∈ us, x < s.self.vertices := fun x hx => hlt x (List.mem_cons_of_mem _ hx)
    unfold dfsUtilLoop
    by_cases hadj : s.self.adj v u = 1
    · rw [if_pos hadj]
      have hedge : s.self.Edge v u := ⟨hvlt, hult, hadj⟩
      by_cases hvis : s.self.visited.getD u 0 = 0
      · rw [if_pos hvis]
        -- the neighbour is unvisited: record the parent, recurse
        have hnv : ¬ s.self.Vis u := fun h => h hvis
        have hnS : u ∉ v :: S := fun hm => hnv (hinv.stkV u hm)
        set s2 : DfsState :=
          { s with self := { s.self with parent := s.self.parent.set u (v : Int) } } with hs2
        have hg2 : SameGraph s.self s2.self := ⟨rfl, rfl, rfl⟩
        have hpar2 : ∀ x, x ≠ u → s2.self.parent.getD x 0 = s.self.parent.getD x 0 := by
          intro x hx
          exact getD_set_ne _ _ _ _ _ (Ne.symm hx)
        have hinv2 : Inv s2.self (v :: S) :=
          { lenV := hinv.lenV
            lenR := hinv.lenR
            lenP := by simp [hs2, hinv.lenP]
            stk := hinv.stk
            stkV := hinv.stkV
            nodup := hinv.nodup
            chain := chain_congr hg2
              (fun x hx => hpar2 x (fun h => hnS (h ▸ hx))) hinv.chain
            closed := hinv.closed
            acyc := hinv.acyc }
        have hchain2 : (u :: v :: S).Chain' s2.self.Link := by
          rw [List.chain'_cons]
          refine ⟨⟨?_, hedge⟩, hinv2.chain⟩
          exact getD_set_self _ _ _ _ (by rw [hinv.lenP]; exact hult)
        obtain ⟨b, s', hrun, hpost⟩ := hrec u s2 (v :: S) hinv2 hult hnv hchain2 hk
        rw [hrun]
        obtain ⟨hg', hfalse, htrue⟩ := hpost
        cases b with
        | true =>
          exact ⟨true, s', rfl, sameGraph_chain hg2 hg', (fun h => by cases h), fun _ => htrue rfl⟩
        | false =>
          obtain ⟨hinv', hvu, hkept, _⟩ := hfalse rfl
          have hkept0 : Kept s s' :=
            { vis := hkept.vis
              par := fun x hx => (hkept.par x hx).trans
                (hpar2 x (fun h => hnv (h ▸ hx)))
              stkEq := hkept.stkEq
              cs := hkept.cs
              ce := hkept.ce }
          have hgs : SameGraph s.self s'.self := sameGraph_chain hg2 hg'
          have hdone' : ∀ w, s'.self.Edge v w → w ∉ us → s'.self.Done w := by
            intro w hw hwn
            by_cases hwu : w = u
            · subst hwu
              refine ⟨hvu, ?_⟩
              rw [hinv'.stk]
              exact hnS
            · have : w ∉ u :: us := by
                simp only [List.mem_cons, not_or]
                exact ⟨hwu, hwn⟩
              exact done_kept hkept0 (hdone w ((edge_congr hgs v w).mp hw) this)
          obtain ⟨b2, s'', hrun2, hg'', hf2, ht2⟩ := ih s' hinv'
            (by rw [hgs.1]; exact hlt') hdone'
            (le_trans (unvisited_mono hgs.1 hkept0.vis) hk)
          refine ⟨b2, s'', hrun2, sameGraph_chain hgs hg'', ?_, ht2⟩
          intro hb
          obtain ⟨hi, hk2, hd⟩ := hf2 hb
          exact ⟨hi, kept_chain hkept0 hk2, hd⟩
      · rw [if_neg hvis]
        by_cases hrs : s.self.recStack.getD u 0 ≠ 0
        · rw [if_pos hrs]
          -- a back edge
          refine ⟨true, _, rfl, sameGraph_same _, (fun h => by cases h), fun _ => ?_⟩
          refine ⟨v, u, S, rfl, rfl, (hinv.stk u).mp hrs, hinv.nodup, ?_, hinv.chain, hedge,
            hinv.lenP⟩
          intro x hx
          exact vis_lt (hinv.stkV x hx) hinv.lenV
        · rw [if_neg hrs]
          have hdone' : ∀ w, s.self.Edge v w → w ∉ us → s.self.Done w := by
            intro w hw hwn
            by_cases hwu : w = u
            · subst hwu
              exact ⟨hvis, hrs⟩
            · exact hdone w hw (by simp only [List.mem_cons, not_or]; exact ⟨hwu, hwn⟩)
          exact ih s hinv hlt' hdone' hk
    · rw [if_neg hadj]
      have hdone' : ∀ w, s.self.Edge v w → w ∉ us → s.self.Done w := by
        intro w hw hwn
        by_cases hwu : w = u
        · subst hwu
          exact absurd hw.2.2 hadj
        · exact hdone w hw (by simp only [List.mem_cons, not_or]; exact ⟨hwu, hwn⟩)
      exact ih s hinv hlt' hdone' hk

/-- The specification of `dfsUtil`: with fuel for every unvisited vertex it returns, and its
result satisfies `Post`. -/
theorem dfsUtil_spec : ∀ fuel : Nat, RecSpec (dfsUtil fuel) fuel := by
  intro fuel
  induction fuel with
  | zero =>
    intro v s S hinv hv hnv _ hk
    exfalso
    have h0 := @unvisited_lt s.self { s.self with visited := s.self.visited.set v 1 } rfl
        (fun u hu => by
          unfold Vis at hu ⊢
          show (s.self.visited.set v 1).getD u 0 ≠ 0
          rw [getD_set_eq]
          split
          · decide
          · exact hu) v hv hnv
        (by
          unfold Vis
          show (s.self.visited.set v 1).getD v 0 ≠ 0
          rw [getD_set_self _ _ _ _ (by rw [hinv.lenV]; exact hv)]
          decide)
    omega
  | succ fuel ih =>
    intro v s S hinv hv hnv hch hk
    have hvS : v ∉ S := fun hm => hnv (hinv.stkV v hm)
    have hr0 : s.self.recStack.getD v 0 = 0 := by
      by_contra h
      exact hvS ((hinv.stk v).mp h)
    set s1 : DfsState :=
      { s with self := { s.self with
          visited := s.self.visited.set v 1
          recStack := s.self.recStack.set v 1 } } with hs1
    have hg1 : SameGraph s.self s1.self := ⟨rfl, rfl, rfl⟩
    have hvis1 : ∀ u, s1.self.Vis u ↔ (u = v ∨ s.self.Vis u) := by
      intro u
      unfold Vis
      show (s.self.visited.set v 1).getD u 0 ≠ 0 ↔ _
      rw [getD_set_eq]
      by_cases huv : v = u
      · subst huv
        simp [hinv.lenV, hv]
      · simp [huv, Ne.symm huv]
    have hstk1 : ∀ u, s1.self.OnStack u ↔ (u = v ∨ s.self.OnStack u) := by
      intro u
      unfold OnStack
      show (s.self.recStack.set v 1).getD u 0 ≠ 0 ↔ _
      rw [getD_set_eq]
      by_cases huv : v = u
      · subst huv
        simp [hinv.lenR, hv]
      · simp [huv, Ne.symm huv]
    have hdone1 : ∀ u, s1.self.Done u → s.self.Done u ∧ u ≠ v := by
      intro u hu
      have hne : u ≠ v := fun h => hu.2 ((hstk1 u).mpr (Or.inl h))
      refine ⟨⟨?_, fun h => hu.2 ((hstk1 u).mpr (Or.inr h))⟩, hne⟩
      rcases (hvis1 u).mp hu.1 with h | h
      · exact absurd h hne
      · exact h
    have hinv1 : Inv s1.self (v :: S) :=
      { lenV := by simp [hs1, hinv.lenV]
        lenR := by simp [hs1, hinv.lenR]
        lenP := hinv.lenP
        stk := by
          intro u
          rw [hstk1, hinv.stk, List.mem_cons]
        stkV := by
          intro u hu
          rw [hvis1]
          rcases List.mem_cons.mp hu with h | h
          · exact Or.inl h
          · exact Or.inr (hinv.stkV u h)
        nodup := List.nodup_cons.mpr ⟨hvS, hinv.nodup⟩
        chain := hch
        closed := by
          intro u w hu hw
          obtain ⟨hu', _⟩ := hdone1 u hu
          have hw' := hinv.closed u w hu' hw
          have hwv : w ≠ v := fun h => hnv (h ▸ hw'.1)
          refine ⟨(hvis1 w).mpr (Or.inr hw'.1), ?_⟩
          rw [hstk1]
          rintro (h | h)
          · exact hwv h
          · exact hw'.2 h
        acyc := fun u hu => hinv.acyc u (hdone1 u hu).1 }
    have hk1 : unvisited s1.self ≤ fuel := by
      have : unvisited s1.self < unvisited s.self :=
        unvisited_lt rfl (fun u hu => (hvis1 u).mpr (Or.inr hu)) v hv hnv
          ((hvis1 v).mpr (Or.inl rfl))
      omega
    obtain ⟨b, s', hrun, hg', hf, ht⟩ := dfsUtilLoop_spec (dfsUtil fuel) fuel ih v S
      (List.range s.self.vertices) s1 hinv1
      (fun u hu => List.mem_range.mp hu)
      (fun w hw hwn => absurd (List.mem_range.mpr hw.2.1) hwn) hk1
    unfold dfsUtil
    simp only []
    rw [hrun]
    cases b with
    | true =>
      exact ⟨true, s', rfl, sameGraph_chain hg1 hg', (fun h => by cases h), fun _ => ht rfl⟩
    | false =>
      obtain ⟨hinv', hkept, hsucc⟩ := hf rfl
      refine ⟨false, _, rfl, ?_, fun _ => ?_, (fun h => by cases h)⟩
      · exact ⟨hg'.1, hg'.2.1, hg'.2.2⟩
      · set s2 : DfsState :=
          { s' with self := { s'.self with recStack := s'.self.recStack.set v 0 } } with hs2
        have hg2 : SameGraph s'.self s2.self := ⟨rfl, rfl, rfl⟩
        have hrec2 : s2.self.recStack = s.self.recStack := by
          show s'.self.recStack.set v 0 = s.self.recStack
          rw [hkept.stkEq]
          show (s.self.recStack.set v 1).set v 0 = s.self.recStack
          rw [List.set_set]
          conv_lhs => rw [← hr0]
          exact set_getD_self _ _ _
        have hvisk : ∀ u, s.self.Vis u → s'.self.Vis u :=
          fun u hu => hkept.vis u ((hvis1 u).mpr (Or.inr hu))
        have hvv : s'.self.Vis v := hkept.vis v ((hvis1 v).mpr (Or.inl rfl))
        have hpark : ∀ u, s.self.Vis u ∨ u = v →
            s'.self.parent.getD u 0 = s.self.parent.getD u 0 := by
          intro u hu
          exact hkept.par u ((hvis1 u).mpr (hu.symm))
        have hstk' : s'.self.OnStack v := (hinv'.stk v).mpr (List.mem_cons_self _ _)
        have hstk2 : ∀ u, s2.self.OnStack u ↔ s.self.OnStack u := by
          intro u
          unfold OnStack
          rw [hrec2]
        have hstk2' : ∀ u, u ≠ v → (s2.self.OnStack u ↔ s'.self.OnStack u) := by
          intro u hu
          rw [hstk2, hinv.stk, hinv'.stk, List.mem_cons]
          constructor
          · exact fun h => Or.inr h
          · rintro (h | h)
            · exact absurd h hu
            · exact h
        have hnstk2 : ¬ s2.self.OnStack v := by
          rw [hstk2, hinv.stk]
          exact hvS
        have hdone2 : ∀ u, u ≠ v → (s2.self.Done u ↔ s'.self.Done u) := by
          intro u hu
          unfold Done
          rw [hstk2' u hu]
          rfl
        have hdw : ∀ w, s'.self.Done w → s2.self.Done w := by
          intro w hw
          have hwv : w ≠ v := fun h => hw.2 (h ▸ hstk')
          exact (hdone2 w hwv).mpr hw
        have hclosed2 : ∀ u w, s2.self.Done u → s2.self.Edge u w → s2.self.Done w := by
          intro u w hu hw
          have hw' : s'.self.Edge u w := (edge_congr hg2 u w).mp hw
          by_cases huv : u = v
          · subst huv
            exact hdw w (hsucc w hw')
          · exact hdw w (hinv'.closed u w ((hdone2 u huv).mp hu) hw')
        refine ⟨?_, hvv, ⟨hvisk, fun u hu => hpark u (Or.inl hu), hrec2, ?_, ?_⟩,
          hpark v (Or.inr rfl)⟩
        · exact
            { lenV := hinv'.lenV
              lenR := by rw [hrec2, hinv.lenR, hg'.1]
              lenP := hinv'.lenP
              stk := fun u => (hstk2 u).trans (hinv.stk u)
              stkV := fun u hu => hvisk u (hinv.stkV u hu)
              nodup := hinv.nodup
              chain := chain_congr (sameGraph_chain hg1 (sameGraph_chain hg' hg2))
                (fun u hu => hpark u (Or.inl (hinv.stkV u hu))) hinv.chain
              closed := hclosed2
              acyc := by
                intro u hu hcyc
                rw [edge_eq hg2] at hcyc
                by_cases huv : u = v
                · subst huv
                  obtain ⟨w, hw, hrest⟩ := Relation.TransGen.head'_iff.mp hcyc
                  have := done_reach hinv'.closed (hsucc w hw) hrest
                  exact this.2 hstk'
                · exact hinv'.acyc u ((hdone2 u huv).mp hu) hcyc }
        · exact hkept.cs
        · exact hkept.ce

end CyclicDFS

/-- A chain from `a` through a non-empty list relates `a` to the last entry transitively. -/
theorem transGen_of_chain {R : Nat → Nat → Prop} :
    ∀ (l : List Nat) (a b : Nat), List.Chain' R (a :: l) → (a :: l).getLast? = some b →
      l ≠ [] → Relation.TransGen R a b := by
  intro l
  induction l with
  | nil => intro a b _ _ h; exact absurd rfl h
  | cons x l ih =>
    intro a b hc hl _
    rw [List.chain'_cons] at hc
    cases l with
    | nil =>
      simp at hl
      subst hl
      exact Relation.TransGen.single hc.1
    | cons y l =>
      have hl' : (x :: y :: l).getLast? = some b := by
        simpa [List.getLast?_cons_cons] using hl
      exact Relation.TransGen.head hc.1 (ih x b hc.2 hl' (List.cons_ne_nil _ _))

/-- A closed walk puts its first vertex on a cycle of the edge relation. -/
theorem transGen_of_closedWalk {n : Nat} {m : List (List Int)} {p : List Nat}
    (h : IsClosedWalk n m p) : ∃ a, a < n ∧ Relation.TransGen (IsEdge n m) a a := by
  obtain ⟨hlen, hch, hcl⟩ := h
  match p, hlen, hch, hcl with
  | a :: b :: l, _, hch, hcl =>
    refine ⟨a, ?_, transGen_of_chain (b :: l) a a hch ?_ (List.cons_ne_nil _ _)⟩
    · rw [List.chain'_cons] at hch
      exact hch.1.1
    · rw [← hcl]
      rfl

/-- A cycle of the edge relation unfolds into a closed walk. -/
theorem exists_walk_of_transGen {n : Nat} {m : List (List Int)} {a b : Nat}
    (h : Relation.TransGen (IsEdge n m) a b) :
    ∃ l : List Nat, List.Chain' (IsEdge n m) (a :: (l ++ [b])) := by
  induction h using Relation.TransGen.head_induction_on with
  | base hab => exact ⟨[], by simpa using hab⟩
  | @ih a' c' hac _ ih =>
    obtain ⟨l, hl⟩ := ih
    exact ⟨c' :: l, by
      rw [List.cons_append, List.chain'_cons]
      exact ⟨hac, hl⟩⟩

theorem hasDirectedCycle_iff_transGen (n : Nat) (m : List (List Int)) :
    HasDirectedCycle n m ↔ ∃ a, Relation.TransGen (IsEdge n m) a a := by
  constructor
  · rintro ⟨p, hp⟩
    obtain ⟨a, _, ha⟩ := transGen_of_closedWalk hp
    exact ⟨a, ha⟩
  · rintro ⟨a, ha⟩
    obtain ⟨l, hl⟩ := exists_walk_of_transGen ha
    refine ⟨a :: (l ++ [a]), ?_, hl, ?_⟩
    · simp
    · show some a = ((a :: l) ++ [a]).getLast?
      rw [List.getLast?_append]
      rfl

theorem chain_mem_lt {n : Nat} {m : List (List Int)} :
    ∀ p : List Nat, List.Chain' (IsEdge n m) p → 2 ≤ p.length → ∀ x ∈ p, x < n := by
  intro p
  induction p with
  | nil => intro _ h; simp at h
  | cons a q ih =>
    intro hch hlen x hx
    cases q with
    | nil => simp at hlen
    | cons b l =>
      rw [List.chain'_cons] at hch
      rcases List.mem_cons.mp hx with h | h
      · subst h
        exact hch.1.1
      · cases l with
        | nil =>
          simp at h
          subst h
          exact hch.1.2.1
        | cons d l => exact ih hch.2 (by simp) x h

/-- A closed walk of vertex numbers, read as a `vector<int>`, meets the cycle-path contract. -/
theorem isCyclePath_of_closedWalk {n : Nat} {m : List (List Int)} {p : List Nat}
    (h : IsClosedWalk n m p) : IsCyclePath n m (p.map (fun x : Nat => (x : Int))) := by
  obtain ⟨hlen, hch, hcl⟩ := h
  have hmem := chain_mem_lt p hch hlen
  refine ⟨by simpa using hlen, ?_, ?_, ?_⟩
  · intro x hx
    obtain ⟨y, hy, rfl⟩ := List.mem_map.mp hx
    exact ⟨Int.ofNat_nonneg y, by exact_mod_cast hmem y hy⟩
  · rw [List.head?_map, List.getLast?_map, hcl]
  · rw [List.chain'_map]
    exact hch.imp (fun a b hab => by simpa using hab.2.2)

namespace CyclicDFS

/-- The parent walk of `findCyclePath` along a stack segment `pre ++ [u]` (top first) that ends
at `cycleStart = u`: it collects exactly `pre`. -/
theorem findCyclePathLoop_chain (c : CyclicDFS) (u : Nat) :
    ∀ (pre : List Nat) (fuel : Nat) (cur : Nat) (tmp : List Int),
      (pre ++ [u]).Chain' c.Link → u ∉ pre → (∀ x ∈ pre, x < c.parent.length) →
      (pre ++ [u]).head? = some cur → pre.length < fuel →
      findCyclePathLoop c.parent (u : Int) fuel (cur : Int) tmp
        = some (tmp ++ pre.map (fun x : Nat => (x : Int))) := by
  intro pre
  induction pre with
  | nil =>
    intro fuel cur tmp _ _ _ hhead hfuel
    simp at hhead
    subst hhead
    obtain ⟨f, rfl⟩ : ∃ f, fuel = f + 1 := ⟨fuel - 1, by simp at hfuel; omega⟩
    simp [findCyclePathLoop]
  | cons x pre ih =>
    intro fuel cur tmp hch hu hlt hhead hfuel
    simp at hhead
    subst hhead
    obtain ⟨f, rfl⟩ : ∃ f, fuel = f + 1 := ⟨fuel - 1, by simp at hfuel; omega⟩
    have hxu : (x : Int) ≠ (u : Int) := by
      intro h
      exact hu (by rw [Int.ofNat_inj.mp h]; exact List.mem_cons_self _ _)
    have hx : x < c.parent.length := hlt x (List.mem_cons_self _ _)
    rw [List.cons_append, List.chain'_cons'] at hch
    obtain ⟨y, hy⟩ : ∃ y, (pre ++ [u]).head? = some y := by
      cases pre with
      | nil => exact ⟨u, rfl⟩
      | cons z _ => exact ⟨z, rfl⟩
    have hlink := hch.1 y hy
    unfold findCyclePathLoop
    rw [if_pos hxu, if_pos ⟨Int.ofNat_nonneg x, by simpa using hx⟩]
    simp only [Int.toNat_ofNat]
    rw [hlink.1]
    rw [ih f y (tmp ++ [(x : Int)]) hch.2 (fun h => hu (List.mem_cons_of_mem _ h))
      (fun z hz => hlt z (List.mem_cons_of_mem _ hz)) hy (by simp at hfuel; omega)]
    simp

theorem findCyclePath_spec (s : DfsState) (h : Back s) :
    ∃ c', s.self.findCyclePath s.cycleStart s.cycleEnd = some c' ∧
      c'.vertices = s.self.vertices ∧ c'.adjMatrix = s.self.adjMatrix ∧
      c'.visited = s.self.visited ∧ c'.recStack = s.self.recStack ∧
      c'.parent = s.self.parent ∧ Found c' := by
  obtain ⟨w, u, T, hce, hcs, hu, hnd, hlt, hch, hedge, hlen⟩ := h
  obtain ⟨pre, post, hsplit⟩ := List.append_of_mem hu
  have hnd' : (pre ++ [u]).Nodup := by
    have : (pre ++ [u] ++ post).Nodup := by
      rw [List.append_assoc]
      simpa [← hsplit] using hnd
    exact (List.nodup_append.mp this).1
  have hupre : u ∉ pre := by
    intro hm
    have := List.nodup_append.mp hnd'
    exact this.2.2 hm (List.mem_singleton_self u)
  have hch' : (pre ++ [u]).Chain' s.self.Link := by
    rw [hsplit, List.chain'_split] at hch
    exact hch.1
  have hlt' : ∀ x ∈ pre ++ [u], x < s.self.vertices := by
    intro x hx
    apply hlt x
    rw [hsplit]
    rcases List.mem_append.mp hx with h | h
    · exact List.mem_append_left _ h
    · simp at h
      subst h
      simp
  have hhead : (pre ++ [u]).head? = some w := by
    cases pre with
    | nil =>
      simp at hsplit
      simp [hsplit.1]
    | cons z pre =>
      simp at hsplit
      simp [hsplit.1]
  have hprelen : pre.length < s.self.vertices + 1 := by
    have := nodup_lt_length_le s.self.vertices (pre ++ [u]) hnd' hlt'
    simp at this
    omega
  have hrun := findCyclePathLoop_chain s.self u pre (s.self.vertices + 1) w [] hch' hupre
    (fun x hx => by rw [hlen]; exact hlt' x (List.mem_append_left _ hx)) hhead hprelen
  unfold findCyclePath
  rw [hcs, hce, hrun]
  refine ⟨_, rfl, rfl, rfl, rfl, rfl, rfl, ?_⟩
  refine ⟨(pre ++ [u]).reverse ++ [u], ?_, ⟨?_, ?_, ?_⟩, ?_⟩
  · simp
  · simp
  · rw [List.chain'_append]
    refine ⟨?_, List.chain'_singleton u, ?_⟩
    · rw [List.chain'_reverse]
      exact hch'.imp (fun a b hab => hab.2)
    · intro x hx y hy
      rw [List.getLast?_reverse, hhead] at hx
      simp at hx hy
      subst hx hy
      exact hedge
  · rw [List.getLast?_append, List.reverse_append]
    rfl
  · rw [List.dropLast_concat]
    exact List.nodup_reverse.mpr hnd'

/-- The outer loop of `hasCycle`. -/
theorem hasCycleLoop_spec :
    ∀ (is : List Nat) (s : DfsState),
      Inv s.self [] → (∀ i ∈ is, i < s.self.vertices) →
      (∀ i, i < s.self.vertices → i ∉ is → s.self.Vis i) →
      ∃ b s', hasCycleLoop is s = some (b, s') ∧
        s'.self.vertices = s.self.vertices ∧ s'.self.adjMatrix = s.self.adjMatrix ∧
        (b = false → Inv s'.self [] ∧ (∀ i, i < s.self.vertices → s'.self.Vis i) ∧
          s'.self.cyclePath = s.self.cyclePath) ∧
        (b = true → Found s'.self) := by
  intro is
  induction is with
  | nil =>
    intro s hinv _ hvis
    exact ⟨false, s, rfl, rfl, rfl,
      fun _ => ⟨hinv, fun i hi => hvis i hi (List.not_mem_nil i), rfl⟩, (fun h => by cases h)⟩
  | cons i is ih =>
    intro s hinv hlt hvis
    have hlt' : ∀ x ∈ is, x < s.self.vertices := fun x hx => hlt x (List.mem_cons_of_mem _ hx)
    unfold hasCycleLoop
    by_cases h0 : s.self.visited.getD i 0 = 0
    · rw [if_pos h0]
      obtain ⟨b, s', hrun, hg, hf, ht⟩ := dfsUtil_spec s.self.vertices i s [] hinv
        (hlt i (List.mem_cons_self _ _)) (fun h => h h0) (List.chain'_singleton i)
        (unvisited_le _)
      rw [hrun]
      cases b with
      | true =>
        obtain ⟨c', hfc, hv, ha, _, _, _, hfound⟩ := findCyclePath_spec s' (ht rfl)
        simp only []
        rw [hfc]
        exact ⟨true, _, rfl, hv.trans hg.1, ha.trans hg.2.1, (fun h => by cases h),
          fun _ => hfound⟩
      | false =>
        obtain ⟨hinv', hvi, hkept, _⟩ := hf rfl
        obtain ⟨b2, s'', hrun2, hv2, ha2, hf2, ht2⟩ := ih s' hinv'
          (by rw [hg.1]; exact hlt')
          (by
            intro j hj hjn
            rw [hg.1] at hj
            by_cases hji : j = i
            · subst hji
              exact hvi
            · exact hkept.vis j (hvis j hj (by
                simp only [List.mem_cons, not_or]; exact ⟨hji, hjn⟩)))
        refine ⟨b2, s'', hrun2, hv2.trans hg.1, ha2.trans hg.2.1, ?_, ht2⟩
        intro hb
        obtain ⟨h1, h2, h3⟩ := hf2 hb
        exact ⟨h1, fun j hj => h2 j (by rw [hg.1]; exact hj), h3.trans hg.2.2⟩
    · rw [if_neg h0]
      exact ih s hinv hlt' (by
        intro j hj hjn
        by_cases hji : j = i
        · subst hji
          exact h0
        · exact hvis j hj (by simp only [List.mem_cons, not_or]; exact ⟨hji, hjn⟩))

/-- The specification of `hasCycle`: it returns; `false` means that the graph has no directed
cycle (and `cyclePath` is left as it was), `true` means that `cyclePath` holds a closed walk. -/
theorem hasCycle_spec (c : CyclicDFS) (h : c.WF) :
    ∃ b c', c.hasCycle = some (b, c') ∧ c'.vertices = c.vertices ∧
      c'.adjMatrix = c.adjMatrix ∧
      (b = false → ¬ HasDirectedCycle c.vertices c.adjMatrix ∧ c'.cyclePath = c.cyclePath) ∧
      (b = true → Found c') := by
  obtain ⟨_, _, hV, hR, hP⟩ := h
  set c0 : CyclicDFS :=
    { c with
      visited := List.replicate c.visited.length 0
      recStack := List.replicate c.recStack.length 0
      parent := List.replicate c.parent.length (-1) } with hc0
  have hnv : ∀ u, ¬ c0.Vis u := fun u hu => hu (getD_replicate _ _ _)
  have hinv0 : Inv c0 [] :=
    { lenV := by simp [hc0, hV]
      lenR := by simp [hc0, hR]
      lenP := by simp [hc0, hP]
      stk := by
        intro u
        simp only [List.not_mem_nil, iff_false]
        exact fun hu => hu (getD_replicate _ _ _)
      stkV := fun u hu => absurd hu (List.not_mem_nil u)
      nodup := List.nodup_nil
      chain := List.chain'_nil
      closed := fun u _ hu _ => absurd hu.1 (hnv u)
      acyc := fun u hu => absurd hu.1 (hnv u) }
  obtain ⟨b, s', hrun, hv, ha, hf, ht⟩ := hasCycleLoop_spec (List.range c0.vertices)
    { self := c0, cycleStart := -1, cycleEnd := -1 } hinv0
    (fun i hi => List.mem_range.mp hi)
    (fun i hi hn => absurd (List.mem_range.mpr hi) hn)
  refine ⟨b, s'.self, ?_, hv, ha, ?_, ht⟩
  · unfold hasCycle
    simp only []
    rw [hrun]
  · intro hb
    obtain ⟨hinv', hall, hcp⟩ := hf hb
    refine ⟨?_, hcp⟩
    intro hcyc
    obtain ⟨p, hp⟩ := hcyc
    obtain ⟨a, ha', hta⟩ := transGen_of_closedWalk hp
    have hdone : s'.self.Done a := ⟨hall a ha', fun hs => by
      have := (hinv'.stk a).mp hs
      exact absurd this (List.not_mem_nil a)⟩
    apply hinv'.acyc a hdone
    have : s'.self.Edge = IsEdge c.vertices c.adjMatrix := by
      unfold Edge
      rw [hv, ha]
    rw [this]
    exact hta

end CyclicDFS

namespace CyclicBFS

theorem Exact.covers {c : CyclicBFS} (h : c.Exact) : c.Covers :=
  fun v hv => le_of_eq (h v hv).symm

/-- The effect of one pass of the relaxation loop, in closed form. -/
theorem kahnRelax_spec (c : CyclicBFS) (u : Nat) :
    ∀ (vs : List Nat) (temp : List Int) (q : List Nat), vs.Nodup →
      (∀ v ∈ vs, v < temp.length) →
      (kahnRelax c u vs (temp, q)).1.length = temp.length ∧
      (∀ v, (kahnRelax c u vs (temp, q)).1.getD v 0 =
        if v ∈ vs ∧ c.adj u v = 1 then temp.getD v 0 - 1 else temp.getD v 0) ∧
      (kahnRelax c u vs (temp, q)).2 =
        q ++ vs.filter (fun v => c.adj u v = 1 ∧ temp.getD v 0 = 1) := by
  intro vs
  induction vs with
  | nil =>
    intro temp q _ _
    simp [kahnRelax]
  | cons v vs ih =>
    intro temp q hnd hlt
    have hv : v < temp.length := hlt v (List.mem_cons_self _ _)
    have hvs : v ∉ vs := (List.nodup_cons.mp hnd).1
    have hnd' : vs.Nodup := (List.nodup_cons.mp hnd).2
    unfold kahnRelax
    by_cases hadj : c.adj u v = 1
    · rw [if_pos hadj]
      simp only []
      have hset : (temp.set v (temp.getD v 0 - 1)).getD v 0 = temp.getD v 0 - 1 :=
        getD_set_self _ _ _ _ hv
      have hlt2 : ∀ w ∈ vs, w < (temp.set v (temp.getD v 0 - 1)).length := by
        intro w hw
        rw [List.length_set]
        exact hlt w (List.mem_cons_of_mem _ hw)
      have hfilter : vs.filter (fun w => c.adj u w = 1 ∧
            (temp.set v (temp.getD v 0 - 1)).getD w 0 = 1)
          = vs.filter (fun w => c.adj u w = 1 ∧ temp.getD w 0 = 1) := by
        apply List.filter_congr
        intro w hw
        have : v ≠ w := fun h => hvs (h ▸ hw)
        rw [getD_set_ne _ _ _ _ _ this]
      have hval : ∀ (q' : List Nat) (w : Nat),
          (kahnRelax c u vs (temp.set v (temp.getD v 0 - 1), q')).1.getD w 0 =
            if (w ∈ v :: vs) ∧ c.adj u w = 1 then temp.getD w 0 - 1 else temp.getD w 0 := by
        intro q' w
        rw [(ih _ q' hnd' hlt2).2.1 w]
        by_cases hwv : w = v
        · subst hwv
          rw [if_neg (fun h => hvs h.1), if_pos ⟨List.mem_cons_self _ _, hadj⟩, hset]
        · rw [getD_set_ne _ _ _ _ _ (Ne.symm hwv)]
          have : (w ∈ v :: vs ∧ c.adj u w = 1) ↔ (w ∈ vs ∧ c.adj u w = 1) := by
            rw [List.mem_cons]
            constructor
            · rintro ⟨h | h, h2⟩
              · exact absurd h hwv
              · exact ⟨h, h2⟩
            · rintro ⟨h, h2⟩
              exact ⟨Or.inr h, h2⟩
          simp only [this]
      by_cases h0 : (temp.set v (temp.getD v 0 - 1)).getD v 0 = 0
      · rw [if_pos h0]
        obtain ⟨h1, _, h3⟩ := ih (temp.set v (temp.getD v 0 - 1)) (q ++ [v]) hnd' hlt2
        refine ⟨by rw [h1, List.length_set], hval _, ?_⟩
        rw [h3, hfilter]
        have : temp.getD v 0 = 1 := by rw [hset] at h0; omega
        rw [List.filter_cons, if_pos (decide_eq_true ⟨hadj, this⟩)]
        simp
      · rw [if_neg h0]
        obtain ⟨h1, _, h3⟩ := ih (temp.set v (temp.getD v 0 - 1)) q hnd' hlt2
        refine ⟨by rw [h1, List.length_set], hval _, ?_⟩
        rw [h3, hfilter]
        have : temp.getD v 0 ≠ 1 := by rw [hset] at h0; omega
        rw [List.filter_cons, if_neg (by rw [decide_eq_true_eq]; exact fun h => this h.2)]
    · rw [if_neg hadj]
      obtain ⟨h1, h2, h3⟩ := ih temp q hnd' (fun w hw => hlt w (List.mem_cons_of_mem _ hw))
      refine ⟨h1, ?_, ?_⟩
      · intro w
        rw [h2 w]
        have : (w ∈ v :: vs ∧ c.adj u w = 1) ↔ (w ∈ vs ∧ c.adj u w = 1) := by
          rw [List.mem_cons]
          constructor
          · rintro ⟨h | h, h2⟩
            · exact absurd (h ▸ h2) hadj
            · exact ⟨h, h2⟩
          · rintro ⟨h, h2⟩
            exact ⟨Or.inr h, h2⟩
        simp only [this]
      · rw [h3, List.filter_cons, if_neg (by rw [decide_eq_true_eq]; exact fun h => hadj h.1)]

/-- Counting: when as many predecessors of `v` lie in the duplicate-free list `T` as the matrix
column of `v` has ones, every predecessor of `v` lies in `T`. -/
theorem preds_all (c : CyclicBFS) (T : List Nat) (v : Nat) (hnd : T.Nodup)
    (hlt : ∀ x ∈ T, x < c.vertices) (h : c.columnCount v ≤ c.preds T v) :
    ∀ u, c.Edge u v → u ∈ T := by
  intro u hu
  have hsub : T.Subperm (List.range c.vertices) :=
    List.subperm_of_subset hnd (fun x hx => List.mem_range.mpr (hlt x hx))
  have hsub' := hsub.filter (fun u => decide (c.adj u v = 1))
  have hperm := hsub'.perm_of_length_le h
  have hmem : u ∈ (List.range c.vertices).filter (fun u => decide (c.adj u v = 1)) := by
    rw [List.mem_filter]
    exact ⟨List.mem_range.mpr hu.1, by simpa using hu.2.2⟩
  exact (List.mem_filter.mp (hperm.symm.subset hmem)).1

theorem preds_le_columnCount (c : CyclicBFS) (T : List Nat) (v : Nat) (hnd : T.Nodup)
    (hlt : ∀ x ∈ T, x < c.vertices) : c.preds T v ≤ c.columnCount v := by
  have hsub : T.Subperm (List.range c.vertices) :=
    List.subperm_of_subset hnd (fun x hx => List.mem_range.mpr (hlt x hx))
  exact (hsub.filter (fun u => decide (c.adj u v = 1))).length_le

theorem preds_append (c : CyclicBFS) (T : List Nat) (u v : Nat) :
    (c.preds (T ++ [u]) v : Int) = c.preds T v + (if c.adj u v = 1 then 1 else 0) := by
  unfold preds
  rw [List.filter_append, List.length_append]
  by_cases h : c.adj u v = 1
  · simp [List.filter_cons, h]
  · simp [List.filter_cons, h]

theorem kinv_init (c : CyclicBFS) (hwf : c.WF) (hc : c.Covers) :
    KInv c c.inDegree ((List.range c.vertices).filter (fun i => c.inDegree.getD i 0 = 0)) [] := by
  refine
    { len := hwf.2.2
      nodup := by
        rw [List.nil_append]
        exact (List.nodup_range _).filter _
      lt := ?_
      val := ?_
      mem := ?_
      ord := ?_ }
  · intro v hv
    rw [List.nil_append, List.mem_filter] at hv
    exact List.mem_range.mp hv.1
  · intro v _
    simp [preds]
  · intro v hv
    rw [List.nil_append, List.mem_filter]
    constructor
    · intro h
      simpa using h.2
    · intro h
      exact ⟨List.mem_range.mpr hv, by simpa using h⟩
  · intro v hv u hu
    exfalso
    rw [List.nil_append, List.mem_filter] at hv
    have h0 : c.inDegree.getD v 0 = 0 := by simpa using hv.2
    have hcc := hc v hu.2.1
    rw [h0] at hcc
    have hz : c.columnCount v = 0 := by omega
    unfold columnCount at hz
    rw [List.length_eq_zero] at hz
    have hmem : u ∈ (List.range c.vertices).filter (fun u => decide (c.adj u v = 1)) := by
      rw [List.mem_filter]
      exact ⟨List.mem_range.mpr hu.1, decide_eq_true hu.2.2⟩
    rw [hz] at hmem
    exact List.not_mem_nil _ hmem

/-- One iteration of the `while` loop keeps the invariant. -/
theorem kinv_step (c : CyclicBFS) (hc : c.Covers) (temp : List Int) (u : Nat)
    (q topo : List Nat) (h : KInv c temp (u :: q) topo) :
    KInv c (kahnRelax c u (List.range c.vertices) (temp, q)).1
      (kahnRelax c u (List.range c.vertices) (temp, q)).2 (topo ++ [u]) := by
  obtain ⟨h1, h2, h3⟩ := kahnRelax_spec c u (List.range c.vertices) temp q
    (List.nodup_range _) (fun v hv => by rw [h.len]; exact List.mem_range.mp hv)
  set temp' := (kahnRelax c u (List.range c.vertices) (temp, q)).1 with htemp'
  set q' := (kahnRelax c u (List.range c.vertices) (temp, q)).2 with hq'
  set new := (List.range c.vertices).filter (fun v => c.adj u v = 1 ∧ temp.getD v 0 = 1)
    with hnew
  have hult : u < c.vertices := h.lt u (by simp)
  have hL : (topo ++ [u]) ++ q' = (topo ++ u :: q) ++ new := by
    rw [h3]
    simp
  have hnewmem : ∀ w, w ∈ new ↔ (w < c.vertices ∧ c.adj u w = 1 ∧ temp.getD w 0 = 1) := by
    intro w
    rw [hnew, List.mem_filter, List.mem_range, decide_eq_true_eq]
  have hutopo : u ∉ topo := by
    have := h.nodup
    rw [List.nodup_append] at this
    intro hm
    exact this.2.2 hm (List.mem_cons_self _ _)
  -- an enqueued vertex is not a successor of `u`
  have hnoedge : ∀ v ∈ topo ++ u :: q, ¬ c.adj u v = 1 := by
    intro v hv hadj
    exact hutopo (h.ord v hv u ⟨hult, h.lt v hv, hadj⟩).1
  have hnewL : ∀ w ∈ new, w ∉ topo ++ u :: q := by
    intro w hw hm
    exact hnoedge w hm ((hnewmem w).mp hw).2.1
  have hval' : ∀ v, v < c.vertices →
      temp'.getD v 0 = c.inDegree.getD v 0 - (c.preds (topo ++ [u]) v : Int) := by
    intro v hv
    rw [h2 v, preds_append, h.val v hv]
    by_cases hadj : c.adj u v = 1
    · rw [if_pos ⟨List.mem_range.mpr hv, hadj⟩, if_pos hadj]
      ring
    · rw [if_neg (fun hh => hadj hh.2), if_neg hadj]
      ring
  have hmem' : ∀ v, v < c.vertices → (v ∈ (topo ++ u :: q) ++ new ↔ temp'.getD v 0 = 0) := by
    intro v hv
    rw [h2 v, List.mem_append]
    by_cases hadj : c.adj u v = 1
    · rw [if_pos ⟨List.mem_range.mpr hv, hadj⟩]
      constructor
      · rintro (hm | hm)
        · exact absurd hadj (hnoedge v hm)
        · have := ((hnewmem v).mp hm).2.2
          omega
      · intro h0
        exact Or.inr ((hnewmem v).mpr ⟨hv, hadj, by omega⟩)
    · rw [if_neg (fun hh => hadj hh.2)]
      constructor
      · rintro (hm | hm)
        · exact (h.mem v hv).mp hm
        · exact absurd ((hnewmem v).mp hm).2.1 hadj
      · intro h0
        exact Or.inl ((h.mem v hv).mpr h0)
  have hnd' : ((topo ++ u :: q) ++ new).Nodup := by
    rw [List.nodup_append]
    refine ⟨h.nodup, (List.nodup_range _).filter _, ?_⟩
    intro a ha hb
    exact hnewL a hb ha
  have hlt' : ∀ v ∈ (topo ++ u :: q) ++ new, v < c.vertices := by
    intro v hv
    rcases List.mem_append.mp hv with hm | hm
    · exact h.lt v hm
    · exact ((hnewmem v).mp hm).1
  have hndT : (topo ++ [u]).Nodup := by
    have : (topo ++ [u]).Sublist (topo ++ u :: q) := by
      apply List.Sublist.append_left
      simp
    exact h.nodup.sublist this
  have hltT : ∀ x ∈ topo ++ [u], x < c.vertices := by
    intro x hx
    apply h.lt x
    rcases List.mem_append.mp hx with hm | hm
    · exact List.mem_append_left _ hm
    · simp at hm
      subst hm
      simp
  refine
    { len := by rw [h1, h.len]
      nodup := by rw [hL]; exact hnd'
      lt := by rw [hL]; exact hlt'
      val := hval'
      mem := by rw [hL]; exact hmem'
      ord := ?_ }
  rw [hL]
  intro v hv a ha
  rcases List.mem_append.mp hv with hm | hm
  · obtain ⟨hm1, hm2⟩ := h.ord v hm a ha
    refine ⟨List.mem_append_left _ hm1, ?_⟩
    rw [List.indexOf_append_of_mem (List.mem_append_left _ hm1),
      List.indexOf_append_of_mem hm]
    exact hm2
  · have hvlt : v < c.vertices := ((hnewmem v).mp hm).1
    have h0 : temp'.getD v 0 = 0 := (hmem' v hvlt).mp hv
    rw [hval' v hvlt] at h0
    have hcov := hc v hvlt
    have hcnt : c.columnCount v ≤ c.preds (topo ++ [u]) v := by omega
    have haT : a ∈ topo ++ [u] := preds_all c (topo ++ [u]) v hndT hltT hcnt a ha
    have haL : a ∈ topo ++ u :: q := by
      rcases List.mem_append.mp haT with hx | hx
      · exact List.mem_append_left _ hx
      · simp at hx
        subst hx
        simp
    refine ⟨haT, ?_⟩
    rw [List.indexOf_append_of_mem haL, List.indexOf_append_of_not_mem (hnewL v hm)]
    have := List.indexOf_lt_length.mpr haL
    omega

/-- The `while` loop returns when it has one unit of fuel for every vertex not yet processed,
and its result satisfies the invariant with an empty queue. -/
theorem kahnLoop_spec (c : CyclicBFS) (hc : c.Covers) :
    ∀ (fuel : Nat) (temp : List Int) (q topo : List Nat),
      KInv c temp q topo → c.vertices ≤ topo.length + fuel →
      ∃ temp' topo', kahnLoop c fuel temp q topo = some (temp', topo') ∧
        KInv c temp' [] topo' := by
  intro fuel
  induction fuel with
  | zero =>
    intro temp q topo h hf
    cases q with
    | nil => exact ⟨temp, topo, by simp [kahnLoop], h⟩
    | cons u q =>
      exfalso
      have := nodup_lt_length_le c.vertices _ h.nodup h.lt
      simp at this
      omega
  | succ fuel ih =>
    intro temp q topo h hf
    cases q with
    | nil => exact ⟨temp, topo, by simp [kahnLoop], h⟩
    | cons u q =>
      have hstep := kinv_step c hc temp u q topo h
      obtain ⟨temp', topo', hrun, hinv⟩ := ih _ _ _ hstep (by simp; omega)
      exact ⟨temp', topo', by simp only [kahnLoop]; exact hrun, hinv⟩

/-- The `processed` flags built from `topoOrder`. -/
theorem processed_getD (n : Nat) :
    ∀ (topo : List Nat) (p : List Bool), p.length = n → (∀ v ∈ topo, v < n) →
      ∀ i, (topo.foldl (fun p v => p.set v true) p).getD i false
        = (p.getD i false || decide (i ∈ topo)) := by
  intro topo
  induction topo with
  | nil => intro p _ _ i; simp
  | cons v topo ih =>
    intro p hp hlt i
    rw [List.foldl_cons, ih (p.set v true) (by rw [List.length_set]; exact hp)
      (fun w hw => hlt w (List.mem_cons_of_mem _ hw)) i, getD_set_eq]
    have hv : v < p.length := by rw [hp]; exact hlt v (List.mem_cons_self _ _)
    by_cases hvi : v = i
    · subst hvi
      simp [hv]
    · have : ¬ i = v := fun h => hvi h.symm
      simp [hvi, this]

/-- The specification of `hasCycleKahn`, for an object whose in-degree table covers the
matrix: it returns, `false` exactly when every vertex was processed. -/
theorem hasCycleKahn_spec (c : CyclicBFS) (hwf : c.WF) (hc : c.Covers) :
    ∃ topo, KahnFacts c topo ∧
      c.hasCycleKahn = some
        (if topo.length = c.vertices then { ret := false, topoOrder := topo, self := c }
         else { ret := true, topoOrder := topo, self := c.withUnprocessed topo }) := by
  obtain ⟨temp', topo, hrun, hinv⟩ := kahnLoop_spec c hc c.vertices c.inDegree _ []
    (kinv_init c hwf hc) (by simp)
  have hfacts : KahnFacts c topo :=
    { nodup := by simpa using hinv.nodup
      lt := by simpa using hinv.lt
      mem := by
        intro v hv
        have h1 := hinv.mem v hv
        rw [List.append_nil] at h1
        rw [h1, hinv.val v hv]
        constructor <;> intro h <;> omega
      ord := by simpa using hinv.ord }
  refine ⟨topo, hfacts, ?_⟩
  unfold hasCycleKahn
  simp only []
  rw [hrun]
  simp only []
  by_cases hlen : topo.length = c.vertices
  · rw [if_pos hlen, if_pos hlen]
  · rw [if_neg hlen, if_neg hlen]
    congr 2
    unfold withUnprocessed
    congr 1
    apply List.filter_congr
    intro i _
    rw [processed_getD c.vertices topo _ (List.length_replicate _ _) hfacts.lt i,
      getD_replicate]
    simp

/-- Along any path into a processed vertex, everything was processed, and earlier. -/
theorem KahnFacts.before {c : CyclicBFS} {topo : List Nat} (h : KahnFacts c topo) {a b : Nat}
    (hab : Relation.TransGen c.Edge a b) (hb : b ∈ topo) :
    a ∈ topo ∧ topo.indexOf a < topo.indexOf b := by
  induction hab using Relation.TransGen.head_induction_on with
  | base hab => exact h.ord _ hb _ hab
  | ih hac _ ih =>
    obtain ⟨hc, hlt⟩ := ih
    obtain ⟨ha, hlt'⟩ := h.ord _ hc _ hac
    exact ⟨ha, lt_trans hlt' hlt⟩

/-- A vertex on a directed cycle is never processed. -/
theorem KahnFacts.not_mem_of_cycle {c : CyclicBFS} {topo : List Nat} (h : KahnFacts c topo)
    {a : Nat} (ha : Relation.TransGen c.Edge a a) : a ∉ topo :=
  fun hm => lt_irrefl _ (h.before ha hm).2

/-- When every vertex was processed, `topoOrder` is a permutation of `0 .. vertices - 1`. -/
theorem KahnFacts.perm {c : CyclicBFS} {topo : List Nat} (h : KahnFacts c topo)
    (hlen : topo.length = c.vertices) : topo.Perm (List.range c.vertices) := by
  have hsub : topo.Subperm (List.range c.vertices) :=
    List.subperm_of_subset h.nodup (fun x hx => List.mem_range.mpr (h.lt x hx))
  exact hsub.perm_of_length_le (by simp [hlen])

theorem mem_withUnprocessed {c : CyclicBFS} {topo : List Nat} (v : Nat) :
    v ∈ (c.withUnprocessed topo).cyclePath ↔ v < c.vertices ∧ v ∉ topo := by
  unfold withUnprocessed
  simp [List.mem_filter]

/-- With an exact in-degree table, an unprocessed vertex has an unprocessed predecessor. -/
theorem KahnFacts.unprocessed_pred {c : CyclicBFS} {topo : List Nat} (h : KahnFacts c topo)
    (he : c.Exact) (v : Nat) (hv : v < c.vertices) (hvt : v ∉ topo) :
    ∃ u, c.Edge u v ∧ u ∉ topo := by
  by_contra hno
  apply hvt
  rw [h.mem v hv, he v hv]
  have hle := preds_le_columnCount c topo v h.nodup h.lt
  have hge : c.columnCount v ≤ c.preds topo v := by
    unfold columnCount preds
    have hsub : (List.range c.vertices).filter (fun u => decide (c.adj u v = 1))
        ⊆ topo.filter (fun u => decide (c.adj u v = 1)) := by
      intro u hu
      rw [List.mem_filter] at hu ⊢
      refine ⟨?_, hu.2⟩
      by_contra hut
      exact hno ⟨u, ⟨List.mem_range.mp hu.1, hv, by simpa using hu.2⟩, hut⟩
    exact (List.subperm_of_subset ((List.nodup_range _).filter _) hsub).length_le
  have : c.preds topo v = c.columnCount v := le_antisymm hle hge
  rw [this]

/-- A relation without cycles on the vertices below `n` has, in every non-empty set of them,
an element without a predecessor in the set. -/
theorem exists_source {n : Nat} {E : Nat → Nat → Prop}
    (hirr : ∀ a, a < n → ¬ Relation.TransGen E a a) (U : Nat → Prop) (v : Nat) (hv : v < n)
    (hU : U v) : ∃ m, m < n ∧ U m ∧ ∀ u, u < n → U u → ¬ E u m := by
  let r : Fin n → Fin n → Prop := fun a b => Relation.TransGen E a.val b.val
  have htrans : IsTrans (Fin n) r := ⟨fun a b c hab hbc => Relation.TransGen.trans hab hbc⟩
  have hirrefl : IsIrrefl (Fin n) r := ⟨fun a ha => hirr a.val a.isLt ha⟩
  have hwf : WellFounded r := Finite.wellFounded_of_trans_of_irrefl r
  obtain ⟨m, hm, hmin⟩ := hwf.has_min {x : Fin n | U x.val} ⟨⟨v, hv⟩, hU⟩
  refine ⟨m.val, m.isLt, hm, ?_⟩
  intro u hu hUu hE
  exact hmin ⟨u, hu⟩ hUu (Relation.TransGen.single hE)

/-- With an exact in-degree table, Kahn's loop processes every vertex of an acyclic graph: the
verdict is `false` and the output order has length `vertices`. -/
theorem hasCycleKahn_acyclic (c : CyclicBFS) (hwf : c.WF) (he : c.Exact)
    (hac : ¬ HasDirectedCycle c.vertices c.adjMatrix) :
    ∃ r, c.hasCycleKahn = some r ∧ r.ret = false ∧ r.topoOrder.length = c.vertices ∧
      r.self = c := by
  obtain ⟨topo, hfacts, hrun⟩ := hasCycleKahn_spec c hwf he.covers
  by_cases hlen : topo.length = c.vertices
  · rw [if_pos hlen] at hrun
    exact ⟨_, hrun, rfl, hlen, rfl⟩
  · exfalso
    have hirr : ∀ a, a < c.vertices → ¬ Relation.TransGen c.Edge a a := by
      intro a _ ha
      exact hac ((hasDirectedCycle_iff_transGen _ _).mpr ⟨a, ha⟩)
    obtain ⟨v, hv, hvt⟩ : ∃ v, v < c.vertices ∧ v ∉ topo := by
      by_contra hno
      apply hlen
      have hsub : List.range c.vertices ⊆ topo := by
        intro v hv
        by_contra hvt
        exact hno ⟨v, List.mem_range.mp hv, hvt⟩
      have h1 := (List.subperm_of_subset (List.nodup_range _) hsub).length_le
      have h2 := nodup_lt_length_le c.vertices topo hfacts.nodup hfacts.lt
      simp at h1
      omega
    obtain ⟨m, hm, hmU, hmin⟩ := exists_source hirr (fun x => x ∉ topo) v hv hvt
    obtain ⟨u, hu, hut⟩ := hfacts.unprocessed_pred he m hm hmU
    exact hmin u hu.1 hut hu

theorem konce_step (c : CyclicBFS) (temp : List Int) (u : Nat) (q topo : List Nat)
    (h : KOnce c temp (u :: q) topo) :
    KOnce c (kahnRelax c u (List.range c.vertices) (temp, q)).1
      (kahnRelax c u (List.range c.vertices) (temp, q)).2 (topo ++ [u]) := by
  obtain ⟨h1, h2, h3⟩ := kahnRelax_spec c u (List.range c.vertices) temp q
    (List.nodup_range _) (fun v hv => by rw [h.len]; exact List.mem_range.mp hv)
  have hL : (topo ++ [u]) ++ (kahnRelax c u (List.range c.vertices) (temp, q)).2
      = (topo ++ u :: q) ++
        (List.range c.vertices).filter (fun v => c.adj u v = 1 ∧ temp.getD v 0 = 1) := by
    rw [h3]
    simp
  have hnewmem : ∀ w, w ∈ (List.range c.vertices).filter
      (fun v => decide (c.adj u v = 1 ∧ temp.getD v 0 = 1)) ↔
        (w < c.vertices ∧ c.adj u w = 1 ∧ temp.getD w 0 = 1) := by
    intro w
    rw [List.mem_filter, List.mem_range, decide_eq_true_eq]
  have hnewL : ∀ w, w ∈ (List.range c.vertices).filter
      (fun v => decide (c.adj u v = 1 ∧ temp.getD v 0 = 1)) → w ∉ topo ++ u :: q := by
    intro w hw hm
    have := h.inside w hm
    have := ((hnewmem w).mp hw).2.2
    omega
  refine
    { len := by rw [h1, h.len]
      nodup := ?_
      lt := ?_
      inside := ?_
      outside := ?_ }
  · rw [hL, List.nodup_append]
    exact ⟨h.nodup, (List.nodup_range _).filter _, fun a ha hb => hnewL a hb ha⟩
  · rw [hL]
    intro v hv
    rcases List.mem_append.mp hv with hm | hm
    · exact h.lt v hm
    · exact ((hnewmem v).mp hm).1
  · rw [hL]
    intro v hv
    rw [h2 v]
    rcases List.mem_append.mp hv with hm | hm
    · have := h.inside v hm
      split <;> omega
    · obtain ⟨hvl, hadj, hone⟩ := (hnewmem v).mp hm
      rw [if_pos ⟨List.mem_range.mpr hvl, hadj⟩]
      omega
  · rw [hL]
    intro v hv hvn
    rw [List.mem_append, not_or] at hvn
    have h0 := h.outside v hv hvn.1
    rw [h2 v]
    by_cases hadj : c.adj u v = 1
    · rw [if_pos ⟨List.mem_range.mpr hv, hadj⟩]
      intro hz
      exact hvn.2 ((hnewmem v).mpr ⟨hv, hadj, by omega⟩)
    · rw [if_neg (fun hh => hadj hh.2)]
      exact h0

theorem kahnLoop_returns (c : CyclicBFS) :
    ∀ (fuel : Nat) (temp : List Int) (q topo : List Nat),
      KOnce c temp q topo → c.vertices ≤ topo.length + fuel →
      ∃ r, kahnLoop c fuel temp q topo = some r := by
  intro fuel
  induction fuel with
  | zero =>
    intro temp q topo h hf
    cases q with
    | nil => exact ⟨(temp, topo), by simp [kahnLoop]⟩
    | cons u q =>
      exfalso
      have := nodup_lt_length_le c.vertices _ h.nodup h.lt
      simp at this
      omega
  | succ fuel ih =>
    intro temp q topo h hf
    cases q with
    | nil => exact ⟨(temp, topo), by simp [kahnLoop]⟩
    | cons u q =>
      obtain ⟨r, hr⟩ := ih _ _ _ (konce_step c temp u q topo h) (by simp; omega)
      exact ⟨r, by simp only [kahnLoop]; exact hr⟩

/-- For every object with the constructor's vector sizes, whatever its in-degree table,
`hasCycleKahn` returns: the fuel of its `while` loop is enough. -/
theorem hasCycleKahn_returns (c : CyclicBFS) (hwf : c.WF) : ∃ r, c.hasCycleKahn = some r := by
  obtain ⟨r, hr⟩ := kahnLoop_returns c c.vertices c.inDegree
    ((List.range c.vertices).filter (fun i => c.inDegree.getD i 0 = 0)) []
    { len := hwf.2.2
      nodup := by
        rw [List.nil_append]
        exact (List.nodup_range _).filter _
      lt := by
        intro v hv
        rw [List.nil_append, List.mem_filter] at hv
        exact List.mem_range.mp hv.1
      inside := by
        intro v hv
        rw [List.nil_append, List.mem_filter, decide_eq_true_eq] at hv
        exact le_of_eq hv.2
      outside := by
        intro v hv hvn h0
        apply hvn
        rw [List.nil_append, List.mem_filter, decide_eq_true_eq]
        exact ⟨List.mem_range.mpr hv, h0⟩ } (by simp)
  unfold hasCycleKahn
  simp only []
  rw [hr]
  obtain ⟨t, topo⟩ := r
  simp only []
  split
  · exact ⟨_, rfl⟩
  · exact ⟨_, rfl⟩

/-- The neighbour scan of `dfsForCycle`, for a recursive call that meets its specification. -/
theorem dfsForCycleLoop_spec (c : CyclicBFS) (target : Nat) (component : List Nat)
    (rec : Nat → List Nat → List Bool → Option (Bool × List Nat × List Bool))
    (current depth : Nat) (path1 : List Nat) (visited1 : List Bool)
    (hrec : ∀ next, FcPre c target component path1 visited1 next →
      ∃ r, rec next path1 visited1 = some r ∧
        FcPost c target component path1 visited1 (depth + 1) r)
    (hhead : path1.head? = some target) (hlast : path1.getLast? = some current)
    (hchain : path1.Chain' c.Edge) (hsub : ∀ x ∈ path1, x ∈ component)
    (hvlen : visited1.length = c.vertices)
    (hvis : ∀ x, visited1.getD x false = true ↔ x ∈ path1) (hnd : path1.Nodup)
    (hlen : path1.length = depth + 1) (hcur : current < c.vertices) :
    ∀ rest : List Nat, (∀ x ∈ rest, x < c.vertices) →
      ∃ r, dfsForCycleLoop rec c current target component depth rest path1 visited1 = some r ∧
        FcPost c target component path1 visited1 depth r := by
  intro rest
  induction rest with
  | nil =>
    intro _
    exact ⟨_, rfl, fun _ => ⟨rfl, rfl⟩, fun h => by cases h⟩
  | cons next rest ih =>
    intro hlt
    have ih' := ih (fun x hx => hlt x (List.mem_cons_of_mem _ hx))
    have hnext : next < c.vertices := hlt next (List.mem_cons_self _ _)
    have hne : path1 ≠ [] := by
      intro h
      rw [h] at hlen
      simp at hlen
    unfold dfsForCycleLoop
    by_cases hadj : c.adj current next = 1
    · rw [if_pos hadj]
      by_cases hmem : next ∈ component
      · rw [if_pos hmem]
        have hchain' : (path1 ++ [next]).Chain' c.Edge := by
          rw [List.chain'_append]
          refine ⟨hchain, List.chain'_singleton _, ?_⟩
          intro x hx y hy
          rw [hlast] at hx
          simp at hx hy
          subst hx hy
          exact ⟨hcur, hnext, hadj⟩
        have hhead' : (path1 ++ [next]).head? = some target := by
          rw [List.head?_append_of_ne_nil _ hne]
          exact hhead
        have hsub' : ∀ x ∈ path1 ++ [next], x ∈ component := by
          intro x hx
          rcases List.mem_append.mp hx with h | h
          · exact hsub x h
          · simp at h
            subst h
            exact hmem
        by_cases hclose : next = target ∧ depth > 0
        · rw [if_pos hclose]
          refine ⟨_, rfl, (fun h => by cases h), fun _ => ?_⟩
          refine ⟨hhead', ?_, hchain', hsub', ?_, ?_⟩
          · rw [List.getLast?_append, hclose.1]
            rfl
          · simp [hlen]
          · simp [hlen]
            omega
        · rw [if_neg hclose]
          by_cases hv : visited1.getD next false = false
          · rw [if_pos hv]
            have hfresh : next ∉ path1 := by
              intro hm
              have := (hvis next).mpr hm
              rw [hv] at this
              cases this
            obtain ⟨r, hr, hpost⟩ := hrec next
              { head := hhead', chain := hchain', sub := hsub', vlen := hvlen, vis := hvis,
                fresh := hfresh, nodup := hnd, lt := hnext }
            rw [hr]
            obtain ⟨b, p, v⟩ := r
            cases b with
            | true =>
              refine ⟨_, rfl, (fun h => by cases h), fun _ => ?_⟩
              obtain ⟨g1, g2, g3, g4, g5, g6⟩ := hpost.2 rfl
              exact ⟨g1, g2, g3, g4, by omega, g6⟩
            | false =>
              obtain ⟨hp, hv'⟩ := hpost.1 rfl
              simp only at hp hv'
              subst hp hv'
              exact ih'
          · rw [if_neg hv]
            exact ih'
      · rw [if_neg hmem]
        exact ih'
    · rw [if_neg hadj]
      exact ih'

/-- The specification of `dfsForCycle`: with fuel for the remaining depth it returns, and its
result satisfies `FcPost`. -/
theorem dfsForCycle_spec (c : CyclicBFS) (target : Nat) (component : List Nat) :
    ∀ (fuel current : Nat) (path : List Nat) (visited : List Bool),
      FcPre c target component path visited current →
      component.length + 1 ≤ fuel + path.length →
      ∃ r, dfsForCycle c target component fuel current path visited path.length = some r ∧
        FcPost c target component path visited path.length r := by
  intro fuel
  induction fuel with
  | zero =>
    intro current path visited hpre hfuel
    exfalso
    have hnd : (path ++ [current]).Nodup := by
      rw [List.nodup_append]
      refine ⟨hpre.nodup, List.nodup_singleton _, ?_⟩
      intro a ha hb
      simp at hb
      subst hb
      exact hpre.fresh ha
    have := (List.subperm_of_subset hnd hpre.sub).length_le
    simp at this
    omega
  | succ fuel ih =>
    intro current path visited hpre hfuel
    unfold dfsForCycle
    simp only []
    have hbr1 : ¬ (path.length > 0 ∧ current = target) := by
      rintro ⟨hpos, heq⟩
      have hne : path ≠ [] := by
        intro h
        rw [h] at hpos
        simp at hpos
      have hh := hpre.head
      rw [List.head?_append_of_ne_nil _ hne] at hh
      have : target ∈ path := by
        cases path with
        | nil => exact absurd rfl hne
        | cons a l =>
          simp at hh
          subst hh
          exact List.mem_cons_self _ _
      exact hpre.fresh (heq ▸ this)
    rw [if_neg hbr1]
    by_cases hbr2 : path.length ≥ component.length
    · rw [if_pos hbr2]
      exact ⟨_, rfl, fun _ => ⟨by simp, rfl⟩, fun h => by cases h⟩
    · rw [if_neg hbr2]
      have hcurlen : current < visited.length := by rw [hpre.vlen]; exact hpre.lt
      have hvcur : visited.getD current false = false := by
        by_contra h
        have : visited.getD current false = true := by
          cases hb : visited.getD current false
          · exact absurd hb h
          · rfl
        exact hpre.fresh ((hpre.vis current).mp this)
      have hvis1 : ∀ x, (visited.set current true).getD x false = true ↔
          x ∈ path ++ [current] := by
        intro x
        rw [getD_set_eq, List.mem_append, List.mem_singleton]
        by_cases hx : current = x
        · subst hx
          rw [if_pos ⟨rfl, hcurlen⟩]
          exact ⟨fun _ => Or.inr rfl, fun _ => rfl⟩
        · have hx' : ¬ x = current := fun h => hx h.symm
          rw [if_neg (fun h => hx h.1), hpre.vis x]
          exact ⟨fun h => Or.inl h, fun h => h.resolve_right hx'⟩
      have hnd1 : (path ++ [current]).Nodup := by
        rw [List.nodup_append]
        refine ⟨hpre.nodup, List.nodup_singleton _, ?_⟩
        intro a ha hb
        simp at hb
        subst hb
        exact hpre.fresh ha
      obtain ⟨r, hr, hpost⟩ := dfsForCycleLoop_spec c target component
        (fun next p vis => dfsForCycle c target component fuel next p vis (path.length + 1))
        current path.length (path ++ [current]) (visited.set current true)
        (by
          intro next hnext
          have := ih next (path ++ [current]) (visited.set current true) hnext
            (by simp; omega)
          simpa using this)
        hpre.head (by rw [List.getLast?_append]; rfl) hpre.chain hpre.sub
        (by rw [List.length_set]; exact hpre.vlen) hvis1 hnd1 (by simp) hpre.lt
        (List.range c.vertices) (fun x hx => List.mem_range.mp hx)
      rw [hr]
      obtain ⟨b, p, v⟩ := r
      cases b with
      | true =>
        exact ⟨_, rfl, (fun h => by cases h), fun _ => hpost.2 rfl⟩
      | false =>
        obtain ⟨hp, hv⟩ := hpost.1 rfl
        simp only at hp hv
        subst hp hv
        refine ⟨_, rfl, fun _ => ⟨by simp, ?_⟩, fun h => by cases h⟩
        show (visited.set current true).set current false = visited
        rw [List.set_set]
        conv_lhs => rw [← hvcur]
        exact set_getD_self _ _ _

theorem unvisitedB_mono (n : Nat) {vis vis' : List Bool}
    (h : ∀ x, vis.getD x false = true → vis'.getD x false = true) :
    unvisitedB n vis' ≤ unvisitedB n vis := by
  unfold unvisitedB
  apply Finset.card_le_card
  intro u hu
  simp only [Finset.mem_filter] at hu ⊢
  refine ⟨hu.1, ?_⟩
  cases hb : vis.getD u false
  · rfl
  · have := h u hb
    rw [hu.2] at this
    cases this

theorem unvisitedB_lt (n : Nat) {vis vis' : List Bool}
    (h : ∀ x, vis.getD x false = true → vis'.getD x false = true) (v : Nat) (hv : v < n)
    (h1 : vis.getD v false = false) (h2 : vis'.getD v false = true) :
    unvisitedB n vis' < unvisitedB n vis := by
  unfold unvisitedB
  apply Finset.card_lt_card
  constructor
  · intro u hu
    simp only [Finset.mem_filter] at hu ⊢
    refine ⟨hu.1, ?_⟩
    cases hb : vis.getD u false
    · rfl
    · have := h u hb
      rw [hu.2] at this
      cases this
  · intro hsub
    have hmem : v ∈ (Finset.range n).filter (fun u => vis.getD u false = false) := by
      simp only [Finset.mem_filter, Finset.mem_range]
      exact ⟨hv, h1⟩
    have := hsub hmem
    simp only [Finset.mem_filter] at this
    rw [h2] at this
    cases this.2

theorem getD_set_true (vis : List Bool) (v x : Nat) (hv : v < vis.length) :
    (vis.set v true).getD x false = true ↔ (vis.getD x false = true ∨ x = v) := by
  rw [getD_set_eq]
  by_cases hx : v = x
  · subst hx
    rw [if_pos ⟨rfl, hv⟩]
    exact ⟨fun _ => Or.inr rfl, fun _ => rfl⟩
  · rw [if_neg (fun h => hx h.1)]
    exact ⟨fun h => Or.inl h, fun h => h.resolve_right (fun h' => hx h'.symm)⟩

/-- The neighbour scan of `dfsComponent(v, ..)`. -/
theorem dfsComponentLoop_spec (c : CyclicBFS)
    (rec : Nat → List Bool × List Nat → Option (List Bool × List Nat)) (k : Nat)
    (hrec : CompRecSpec c rec k) (v : Nat) (hv : v < c.vertices) :
    ∀ (us : List Nat) (vis : List Bool) (comp : List Nat),
      vis.length = c.vertices → (∀ u ∈ us, u < c.vertices) →
      unvisitedB c.vertices vis ≤ k →
      ∃ vis' new, dfsComponentLoop rec c v us (vis, comp) = some (vis', comp ++ new) ∧
        CompPost c v vis vis' new := by
  intro us
  induction us with
  | nil =>
    intro vis comp hlen _ _
    refine ⟨vis, [], by simp [dfsComponentLoop], hlen, ?_, List.nodup_nil, ?_⟩
    · intro x
      simp
    · intro x hx
      exact absurd hx (List.not_mem_nil x)
  | cons u us ih =>
    intro vis comp hlen hlt hk
    have hlt' : ∀ x ∈ us, x < c.vertices := fun x hx => hlt x (List.mem_cons_of_mem _ hx)
    have hu : u < c.vertices := hlt u (List.mem_cons_self _ _)
    unfold dfsComponentLoop
    by_cases h1 : c.adj v u = 1 ∧ vis.getD u false = false
    · rw [if_pos h1]
      by_cases h2 : u ∈ c.cyclePath
      · rw [if_pos h2]
        obtain ⟨vis2, new2, hrun, hpost⟩ := hrec u vis comp hlen hu h1.2 hk
        rw [hrun]
        simp only []
        have hul : u < vis.length := by rw [hlen]; exact hu
        have hflag2 : ∀ x, vis2.getD x false = true ↔
            (vis.getD x false = true ∨ x ∈ u :: new2) := by
          intro x
          rw [hpost.flags x, getD_set_true vis u x hul, List.mem_cons]
          tauto
        have hmono : ∀ x, vis.getD x false = true → vis2.getD x false = true :=
          fun x hx => (hflag2 x).mpr (Or.inl hx)
        obtain ⟨vis3, new3, hrun3, hpost3⟩ := ih vis2 (comp ++ u :: new2) hpost.len hlt'
          (le_trans (unvisitedB_mono _ hmono) hk)
        refine ⟨vis3, u :: new2 ++ new3, ?_, hpost3.len, ?_, ?_, ?_⟩
        · rw [hrun3]
          simp
        · intro x
          rw [hpost3.flags x, hflag2 x, List.mem_append]
          tauto
        · rw [List.nodup_append]
          refine ⟨?_, hpost3.nodup, ?_⟩
          · rw [List.nodup_cons]
            refine ⟨?_, hpost.nodup⟩
            intro hm
            have := (hpost.elems u hm).2.2.1
            rw [getD_set_self _ _ _ _ hul] at this
            cases this
          · intro a ha hb
            have h3 := (hpost3.elems a hb).2.2.1
            have h4 := (hflag2 a).mpr (Or.inr ha)
            rw [h3] at h4
            cases h4
        · intro x hx
          have hedge : c.EdgeIn v u := ⟨⟨hv, hu, h1.1⟩, h2⟩
          rcases List.mem_append.mp hx with hm | hm
          · rcases List.mem_cons.mp hm with hxu | hxn
            · subst hxu
              exact ⟨hu, h2, h1.2, Relation.TransGen.single hedge⟩
            · obtain ⟨e1, e2, e3, e4⟩ := hpost.elems x hxn
              refine ⟨e1, e2, ?_, Relation.TransGen.head hedge e4⟩
              cases hb : vis.getD x false
              · rfl
              · have := (getD_set_true vis u x hul).mpr (Or.inl hb)
                rw [e3] at this
                cases this
          · obtain ⟨e1, e2, e3, e4⟩ := hpost3.elems x hm
            refine ⟨e1, e2, ?_, e4⟩
            cases hb : vis.getD x false
            · rfl
            · have := hmono x hb
              rw [e3] at this
              cases this
      · rw [if_neg h2]
        exact ih vis comp hlen hlt' hk
    · rw [if_neg h1]
      exact ih vis comp hlen hlt' hk

/-- The specification of `dfsComponent`: with fuel for every unflagged vertex it returns. -/
theorem dfsComponent_spec (c : CyclicBFS) :
    ∀ fuel : Nat, CompRecSpec c (dfsComponent c fuel) fuel := by
  intro fuel
  induction fuel with
  | zero =>
    intro v vis comp hlen hv h0 hk
    exfalso
    have := @unvisitedB_lt c.vertices vis (vis.set v true)
      (fun x hx => (getD_set_true vis v x (by rw [hlen]; exact hv)).mpr (Or.inl hx)) v hv h0
      (getD_set_self _ _ _ _ (by rw [hlen]; exact hv))
    omega
  | succ fuel ih =>
    intro v vis comp hlen hv h0 hk
    have hvl : v < vis.length := by rw [hlen]; exact hv
    have hk1 : unvisitedB c.vertices (vis.set v true) ≤ fuel := by
      have := @unvisitedB_lt c.vertices vis (vis.set v true)
        (fun x hx => (getD_set_true vis v x hvl).mpr (Or.inl hx)) v hv h0
        (getD_set_self _ _ _ _ hvl)
      omega
    obtain ⟨vis', new, hrun, hpost⟩ := dfsComponentLoop_spec c (dfsComponent c fuel) fuel ih v hv
      (List.range c.vertices) (vis.set v true) (comp ++ [v])
      (by rw [List.length_set]; exact hlen) (fun u hu => List.mem_range.mp hu) hk1
    refine ⟨vis', new, ?_, hpost⟩
    unfold dfsComponent
    rw [hrun]
    simp

theorem findCyclePath_trace_spec (c : CyclicBFS) (component : List Nat)
    (hlt : ∀ x ∈ component, x < c.vertices) :
    ∃ trace, c.findCyclePath component = some trace ∧
      (component.length < 2 → trace = CycleTrace.nothing) ∧
      (2 ≤ component.length → GoodTrace c component trace) := by
  unfold findCyclePath
  by_cases hlen : component.length < 2
  · rw [if_pos hlen]
    exact ⟨_, rfl, fun _ => rfl, fun h => by omega⟩
  · rw [if_neg hlen]
    simp only []
    set sorted := component.insertionSort (· ≤ ·) with hsorted
    have hperm : sorted.Perm component := List.perm_insertionSort _ _
    have hslen : sorted.length = component.length := hperm.length_eq
    obtain ⟨s0, rest, hs⟩ : ∃ s0 rest, sorted = s0 :: rest := by
      cases hc : sorted with
      | nil => rw [hc] at hslen; simp at hslen; omega
      | cons a l => exact ⟨a, l, rfl⟩
    have hstart : sorted.getD 0 0 = s0 := by rw [hs]; rfl
    rw [hstart]
    have hs0 : s0 ∈ sorted := by rw [hs]; exact List.mem_cons_self _ _
    have hs0lt : s0 < c.vertices := hlt s0 (hperm.subset hs0)
    obtain ⟨r, hr, hpost⟩ := dfsForCycle_spec c s0 sorted (sorted.length + 1) s0 []
      (List.replicate c.vertices false)
      { head := rfl
        chain := List.chain'_singleton _
        sub := by
          intro x hx
          simp at hx
          subst hx
          exact hs0
        vlen := List.length_replicate _ _
        vis := by
          intro x
          rw [getD_replicate]
          simp
        fresh := List.not_mem_nil _
        nodup := List.nodup_nil
        lt := hs0lt } (by simp)
    have hr' : c.dfsForCycle s0 sorted (sorted.length + 1) s0 []
        (List.replicate c.vertices false) 0 = some r := hr
    rw [hr']
    obtain ⟨b, p, v⟩ := r
    cases b with
    | true =>
      refine ⟨_, rfl, fun h => absurd h hlen, fun _ => ⟨by simp, ?_⟩⟩
      intro p' hp'
      injection hp' with hp'
      subst hp'
      have hg : FcGood c s0 sorted 0 p := hpost.2 rfl
      obtain ⟨g1, g2, g3, g4, _, g6⟩ := hg
      refine ⟨⟨by omega, g3, by rw [g1, g2]⟩, g6, fun x hx => hperm.subset (g4 x hx)⟩
    | false =>
      refine ⟨_, rfl, fun h => absurd h hlen, fun _ => ⟨by simp, ?_⟩⟩
      intro p' hp'
      cases hp'

theorem sccLoop_spec (c : CyclicBFS) :
    ∀ (seeds : List Nat) (vis : List Bool), vis.length = c.vertices →
      (∀ s ∈ seeds, s < c.vertices) →
      ∃ rep, c.sccLoop seeds vis = some rep ∧ GoodReport c seeds rep := by
  intro seeds
  induction seeds with
  | nil =>
    intro vis _ _
    exact ⟨_, rfl, by simp, fun comp trace h => by cases h⟩
  | cons start rest ih =>
    intro vis hlen hlt
    have hlt' : ∀ s ∈ rest, s < c.vertices := fun s hs => hlt s (List.mem_cons_of_mem _ hs)
    have hweaken : ∀ rep, GoodReport c rest rep → GoodReport c (start :: rest) rep := by
      intro rep h
      refine ⟨h.1, fun comp trace hc => ?_⟩
      obtain ⟨a1, a2, a3, s, new, b1, b2, b3⟩ := h.2 comp trace hc
      exact ⟨a1, a2, a3, s, new, b1, List.mem_cons_of_mem _ b2, b3⟩
    unfold sccLoop
    by_cases hv : vis.getD start false = false
    · rw [if_pos hv]
      have hs : start < c.vertices := hlt start (List.mem_cons_self _ _)
      obtain ⟨vis', new, hrun, hpost⟩ := dfsComponent_spec c c.vertices start vis [] hlen hs hv
        (by
          unfold unvisitedB
          calc _ ≤ (Finset.range c.vertices).card := Finset.card_filter_le _ _
            _ = c.vertices := Finset.card_range _)
      rw [hrun]
      simp only [List.nil_append]
      by_cases hsz : (start :: new).length > 1
      · rw [if_pos hsz]
        have hclt : ∀ x ∈ start :: new, x < c.vertices := by
          intro x hx
          rcases List.mem_cons.mp hx with h | h
          · subst h
            exact hs
          · exact (hpost.elems x h).1
        obtain ⟨trace, htr, _, hgood⟩ := findCyclePath_trace_spec c (start :: new) hclt
        rw [htr]
        refine ⟨_, rfl, by simp, ?_⟩
        intro comp tr hc
        injection hc with hc1 hc2
        subst hc1 hc2
        exact ⟨hsz, hclt, hgood hsz, start, new, rfl, List.mem_cons_self _ _,
          fun x hx => ⟨(hpost.elems x hx).2.1, (hpost.elems x hx).2.2.2⟩⟩
      · rw [if_neg hsz]
        obtain ⟨rep, hrep, hgood⟩ := ih vis' hpost.len hlt'
        exact ⟨rep, hrep, hweaken rep hgood⟩
    · rw [if_neg hv]
      obtain ⟨rep, hrep, hgood⟩ := ih vis hlen hlt'
      exact ⟨rep, hrep, hweaken rep hgood⟩

/-- The specification of `displayCycle`: it returns a report; a selected component has at
least two vertices, and a traced path is a closed walk of at least three entries inside it. -/
theorem displayCycle_spec (c : CyclicBFS) (hlt : ∀ s ∈ c.cyclePath, s < c.vertices) :
    ∃ rep, c.displayCycle = some rep ∧
      (rep = SccReport.noVertices ↔ c.cyclePath = []) ∧
      ∀ comp trace, rep = SccReport.selected comp trace →
        2 ≤ comp.length ∧ (∀ x ∈ comp, x < c.vertices) ∧ GoodTrace c comp trace := by
  unfold displayCycle
  by_cases he : c.cyclePath = []
  · rw [if_pos he]
    exact ⟨_, rfl, by simp [he], fun comp trace h => by cases h⟩
  · rw [if_neg he]
    obtain ⟨rep, hrep, hgood⟩ := sccLoop_spec c c.cyclePath (List.replicate c.vertices false)
      (List.length_replicate _ _) hlt
    refine ⟨rep, hrep, ?_, ?_⟩
    · constructor
      · intro h
        exact absurd h hgood.1
      · intro h
        exact absurd h he
    · intro comp trace hc
      obtain ⟨a1, a2, a3, _⟩ := hgood.2 comp trace hc
      exact ⟨a1, a2, a3⟩

/-! ## Objects built by the constructor and `addEdge` -/

theorem matCell_set (m : List (List Int)) (u v a b : Nat) (hu : u < m.length)
    (hv : v < (m.getD u []).length) :
    matCell (m.set u ((m.getD u []).set v 1)) a b =
      if a = u ∧ b = v then 1 else matCell m a b := by
  unfold matCell
  rw [getD_set_eq]
  by_cases hau : u = a
  · subst hau
    rw [if_pos ⟨rfl, hu⟩, getD_set_eq]
    by_cases hbv : v = b
    · subst hbv
      rw [if_pos ⟨rfl, hv⟩, if_pos ⟨rfl, rfl⟩]
    · rw [if_neg (fun h => hbv h.1), if_neg (fun h => hbv h.2.symm)]
  · rw [if_neg (fun h => hau h.1), if_neg (fun h => hau h.1.symm)]

theorem init_wf (n : Nat) : (init n).WF := by
  refine ⟨by simp [init], ?_, by simp [init]⟩
  intro row hrow
  simp only [init] at hrow
  rw [List.eq_of_mem_replicate hrow]
  simp [init]

theorem init_exact (n : Nat) : (init n).Exact := by
  intro v _
  have h1 : (init n).inDegree.getD v 0 = 0 := getD_replicate _ _ _
  have h2 : (init n).columnCount v = 0 := by
    unfold columnCount
    rw [List.length_eq_zero, List.filter_eq_nil_iff]
    intro a _
    have : (init n).adj a v = 0 := by
      unfold adj init
      simp only []
      by_cases ha : a < n
      · have : (List.replicate n (List.replicate n (0 : Int))).getD a [] = List.replicate n 0 := by
          simp [List.getD_eq_getElem?_getD, List.getElem?_replicate, ha]
        rw [this]
        exact getD_replicate _ _ _
      · rw [getD_ge (List.replicate n (List.replicate n (0 : Int))) a []
          (by rw [List.length_replicate]; omega)]
        rfl
    rw [this]
    decide
  rw [h1, h2]
  rfl

theorem filter_length_le_succ (l : List Nat) (hl : l.Nodup) (p p' : Nat → Bool) (u : Nat)
    (h : ∀ x ∈ l, p' x = true → p x = true ∨ x = u) :
    (l.filter p').length ≤ (l.filter p).length + 1 := by
  have hsub : l.filter p' ⊆ u :: l.filter p := by
    intro x hx
    rw [List.mem_filter] at hx
    rcases h x hx.1 hx.2 with hp | hu
    · exact List.mem_cons_of_mem _ (List.mem_filter.mpr ⟨hx.1, hp⟩)
    · rw [hu]
      exact List.mem_cons_self _ _
  have := (List.subperm_of_subset (hl.filter p') hsub).length_le
  simpa using this

/-- `addEdge` keeps the sizes of the vectors, and keeps the in-degree table at or above the
column counts of the matrix. -/
theorem addEdge_wf_covers (c c' : CyclicBFS) (u v : Int) (h : c.addEdge u v = some c')
    (hwf : c.WF) (hc : c.Covers) : c'.WF ∧ c'.Covers := by
  unfold addEdge at h
  split at h
  · rename_i hcond
    obtain ⟨_, hu, _, hv, hvd⟩ := hcond
    injection h with h
    subst h
    have hadj : ∀ a b, ({ c with
        adjMatrix := c.adjMatrix.set u.toNat ((c.adjMatrix.getD u.toNat []).set v.toNat 1)
        inDegree := c.inDegree.set v.toNat (c.inDegree.getD v.toNat 0 + 1) } : CyclicBFS).adj a b
          = if a = u.toNat ∧ b = v.toNat then 1 else c.adj a b :=
      fun a b => matCell_set c.adjMatrix u.toNat v.toNat a b hu hv
    constructor
    · refine ⟨by simp [hwf.1], ?_, by simp [hwf.2.2]⟩
      intro row hrow
      simp only at hrow
      rcases List.mem_or_eq_of_mem_set hrow with hm | hm
      · exact hwf.2.1 row hm
      · rw [hm, List.length_set]
        have hrowmem : c.adjMatrix.getD u.toNat [] ∈ c.adjMatrix := by
          rw [List.getD_eq_getElem _ _ hu]
          exact List.getElem_mem _
        exact hwf.2.1 _ hrowmem
    · intro w hw
      have hw' : w < c.vertices := hw
      show ((List.filter _ (List.range c.vertices)).length : Int) ≤
        (c.inDegree.set v.toNat (c.inDegree.getD v.toNat 0 + 1)).getD w 0
      rw [getD_set_eq]
      by_cases hwv : v.toNat = w
      · subst hwv
        rw [if_pos ⟨rfl, hvd⟩]
        have hle := filter_length_le_succ (List.range c.vertices) (List.nodup_range _)
          (fun a => decide (c.adj a v.toNat = 1))
          (fun a => decide (({ c with
            adjMatrix := c.adjMatrix.set u.toNat ((c.adjMatrix.getD u.toNat []).set v.toNat 1)
            inDegree := c.inDegree.set v.toNat (c.inDegree.getD v.toNat 0 + 1) } :
              CyclicBFS).adj a v.toNat = 1)) u.toNat
          (by
            intro a _ ha
            rw [decide_eq_true_eq, hadj] at ha
            by_cases hau : a = u.toNat
            · exact Or.inr hau
            · rw [if_neg (fun h => hau h.1)] at ha
              exact Or.inl (decide_eq_true ha))
        have := hc v.toNat hw'
        unfold columnCount at this
        omega
      · rw [if_neg (fun h => hwv h.1)]
        have hfe : (List.range c.vertices).filter (fun a => decide (({ c with
            adjMatrix := c.adjMatrix.set u.toNat ((c.adjMatrix.getD u.toNat []).set v.toNat 1)
            inDegree := c.inDegree.set v.toNat (c.inDegree.getD v.toNat 0 + 1) } :
              CyclicBFS).adj a w = 1))
            = (List.range c.vertices).filter (fun a => decide (c.adj a w = 1)) := by
          apply List.filter_congr
          intro a _
          rw [hadj, if_neg (fun h => hwv h.2.symm)]
        rw [hfe]
        exact hc w hw'
  · cases h

/-- Every object obtained from the constructor by a sequence of `addEdge` calls has vectors of
the constructor's sizes and an in-degree table at or above the column counts. -/
theorem addEdges_wf_covers :
    ∀ (es : List (Int × Int)) (c c' : CyclicBFS), c.addEdges es = some c' →
      c.WF → c.Covers → c'.WF ∧ c'.Covers := by
  intro es
  induction es with
  | nil =>
    intro c c' h hwf hc
    simp only [addEdges] at h
    injection h with h
    subst h
    exact ⟨hwf, hc⟩
  | cons e es ih =>
    intro c c' h hwf hc
    simp only [addEdges] at h
    cases h1 : c.addEdge e.1 e.2 with
    | none => rw [h1] at h; cases h
    | some c1 =>
      rw [h1] at h
      obtain ⟨hwf1, hc1⟩ := addEdge_wf_covers c c1 e.1 e.2 h1 hwf hc
      exact ih c1 c' h hwf1 hc1

theorem filter_length_eq_succ (l : List Nat) (hl : l.Nodup) (p p' : Nat → Bool) (u : Nat)
    (hu : u ∈ l) (hpu : p u = false)
    (h : ∀ x ∈ l, (p' x = true ↔ p x = true ∨ x = u)) :
    (l.filter p').length = (l.filter p).length + 1 := by
  have hnd : (u :: l.filter p).Nodup := by
    rw [List.nodup_cons]
    refine ⟨?_, hl.filter p⟩
    intro hm
    rw [List.mem_filter, hpu] at hm
    cases hm.2
  have hperm : (l.filter p').Perm (u :: l.filter p) := by
    rw [List.perm_ext_iff_of_nodup (hl.filter p') hnd]
    intro x
    rw [List.mem_cons, List.mem_filter, List.mem_filter]
    constructor
    · rintro ⟨hx, hpx⟩
      rcases (h x hx).mp hpx with h1 | h1
      · exact Or.inr ⟨hx, h1⟩
      · exact Or.inl h1
    · rintro (h1 | ⟨hx, h1⟩)
      · rw [h1]
        exact ⟨hu, (h u hu).mpr (Or.inr rfl)⟩
      · exact ⟨hx, (h x hx).mpr (Or.inl h1)⟩
  rw [hperm.length_eq]
  rfl

/-- Adding an edge that the matrix does not hold yet keeps the in-degree table equal to the
column counts. -/
theorem addEdge_exact (c c' : CyclicBFS) (u v : Int) (h : c.addEdge u v = some c')
    (hwf : c.WF) (he : c.Exact) (hnew : c.adj u.toNat v.toNat ≠ 1) : c'.Exact := by
  unfold addEdge at h
  split at h
  · rename_i hcond
    obtain ⟨_, hu, _, hv, hvd⟩ := hcond
    injection h with h
    subst h
    have hadj : ∀ a b, ({ c with
        adjMatrix := c.adjMatrix.set u.toNat ((c.adjMatrix.getD u.toNat []).set v.toNat 1)
        inDegree := c.inDegree.set v.toNat (c.inDegree.getD v.toNat 0 + 1) } : CyclicBFS).adj a b
          = if a = u.toNat ∧ b = v.toNat then 1 else c.adj a b :=
      fun a b => matCell_set c.adjMatrix u.toNat v.toNat a b hu hv
    intro w hw
    have hw' : w < c.vertices := hw
    show (c.inDegree.set v.toNat (c.inDegree.getD v.toNat 0 + 1)).getD w 0 =
      ((List.filter _ (List.range c.vertices)).length : Int)
    rw [getD_set_eq]
    by_cases hwv : v.toNat = w
    · subst hwv
      rw [if_pos ⟨rfl, hvd⟩]
      have heq := filter_length_eq_succ (List.range c.vertices) (List.nodup_range _)
        (fun a => decide (c.adj a v.toNat = 1))
        (fun a => decide (({ c with
          adjMatrix := c.adjMatrix.set u.toNat ((c.adjMatrix.getD u.toNat []).set v.toNat 1)
          inDegree := c.inDegree.set v.toNat (c.inDegree.getD v.toNat 0 + 1) } :
            CyclicBFS).adj a v.toNat = 1)) u.toNat
        (List.mem_range.mpr (by rw [← hwf.1]; exact hu))
        (decide_eq_false hnew)
        (by
          intro a _
          rw [decide_eq_true_eq, decide_eq_true_eq, hadj]
          by_cases hau : a = u.toNat
          · rw [if_pos ⟨hau, rfl⟩]
            exact ⟨fun _ => Or.inr hau, fun _ => rfl⟩
          · rw [if_neg (fun h => hau h.1)]
            exact ⟨fun h => Or.inl h, fun h => h.resolve_right hau⟩)
      rw [heq, he v.toNat hw']
      unfold columnCount
      push_cast
      rfl
    · rw [if_neg (fun h => hwv h.1)]
      have hfe : (List.range c.vertices).filter (fun a => decide (({ c with
          adjMatrix := c.adjMatrix.set u.toNat ((c.adjMatrix.getD u.toNat []).set v.toNat 1)
          inDegree := c.inDegree.set v.toNat (c.inDegree.getD v.toNat 0 + 1) } :
            CyclicBFS).adj a w = 1))
          = (List.range c.vertices).filter (fun a => decide (c.adj a w = 1)) := by
        apply List.filter_congr
        intro a _
        rw [hadj, if_neg (fun h => hwv h.2.symm)]
      rw [hfe]
      exact he w hw'
  · cases h

end CyclicBFS

theorem range_split (n v : Nat) (h : v < n) :
    List.range n = List.range' 0 v ++ v :: List.range' (v + 1) (n - v - 1) := by
  rw [List.range_eq_range']
  have h1 : n = (n - v) + v := by omega
  have h2 : n - v = (n - v - 1) + 1 := by omega
  conv_lhs => rw [h1, ← List.range'_append_1, Nat.zero_add, h2, List.range'_succ]

namespace CyclicDFS

/-! ## The DFS detector on a self-loop that is met first -/

/-- Neighbours that are finished, or not neighbours at all, are passed over by the scan. -/
theorem dfsUtilLoop_skip (rec : Nat → DfsState → Option (Bool × DfsState)) (v : Nat)
    (s : DfsState) (rest : List Nat) :
    ∀ us : List Nat,
      (∀ w ∈ us, s.self.adj v w = 1 →
        s.self.visited.getD w 0 ≠ 0 ∧ s.self.recStack.getD w 0 = 0) →
      dfsUtilLoop rec v (us ++ rest) s = dfsUtilLoop rec v rest s := by
  intro us
  induction us with
  | nil => intro _; rfl
  | cons u us ih =>
    intro h
    have ih' := ih (fun w hw => h w (List.mem_cons_of_mem _ hw))
    rw [List.cons_append]
    conv_lhs => unfold dfsUtilLoop
    by_cases hadj : s.self.adj v u = 1
    · obtain ⟨h1, h2⟩ := h u (List.mem_cons_self _ _) hadj
      rw [if_pos hadj, if_neg h1, if_neg (by simpa using h2)]
      exact ih'
    · rw [if_neg hadj]
      exact ih'

/-- A root without outgoing edges is visited and left. -/
theorem dfsUtil_leaf (c : CyclicDFS) (s : DfsState) (k fuel : Nat) (hs : Swept c s k)
    (hk : k < c.vertices) (hout : ∀ w, w < c.vertices → c.adj k w ≠ 1) :
    ∃ s', dfsUtil (fuel + 1) k s = some (false, s') ∧ Swept c s' (k + 1) := by
  unfold dfsUtil
  simp only []
  have hskip := dfsUtilLoop_skip (dfsUtil fuel) k
    { s with self := { s.self with
        visited := s.self.visited.set k 1
        recStack := s.self.recStack.set k 1 } } [] (List.range s.self.vertices)
    (by
      intro w hw hadj
      exfalso
      rw [hs.vert] at hw
      have : c.adj k w = 1 := by
        unfold adj at hadj ⊢
        simp only [] at hadj
        rw [← hs.mat]
        exact hadj
      exact hout w (List.mem_range.mp hw) this)
  rw [List.append_nil] at hskip
  rw [hskip]
  simp only [dfsUtilLoop]
  refine ⟨_, rfl, ?_⟩
  refine
    { vert := hs.vert
      mat := hs.mat
      lenV := by simp [hs.lenV]
      lenR := by simp [hs.lenR]
      stack := ?_
      below := ?_
      above := ?_ }
  · intro w
    show ((s.self.recStack.set k 1).set k 0).getD w 0 = 0
    rw [List.set_set, getD_set_eq]
    split
    · rfl
    · exact hs.stack w
  · intro w hw
    show (s.self.visited.set k 1).getD w 0 ≠ 0
    rw [getD_set_eq]
    by_cases hkw : k = w
    · rw [if_pos ⟨hkw, by rw [hs.lenV]; exact hk⟩]
      decide
    · rw [if_neg (fun h => hkw h.1)]
      exact hs.below w (by omega)
  · intro w hw
    show (s.self.visited.set k 1).getD w 0 = 0
    rw [getD_set_ne _ _ _ _ _ (by omega)]
    exact hs.above w (by omega)

/-- At the self-loop: the scan passes the finished vertices below `v` and meets the back
edge `v -> v`. -/
theorem dfsUtil_self_loop (c : CyclicDFS) (s : DfsState) (v fuel : Nat) (hs : Swept c s v)
    (hv : v < c.vertices) (hloop : c.adj v v = 1) :
    ∃ s', dfsUtil (fuel + 1) v s = some (true, s') ∧ s'.cycleStart = (v : Int) ∧
      s'.cycleEnd = (v : Int) ∧ s'.self.vertices = c.vertices := by
  unfold dfsUtil
  simp only []
  have hrange : List.range s.self.vertices
      = List.range' 0 v ++ v :: List.range' (v + 1) (c.vertices - v - 1) := by
    rw [hs.vert]
    exact range_split c.vertices v hv
  rw [hrange]
  have hskip := dfsUtilLoop_skip (dfsUtil fuel) v
    { s with self := { s.self with
        visited := s.self.visited.set v 1
        recStack := s.self.recStack.set v 1 } }
    (v :: List.range' (v + 1) (c.vertices - v - 1)) (List.range' 0 v)
    (by
      intro w hw _
      have hwv : w < v := by
        have := List.mem_range'_1.mp hw
        omega
      constructor
      · show (s.self.visited.set v 1).getD w 0 ≠ 0
        rw [getD_set_ne _ _ _ _ _ (by omega)]
        exact hs.below w hwv
      · show (s.self.recStack.set v 1).getD w 0 = 0
        rw [getD_set_ne _ _ _ _ _ (by omega)]
        exact hs.stack w)
  rw [hskip]
  unfold dfsUtilLoop
  have hadj : ({ s with self := { s.self with
        visited := s.self.visited.set v 1
        recStack := s.self.recStack.set v 1 } } : DfsState).self.adj v v = 1 := by
    unfold adj
    simp only []
    rw [hs.mat]
    exact hloop
  have hvis : ¬ (s.self.visited.set v 1).getD v 0 = 0 := by
    rw [getD_set_self _ _ _ _ (by rw [hs.lenV]; exact hv)]
    decide
  have hrec : (s.self.recStack.set v 1).getD v 0 ≠ 0 := by
    rw [getD_set_self _ _ _ _ (by rw [hs.lenR]; exact hv)]
    decide
  rw [if_pos hadj]
  simp only []
  rw [if_neg hvis, if_pos hrec]
  exact ⟨_, rfl, rfl, rfl, hs.vert⟩

/-- The outer loop of `hasCycle` sweeps the edgeless vertices below `v` and reports the
self-loop on `v`. -/
theorem hasCycleLoop_self_loop (c : CyclicDFS) (v : Nat) (hv : v < c.vertices)
    (hloop : c.adj v v = 1) (hout : ∀ u w, u < v → w < c.vertices → c.adj u w ≠ 1)
    (rest : List Nat) :
    ∀ (j k : Nat) (s : DfsState), k + j = v → Swept c s k →
      ∃ s', hasCycleLoop (List.range' k j ++ v :: rest) s = some (true, s') ∧
        s'.self.cyclePath = [(v : Int), (v : Int)] := by
  intro j
  induction j with
  | zero =>
    intro k s hk hs
    have hkv : k = v := by omega
    subst hkv
    rw [List.range'_zero, List.nil_append]
    unfold hasCycleLoop
    rw [if_pos (hs.above k (le_refl _))]
    obtain ⟨f, hf⟩ : ∃ f, s.self.vertices = f + 1 := ⟨c.vertices - 1, by rw [hs.vert]; omega⟩
    rw [hf]
    obtain ⟨s', hrun, hcs, hce, _⟩ := dfsUtil_self_loop c s k f hs hv hloop
    rw [hrun]
    simp only []
    have hfc : s'.self.findCyclePath s'.cycleStart s'.cycleEnd
        = some { s'.self with cyclePath := [(k : Int), (k : Int)] } := by
      unfold findCyclePath
      rw [hcs, hce]
      simp [findCyclePathLoop]
    rw [hfc]
    exact ⟨_, rfl, rfl⟩
  | succ j ih =>
    intro k s hk hs
    have hkv : k < v := by omega
    rw [List.range'_succ, List.cons_append]
    unfold hasCycleLoop
    rw [if_pos (hs.above k (le_refl _))]
    obtain ⟨f, hf⟩ : ∃ f, s.self.vertices = f + 1 := ⟨c.vertices - 1, by rw [hs.vert]; omega⟩
    rw [hf]
    obtain ⟨s', hrun, hs'⟩ := dfsUtil_leaf c s k f hs (by omega)
      (fun w hw => hout k w hkv hw)
    rw [hrun]
    simp only []
    exact ih (k + 1) s' (by omega) hs'

/-- On a graph with a self-loop on `v` in which no vertex below `v` has an outgoing edge,
`hasCycle` returns `true` with `cyclePath = [v, v]`. -/
theorem hasCycle_first_self_loop (c : CyclicDFS) (h : c.WF) (v : Nat) (hv : v < c.vertices)
    (hloop : c.adj v v = 1) (hout : ∀ u w, u < v → w < c.vertices → c.adj u w ≠ 1) :
    ∃ c', c.hasCycle = some (true, c') ∧ c'.cyclePath = [(v : Int), (v : Int)] := by
  obtain ⟨_, _, hV, hR, _⟩ := h
  unfold hasCycle
  simp only []
  rw [range_split c.vertices v hv]
  obtain ⟨s', hrun, hpath⟩ := hasCycleLoop_self_loop c v hv hloop hout
    (List.range' (v + 1) (c.vertices - v - 1)) v 0
    { self := { c with
        visited := List.replicate c.visited.length 0
        recStack := List.replicate c.recStack.length 0
        parent := List.replicate c.parent.length (-1) },
      cycleStart := -1, cycleEnd := -1 } (by omega)
    { vert := rfl
      mat := rfl
      lenV := by simp [hV]
      lenR := by simp [hR]
      stack := fun w => getD_replicate _ _ _
      below := fun w hw => absurd hw (Nat.not_lt_zero w)
      above := fun w _ => getD_replicate _ _ _ }
  rw [hrun]
  exact ⟨s'.self, rfl, hpath⟩

end CyclicDFS

namespace CyclicBFS

/-! ## The refinement on a two-cycle met by the first seed -/

/-- Counters that do not start a recursive call are passed over by the scan of
`dfsComponent`. -/
theorem dfsComponentLoop_skip (c : CyclicBFS)
    (rec : Nat → List Bool × List Nat → Option (List Bool × List Nat)) (v : Nat)
    (vis : List Bool) (comp : List Nat) (rest : List Nat) :
    ∀ us : List Nat,
      (∀ u ∈ us, ¬ (c.adj v u = 1 ∧ vis.getD u false = false)) →
      dfsComponentLoop rec c v (us ++ rest) (vis, comp)
        = dfsComponentLoop rec c v rest (vis, comp) := by
  intro us
  induction us with
  | nil => intro _; rfl
  | cons u us ih =>
    intro h
    rw [List.cons_append]
    conv_lhs => unfold dfsComponentLoop
    rw [if_neg (h u (List.mem_cons_self _ _))]
    exact ih (fun w hw => h w (List.mem_cons_of_mem _ hw))

/-- Counters that are not neighbours of `current` are passed over by the scan of
`dfsForCycle`. -/
theorem dfsForCycleLoop_skip (c : CyclicBFS)
    (rec : Nat → List Nat → List Bool → Option (Bool × List Nat × List Bool))
    (current target : Nat) (component : List Nat) (depth : Nat)
    (path : List Nat) (vis : List Bool) (rest : List Nat) :
    ∀ us : List Nat, (∀ u ∈ us, c.adj current u ≠ 1) →
      dfsForCycleLoop rec c current target component depth (us ++ rest) path vis
        = dfsForCycleLoop rec c current target component depth rest path vis := by
  intro us
  induction us with
  | nil => intro _; rfl
  | cons u us ih =>
    intro h
    rw [List.cons_append]
    conv_lhs => unfold dfsForCycleLoop
    rw [if_neg (h u (List.mem_cons_self _ _))]
    exact ih (fun w hw => h w (List.mem_cons_of_mem _ hw))

theorem mem_range'_ne_left {v u : Nat} (h : u ∈ List.range' 0 v) : u ≠ v ∧ u < v := by
  have := List.mem_range'_1.mp h
  omega

theorem mem_range'_ne_right {n v u : Nat} (h : u ∈ List.range' (v + 1) (n - v - 1)) :
    u ≠ v ∧ u < n := by
  have := List.mem_range'_1.mp h
  omega

theorem TwoCycle.symm {c : CyclicBFS} {x y : Nat} (h : TwoCycle c x y) : TwoCycle c y x :=
  ⟨h.ne.symm, h.ylt, h.xlt, h.outy, h.outx⟩

/-- The component walk from `x` on a two-cycle `x <-> y` collects `[x, y]`. -/
theorem dfsComponent_two_cycle (c : CyclicBFS) (x y : Nat) (h : TwoCycle c x y)
    (hy : y ∈ c.cyclePath) :
    ∃ vis', c.dfsComponent c.vertices x (List.replicate c.vertices false, [])
      = some (vis', [x, y]) := by
  obtain ⟨f, hf⟩ : ∃ f, c.vertices = f + 1 + 1 :=
    ⟨c.vertices - 2, by have := h.xlt; have := h.ylt; have := h.ne; omega⟩
  have hx0 := h.xlt
  have hy0 := h.ylt
  set vis0 := List.replicate c.vertices false with hvis0
  set vis1 := vis0.set x true with hvis1
  set vis2 := vis1.set y true with hvis2
  have hlen0 : vis0.length = c.vertices := List.length_replicate _ _
  have hv1y : vis1.getD y false = false := by
    rw [hvis1, getD_set_ne _ _ _ _ _ h.ne, hvis0, getD_replicate]
  have hv2x : vis2.getD x false = true := by
    rw [hvis2, getD_set_ne _ _ _ _ _ h.ne.symm, hvis1]
    exact getD_set_self _ _ _ _ (by rw [hlen0]; exact hx0)
  -- the inner call, on `y`
  have hinner : c.dfsComponent (f + 1) y (vis1, [x]) = some (vis2, [x, y]) := by
    unfold dfsComponent
    have hskip := dfsComponentLoop_skip c (c.dfsComponent f) y vis2 ([x] ++ [y]) []
      (List.range c.vertices)
      (by
        intro u hu hcond
        have hux : u = x := (h.outy u (List.mem_range.mp hu)).mp hcond.1
        rw [hux, hv2x] at hcond
        cases hcond.2)
    rw [List.append_nil] at hskip
    rw [hskip]
    rfl
  refine ⟨vis2, ?_⟩
  conv_lhs => rw [hf]
  unfold dfsComponent
  rw [range_split c.vertices y hy0]
  have hskip1 := dfsComponentLoop_skip c (c.dfsComponent (f + 1)) x vis1 ([] ++ [x])
    (y :: List.range' (y + 1) (c.vertices - y - 1)) (List.range' 0 y)
    (by
      intro u hu hcond
      obtain ⟨hne, hlt⟩ := mem_range'_ne_left hu
      exact hne ((h.outx u (by omega)).mp hcond.1))
  rw [hskip1]
  conv_lhs => unfold dfsComponentLoop
  rw [if_pos ⟨(h.outx y hy0).mpr rfl, hv1y⟩, if_pos hy]
  have hinner' : c.dfsComponent (f + 1) y (vis1, [] ++ [x]) = some (vis2, [x, y]) := hinner
  rw [hinner']
  simp only []
  have hskip2 := dfsComponentLoop_skip c (c.dfsComponent (f + 1)) x vis2 [x, y] []
    (List.range' (y + 1) (c.vertices - y - 1))
    (by
      intro u hu hcond
      obtain ⟨hne, hlt⟩ := mem_range'_ne_right hu
      exact hne ((h.outx u hlt).mp hcond.1))
  rw [List.append_nil] at hskip2
  rw [hskip2]
  rfl

/-- The path search from `s` on a two-cycle `s <-> o` returns `[s, o, s]`. -/
theorem dfsForCycle_two_cycle (c : CyclicBFS) (s o : Nat) (h : TwoCycle c s o) :
    ∃ vis', c.dfsForCycle s [s, o] 3 s [] (List.replicate c.vertices false) 0
      = some (true, [s, o, s], vis') := by
  set vis0 := List.replicate c.vertices false with hvis0
  set vis1 := vis0.set s true with hvis1
  set vis2 := vis1.set o true with hvis2
  have hv1o : vis1.getD o false = false := by
    rw [hvis1, getD_set_ne _ _ _ _ _ h.ne, hvis0, getD_replicate]
  -- the inner call, on `o` at depth 1
  have hinner : c.dfsForCycle s [s, o] 2 o [s] vis1 1 = some (true, [s, o, s], vis2) := by
    unfold dfsForCycle
    simp only []
    rw [if_neg (fun hh => h.ne hh.2.symm), if_neg (by simp)]
    rw [range_split c.vertices s h.xlt]
    rw [dfsForCycleLoop_skip c _ o s [s, o] 1 ([s] ++ [o]) vis2
      (s :: List.range' (s + 1) (c.vertices - s - 1)) (List.range' 0 s)
      (by
        intro u hu hadj
        obtain ⟨hne, hlt⟩ := mem_range'_ne_left hu
        exact hne ((h.outy u (by have := h.xlt; omega)).mp hadj))]
    conv_lhs => unfold dfsForCycleLoop
    rw [if_pos ((h.outy s h.xlt).mpr rfl), if_pos (by simp), if_pos ⟨rfl, by omega⟩]
    rfl
  refine ⟨vis2, ?_⟩
  unfold dfsForCycle
  simp only []
  rw [if_neg (by simp), if_neg (by simp)]
  rw [range_split c.vertices o h.ylt]
  rw [dfsForCycleLoop_skip c _ s s [s, o] 0 ([] ++ [s]) vis1
    (o :: List.range' (o + 1) (c.vertices - o - 1)) (List.range' 0 o)
    (by
      intro u hu hadj
      obtain ⟨hne, hlt⟩ := mem_range'_ne_left hu
      exact hne ((h.outx u (by have := h.ylt; omega)).mp hadj))]
  conv_lhs => unfold dfsForCycleLoop
  rw [if_pos ((h.outx o h.ylt).mpr rfl), if_pos (by simp), if_neg (by simp), if_pos hv1o]
  have hinner' : c.dfsForCycle s [s, o] 2 o ([] ++ [s]) vis1 (0 + 1)
      = some (true, [s, o, s], vis2) := hinner
  rw [hinner']

/-- On an object whose first unprocessed vertex `x` lies on a two-cycle `x <-> y` without
other outgoing edges, `displayCycle` selects the component `[x, y]` and traces the path
`[s, o, s]`, where `s` is the smaller and `o` the larger of `x` and `y`. -/
theorem displayCycle_two_cycle (c : CyclicBFS) (x y : Nat) (rest : List Nat)
    (h : TwoCycle c x y) (hpath : c.cyclePath = x :: rest) (hy : y ∈ c.cyclePath) :
    ∃ s o, ((s = x ∧ o = y) ∨ (s = y ∧ o = x)) ∧
      c.displayCycle = some (SccReport.selected [x, y] (CycleTrace.complete [s, o, s])) := by
  obtain ⟨vis', hcomp⟩ := dfsComponent_two_cycle c x y h hy
  have hfind : ∃ s o, ((s = x ∧ o = y) ∨ (s = y ∧ o = x)) ∧
      c.findCyclePath [x, y] = some (CycleTrace.complete [s, o, s]) := by
    by_cases hxy : x ≤ y
    · obtain ⟨v2, hrun⟩ := dfsForCycle_two_cycle c x y h
      refine ⟨x, y, Or.inl ⟨rfl, rfl⟩, ?_⟩
      unfold findCyclePath
      have hsort : [x, y].insertionSort (· ≤ ·) = [x, y] := by
        simp [List.insertionSort, List.orderedInsert, hxy]
      rw [if_neg (by simp)]
      simp only []
      rw [hsort]
      have hrun' : c.dfsForCycle ([x, y].getD 0 0) [x, y] ([x, y].length + 1) ([x, y].getD 0 0) []
          (List.replicate c.vertices false) 0 = some (true, [x, y, x], v2) := hrun
      rw [hrun']
    · obtain ⟨v2, hrun⟩ := dfsForCycle_two_cycle c y x h.symm
      refine ⟨y, x, Or.inr ⟨rfl, rfl⟩, ?_⟩
      unfold findCyclePath
      have hsort : [x, y].insertionSort (· ≤ ·) = [y, x] := by
        simp [List.insertionSort, List.orderedInsert, hxy]
      rw [if_neg (by simp)]
      simp only []
      rw [hsort]
      have hrun' : c.dfsForCycle ([y, x].getD 0 0) [y, x] ([y, x].length + 1) ([y, x].getD 0 0) []
          (List.replicate c.vertices false) 0 = some (true, [y, x, y], v2) := hrun
      rw [hrun']
  obtain ⟨s, o, hso, hfc⟩ := hfind
  refine ⟨s, o, hso, ?_⟩
  unfold displayCycle findStronglyConnectedComponents
  rw [if_neg (by rw [hpath]; simp), hpath]
  unfold sccLoop
  rw [if_pos (getD_replicate _ _ _), hcomp]
  simp only []
  rw [if_pos (by simp), hfc]

end CyclicBFS

/-- A property that edges preserve holds along a walk as soon as it holds at its start. -/
theorem chain_closed {E : Nat → Nat → Prop} (S : Nat → Prop)
    (hS : ∀ x y, E x y → S x → S y) :
    ∀ p : List Nat, List.Chain' E p → (∀ x ∈ p.head?, S x) → ∀ x ∈ p, S x := by
  intro p
  induction p with
  | nil => intro _ _ x hx; exact absurd hx (List.not_mem_nil x)
  | cons a p ih =>
    intro hch hhead x hx
    have ha : S a := hhead a rfl
    rcases List.mem_cons.mp hx with h | h
    · rw [h]; exact ha
    · rw [List.chain'_cons'] at hch
      exact ih hch.2 (fun y hy => hS a y (hch.1 y hy) ha) x h

theorem TwoDisjointCycles.left {n : Nat} {m : List (List Int)} {a b c d : Nat}
    (h : TwoDisjointCycles n m a b c d) (g : CyclicBFS) (hn : g.vertices = n)
    (hm : g.adjMatrix = m) : CyclicBFS.TwoCycle g a b := by
  have ha := h.alt
  have hb := h.blt
  have e1 := h.ab
  have e2 := h.ac
  have e3 := h.ad
  have e4 := h.bc
  have e5 := h.bd
  refine ⟨h.ab, by rw [hn]; exact ha, by rw [hn]; exact hb, ?_, ?_⟩
  · intro u hu
    rw [hn] at hu
    have := h.edges a u ha hu
    unfold CyclicBFS.adj
    rw [hm]
    unfold matCell at this
    rw [this]
    constructor
    · rintro (⟨_, h1⟩ | ⟨h1, _⟩ | ⟨h1, _⟩ | ⟨h1, _⟩)
      · exact h1
      · exact absurd h1 e1
      · exact absurd h1 e2
      · exact absurd h1 e3
    · intro h1
      exact Or.inl ⟨rfl, h1⟩
  · intro u hu
    rw [hn] at hu
    have := h.edges b u hb hu
    unfold CyclicBFS.adj
    rw [hm]
    unfold matCell at this
    rw [this]
    constructor
    · rintro (⟨h1, _⟩ | ⟨_, h1⟩ | ⟨h1, _⟩ | ⟨h1, _⟩)
      · exact absurd h1.symm e1
      · exact h1
      · exact absurd h1 e4
      · exact absurd h1 e5
    · intro h1
      exact Or.inr (Or.inl ⟨rfl, h1⟩)

theorem TwoDisjointCycles.swap {n : Nat} {m : List (List Int)} {a b c d : Nat}
    (h : TwoDisjointCycles n m a b c d) : TwoDisjointCycles n m c d a b :=
  { alt := h.clt, blt := h.dlt, clt := h.alt, dlt := h.blt
    ab := h.cd, ac := h.ac.symm, ad := h.bc.symm, bc := h.ad.symm, bd := h.bd.symm, cd := h.ab
    edges := by
      intro u w hu hw
      rw [h.edges u w hu hw]
      tauto }

/-- In a graph of two disjoint two-cycles, a walk that starts in `{a, b}` stays there. -/
theorem TwoDisjointCycles.stays {n : Nat} {m : List (List Int)} {a b c d : Nat}
    (h : TwoDisjointCycles n m a b c d) (x y : Nat) (hxy : IsEdge n m x y)
    (hx : x = a ∨ x = b) : y = a ∨ y = b := by
  have e2 := h.ac
  have e3 := h.ad
  have e4 := h.bc
  have e5 := h.bd
  rcases (h.edges x y hxy.1 hxy.2.1).mp hxy.2.2 with ⟨_, h2⟩ | ⟨_, h2⟩ | ⟨h1, _⟩ | ⟨h1, _⟩
  · exact Or.inr h2
  · exact Or.inl h2
  · rcases hx with hx | hx
    · exact absurd (hx.symm.trans h1) e2
    · exact absurd (hx.symm.trans h1) e4
  · rcases hx with hx | hx
    · exact absurd (hx.symm.trans h1) e3
    · exact absurd (hx.symm.trans h1) e5

/-- A closed walk in a graph of two disjoint two-cycles lies in one of the two. -/
theorem TwoDisjointCycles.walk_within {n : Nat} {m : List (List Int)} {a b c d : Nat}
    (h : TwoDisjointCycles n m a b c d) (p : List Nat) (hp : IsClosedWalk n m p) :
    (∀ x ∈ p, x = a ∨ x = b) ∨ (∀ x ∈ p, x = c ∨ x = d) := by
  obtain ⟨hlen, hch, _⟩ := hp
  match p, hlen, hch with
  | x0 :: x1 :: l, _, hch =>
    have h01 : IsEdge n m x0 x1 := (List.chain'_cons.mp hch).1
    have hx0 : (x0 = a ∨ x0 = b) ∨ (x0 = c ∨ x0 = d) := by
      rcases (h.edges x0 x1 h01.1 h01.2.1).mp h01.2.2 with ⟨h1, _⟩ | ⟨h1, _⟩ | ⟨h1, _⟩ | ⟨h1, _⟩
      · exact Or.inl (Or.inl h1)
      · exact Or.inl (Or.inr h1)
      · exact Or.inr (Or.inl h1)
      · exact Or.inr (Or.inr h1)
    rcases hx0 with hx0 | hx0
    · exact Or.inl (chain_closed (fun x => x = a ∨ x = b) (fun x y => h.stays x y) _ hch
        (fun x hx => by simp at hx; rw [← hx]; exact hx0))
    · exact Or.inr (chain_closed (fun x => x = c ∨ x = d) (fun x y => h.swap.stays x y) _ hch
        (fun x hx => by simp at hx; rw [← hx]; exact hx0))

theorem TwoDisjointCycles.cycle {n : Nat} {m : List (List Int)} {a b c d : Nat}
    (h : TwoDisjointCycles n m a b c d) : IsClosedWalk n m [a, b, a] := by
  have hab : IsEdge n m a b :=
    ⟨h.alt, h.blt, (h.edges a b h.alt h.blt).mpr (Or.inl ⟨rfl, rfl⟩)⟩
  have hba : IsEdge n m b a :=
    ⟨h.blt, h.alt, (h.edges b a h.blt h.alt).mpr (Or.inr (Or.inl ⟨rfl, rfl⟩))⟩
  refine ⟨by simp, ?_, rfl⟩
  simp [hab, hba]

/-- The Kahn detector on two disjoint two-cycles: the refinement traces a path inside the
two-cycle of the first unprocessed vertex. -/
theorem TwoDisjointCycles.kahn {n : Nat} {m : List (List Int)} {a b c d : Nat}
    (h : TwoDisjointCycles n m a b c d) (g : CyclicBFS) (hwf : g.WF) (he : g.Exact)
    (hn : g.vertices = n) (hm : g.adjMatrix = m) :
    ∃ r comp p, g.hasCycleKahn = some r ∧ r.ret = true ∧
      r.self.displayCycle = some (SccReport.selected comp (CycleTrace.complete p)) ∧
      ((∀ x ∈ p, x = a ∨ x = b) ∨ (∀ x ∈ p, x = c ∨ x = d)) := by
  obtain ⟨topo, hfacts, hrun⟩ := CyclicBFS.hasCycleKahn_spec g hwf he.covers
  have hE : g.Edge = IsEdge n m := by unfold CyclicBFS.Edge; rw [hn, hm]
  have hcyc : ∀ {a b c d : Nat}, TwoDisjointCycles n m a b c d → a ∉ topo ∧ b ∉ topo := by
    intro a b c d h
    have hab : g.Edge a b := by
      rw [hE]
      exact ⟨h.alt, h.blt, (h.edges a b h.alt h.blt).mpr (Or.inl ⟨rfl, rfl⟩)⟩
    have hba : g.Edge b a := by
      rw [hE]
      exact ⟨h.blt, h.alt, (h.edges b a h.blt h.alt).mpr (Or.inr (Or.inl ⟨rfl, rfl⟩))⟩
    exact ⟨hfacts.not_mem_of_cycle (Relation.TransGen.head hab (Relation.TransGen.single hba)),
      hfacts.not_mem_of_cycle (Relation.TransGen.head hba (Relation.TransGen.single hab))⟩
  obtain ⟨ha, hb⟩ := hcyc h
  obtain ⟨hc, hd⟩ := hcyc h.swap
  -- every other vertex is processed
  have hother : ∀ v, v < n → v ∉ topo → (v = a ∨ v = b) ∨ (v = c ∨ v = d) := by
    intro v hv hvt
    by_contra hne
    apply hvt
    rw [← hn] at hv
    rw [hfacts.mem v hv, he v hv]
    have hcol : g.columnCount v = 0 := by
      unfold CyclicBFS.columnCount
      rw [List.length_eq_zero, List.filter_eq_nil_iff]
      intro u hu hadj
      rw [decide_eq_true_eq] at hadj
      have huv := (h.edges u v (by rw [← hn]; exact List.mem_range.mp hu)
        (by rw [← hn]; exact hv)).mp (by unfold CyclicBFS.adj at hadj; rw [hm] at hadj; exact hadj)
      apply hne
      rcases huv with ⟨_, h2⟩ | ⟨_, h2⟩ | ⟨_, h2⟩ | ⟨_, h2⟩
      · exact Or.inl (Or.inr h2)
      · exact Or.inl (Or.inl h2)
      · exact Or.inr (Or.inr h2)
      · exact Or.inr (Or.inl h2)
    have := CyclicBFS.preds_le_columnCount g topo v hfacts.nodup hfacts.lt
    rw [hcol]
    have h0 : g.preds topo v = 0 := by omega
    rw [h0]
  have hlen : topo.length ≠ g.vertices := by
    intro hl
    exact ha ((hfacts.perm hl).symm.subset (List.mem_range.mpr (by rw [hn]; exact h.alt)))
  rw [if_neg hlen] at hrun
  set g2 := g.withUnprocessed topo with hg2
  have hmem : ∀ v, v ∈ g2.cyclePath ↔ v < n ∧ v ∉ topo := by
    intro v
    rw [hg2, CyclicBFS.mem_withUnprocessed, hn]
  obtain ⟨x0, rest, hpath⟩ : ∃ x0 rest, g2.cyclePath = x0 :: rest := by
    cases hcp : g2.cyclePath with
    | nil =>
      have := (hmem a).mpr ⟨h.alt, ha⟩
      rw [hcp] at this
      exact absurd this (List.not_mem_nil a)
    | cons x0 rest => exact ⟨x0, rest, rfl⟩
  have hx0 : x0 ∈ g2.cyclePath := by rw [hpath]; exact List.mem_cons_self _ _
  have hx0' := (hmem x0).mp hx0
  -- the two-cycle of the first seed
  have key : ∀ (x y : Nat), CyclicBFS.TwoCycle g2 x y → y ∈ g2.cyclePath → x = x0 →
      ((∀ z, z = x ∨ z = y → z = a ∨ z = b) ∨ (∀ z, z = x ∨ z = y → z = c ∨ z = d)) →
      ∃ r comp p, some (KahnResult.mk true topo g2) = some r ∧ r.ret = true ∧
        r.self.displayCycle = some (SccReport.selected comp (CycleTrace.complete p)) ∧
        ((∀ x ∈ p, x = a ∨ x = b) ∨ (∀ x ∈ p, x = c ∨ x = d)) := by
    intro x y htc hy hx hin
    subst hx
    obtain ⟨s, o, hso, hdisp⟩ := CyclicBFS.displayCycle_two_cycle g2 x y rest htc hpath hy
    refine ⟨_, [x, y], [s, o, s], rfl, rfl, hdisp, ?_⟩
    have hsub : ∀ z ∈ [s, o, s], z = x ∨ z = y := by
      intro z hz
      have hz' : z = s ∨ z = o := by
        simp at hz
        tauto
      rcases hso with ⟨h1, h2⟩ | ⟨h1, h2⟩
      · rw [← h1, ← h2]
        exact hz'
      · rw [← h1, ← h2]
        exact hz'.symm
    rcases hin with hin | hin
    · exact Or.inl (fun z hz => hin z (hsub z hz))
    · exact Or.inr (fun z hz => hin z (hsub z hz))
  rw [hrun]
  have tab : CyclicBFS.TwoCycle g2 a b := h.left g2 hn hm
  have tcd : CyclicBFS.TwoCycle g2 c d := h.swap.left g2 hn hm
  rcases hother x0 hx0'.1 hx0'.2 with (hxa | hxb) | (hxc | hxd)
  · exact key a b tab ((hmem b).mpr ⟨h.blt, hb⟩) hxa.symm (Or.inl (fun z hz => hz))
  · exact key b a tab.symm ((hmem a).mpr ⟨h.alt, ha⟩) hxb.symm (Or.inl (fun z hz => hz.symm))
  · exact key c d tcd ((hmem d).mpr ⟨h.dlt, hd⟩) hxc.symm (Or.inr (fun z hz => hz))
  · exact key d c tcd.symm ((hmem c).mpr ⟨h.clt, hc⟩) hxd.symm (Or.inr (fun z hz => hz.symm))

namespace CyclicBFS

theorem matCell_set_val (m : List (List Int)) (u v a b : Nat) (x : Int) (hu : u < m.length)
    (hv : v < (m.getD u []).length) :
    matCell (m.set u ((m.getD u []).set v x)) a b =
      if a = u ∧ b = v then x else matCell m a b := by
  unfold matCell
  rw [getD_set_eq]
  by_cases hau : u = a
  · subst hau
    rw [if_pos ⟨rfl, hu⟩, getD_set_eq]
    by_cases hbv : v = b
    · subst hbv
      rw [if_pos ⟨rfl, hv⟩, if_pos ⟨rfl, rfl⟩]
    · rw [if_neg (fun h => hbv h.1), if_neg (fun h => hbv h.2.symm)]
  · rw [if_neg (fun h => hau h.1), if_neg (fun h => hau h.1.symm)]

theorem wf_row_length {c : CyclicBFS} (hwf : c.WF) (i : Nat) (hi : i < c.vertices) :
    (c.adjMatrix.getD i []).length = c.vertices := by
  have hi' : i < c.adjMatrix.length := by rw [hwf.1]; exact hi
  rw [List.getD_eq_getElem _ _ hi']
  exact hwf.2.1 _ (List.getElem_mem _)

/-- Writing one cell keeps the vector sizes. -/
theorem wf_setCell {c : CyclicBFS} (hwf : c.WF) (i j : Nat) (x : Int) (d : List Int)
    (hd : d.length = c.vertices) (hi : i < c.vertices) :
    ({ c with adjMatrix := c.adjMatrix.set i ((c.adjMatrix.getD i []).set j x)
              inDegree := d } : CyclicBFS).WF := by
  refine ⟨by simp [hwf.1], ?_, hd⟩
  intro row hrow
  simp only at hrow
  rcases List.mem_or_eq_of_mem_set hrow with hm | hm
  · exact hwf.2.1 row hm
  · rw [hm, List.length_set]
    exact wf_row_length hwf i hi

/-- One step of `inputGraph` on the cell `(i, j)` keeps the sizes of the vectors and keeps the
in-degree table at or above the column counts. -/
theorem inputCell_wf_covers (c : CyclicBFS) (hwf : c.WF) (hc : c.Covers) (i j : Nat) (x : Int)
    (hi : i < c.vertices) (hj : j < c.vertices) :
    (({ c with adjMatrix := c.adjMatrix.set i ((c.adjMatrix.getD i []).set j x) } :
        CyclicBFS).WF ∧
      (x ≠ 1 → ({ c with adjMatrix := c.adjMatrix.set i ((c.adjMatrix.getD i []).set j x) } :
        CyclicBFS).Covers)) ∧
    (({ c with adjMatrix := c.adjMatrix.set i ((c.adjMatrix.getD i []).set j x)
               inDegree := c.inDegree.set j (c.inDegree.getD j 0 + 1) } : CyclicBFS).WF ∧
      (x = 1 → ({ c with adjMatrix := c.adjMatrix.set i ((c.adjMatrix.getD i []).set j x)
                         inDegree := c.inDegree.set j (c.inDegree.getD j 0 + 1) } :
        CyclicBFS).Covers)) := by
  have hil : i < c.adjMatrix.length := by rw [hwf.1]; exact hi
  have hjl : j < (c.adjMatrix.getD i []).length := by rw [wf_row_length hwf i hi]; exact hj
  have hjd : j < c.inDegree.length := by rw [hwf.2.2]; exact hj
  have hadj : ∀ (d : List Int) (a b : Nat), ({ c with
      adjMatrix := c.adjMatrix.set i ((c.adjMatrix.getD i []).set j x)
      inDegree := d } : CyclicBFS).adj a b = if a = i ∧ b = j then x else c.adj a b :=
    fun _ a b => matCell_set_val c.adjMatrix i j a b x hil hjl
  refine ⟨⟨wf_setCell hwf i j x c.inDegree hwf.2.2 hi, ?_⟩,
    ⟨wf_setCell hwf i j x _ (by rw [List.length_set]; exact hwf.2.2) hi, ?_⟩⟩
  · intro hx w hw
    have hw' : w < c.vertices := hw
    refine le_trans ?_ (hc w hw')
    unfold columnCount
    have hsub : (List.range c.vertices).filter (fun a => decide (({ c with
        adjMatrix := c.adjMatrix.set i ((c.adjMatrix.getD i []).set j x) } : CyclicBFS).adj a w
          = 1)) ⊆ (List.range c.vertices).filter (fun a => decide (c.adj a w = 1)) := by
      intro a ha
      rw [List.mem_filter, decide_eq_true_eq] at ha ⊢
      refine ⟨ha.1, ?_⟩
      have h2 := ha.2
      rw [hadj c.inDegree a w] at h2
      by_cases hcell : a = i ∧ w = j
      · rw [if_pos hcell] at h2
        exact absurd h2 hx
      · rw [if_neg hcell] at h2
        exact h2
    exact_mod_cast (List.subperm_of_subset ((List.nodup_range _).filter _) hsub).length_le
  · intro _ w hw
    have hw' : w < c.vertices := hw
    show ((List.filter _ (List.range c.vertices)).length : Int) ≤
      (c.inDegree.set j (c.inDegree.getD j 0 + 1)).getD w 0
    rw [getD_set_eq]
    by_cases hwj : j = w
    · subst hwj
      rw [if_pos ⟨rfl, hjd⟩]
      have hle := filter_length_le_succ (List.range c.vertices) (List.nodup_range _)
        (fun a => decide (c.adj a j = 1))
        (fun a => decide (({ c with
          adjMatrix := c.adjMatrix.set i ((c.adjMatrix.getD i []).set j x)
          inDegree := c.inDegree.set j (c.inDegree.getD j 0 + 1) } : CyclicBFS).adj a j = 1)) i
        (by
          intro a _ ha
          rw [decide_eq_true_eq, hadj] at ha
          by_cases hai : a = i
          · exact Or.inr hai
          · rw [if_neg (fun h => hai h.1)] at ha
            exact Or.inl (decide_eq_true ha))
      have := hc j hw'
      unfold columnCount at this
      omega
    · rw [if_neg (fun h => hwj h.1)]
      have hfe : (List.range c.vertices).filter (fun a => decide (({ c with
          adjMatrix := c.adjMatrix.set i ((c.adjMatrix.getD i []).set j x)
          inDegree := c.inDegree.set j (c.inDegree.getD j 0 + 1) } : CyclicBFS).adj a w = 1))
          = (List.range c.vertices).filter (fun a => decide (c.adj a w = 1)) := by
        apply List.filter_congr
        intro a _
        rw [hadj, if_neg (fun h => hwj h.2.symm)]
      rw [hfe]
      exact hc w hw'

theorem inputGraphRow_wf_covers (inp : Nat → Nat → Int) (i : Nat) :
    ∀ (js : List Nat) (c : CyclicBFS), c.WF → c.Covers → i < c.vertices →
      (∀ j ∈ js, j < c.vertices) →
      (inputGraphRow inp i js c).WF ∧ (inputGraphRow inp i js c).Covers ∧
        (inputGraphRow inp i js c).vertices = c.vertices := by
  intro js
  induction js with
  | nil => intro c hwf hc _ _; exact ⟨hwf, hc, rfl⟩
  | cons j js ih =>
    intro c hwf hc hi hjs
    have hj : j < c.vertices := hjs j (List.mem_cons_self _ _)
    have hjs' : ∀ k ∈ js, k < c.vertices := fun k hk => hjs k (List.mem_cons_of_mem _ hk)
    obtain ⟨⟨w1, c1⟩, ⟨w2, c2⟩⟩ := inputCell_wf_covers c hwf hc i j (inp i j) hi hj
    have hcell : ({ c with
        adjMatrix := c.adjMatrix.set i ((c.adjMatrix.getD i []).set j (inp i j)) } :
          CyclicBFS).adj i j = inp i j := by
      have := matCell_set_val c.adjMatrix i j i j (inp i j) (by rw [hwf.1]; exact hi)
        (by rw [wf_row_length hwf i hi]; exact hj)
      rw [if_pos ⟨rfl, rfl⟩] at this
      exact this
    unfold inputGraphRow
    simp only []
    rw [hcell]
    by_cases hx : inp i j = 1
    · rw [if_pos hx]
      exact ih _ w2 (c2 hx) hi hjs'
    · rw [if_neg hx]
      exact ih _ w1 (c1 hx) hi hjs'

theorem inputGraphRows_wf_covers (inp : Nat → Nat → Int) :
    ∀ (is : List Nat) (c : CyclicBFS), c.WF → c.Covers → (∀ i ∈ is, i < c.vertices) →
      (inputGraphRows inp is c).WF ∧ (inputGraphRows inp is c).Covers := by
  intro is
  induction is with
  | nil => intro c hwf hc _; exact ⟨hwf, hc⟩
  | cons i is ih =>
    intro c hwf hc his
    obtain ⟨w1, c1, v1⟩ := inputGraphRow_wf_covers inp i (List.range c.vertices) c hwf hc
      (his i (List.mem_cons_self _ _)) (fun j hj => List.mem_range.mp hj)
    unfold inputGraphRows
    exact ih _ w1 c1 (fun k hk => by rw [v1]; exact his k (List.mem_cons_of_mem _ hk))

/-- Every object a caller can obtain has vectors of the constructor's sizes and an in-degree
table at or above the column counts of its matrix. -/
theorem Built.wf_covers {c : CyclicBFS} (h : Built c) : c.WF ∧ c.Covers := by
  induction h with
  | init n => exact ⟨init_wf n, (init_exact n).covers⟩
  | addEdge u v _ hadd ih => exact addEdge_wf_covers _ _ u v hadd ih.1 ih.2
  | inputGraph inp _ ih =>
    exact inputGraphRows_wf_covers inp _ _ ih.1 ih.2 (fun i hi => List.mem_range.mp hi)
  | hasCycleKahn _ hrun ih =>
    obtain ⟨topo, _, hspec⟩ := hasCycleKahn_spec _ ih.1 ih.2
    rw [hspec] at hrun
    injection hrun with hrun
    subst hrun
    split
    · exact ih
    · exact ⟨ih.1, ih.2⟩

end CyclicBFS

namespace CyclicDFS

theorem init_sizes (n : Nat) : (init n).WF := by
  refine ⟨by simp [init], ?_, by simp [init], by simp [init], by simp [init]⟩
  intro row hrow
  simp only [init] at hrow
  rw [List.eq_of_mem_replicate hrow]
  simp [init]

/-- `addEdge` keeps the sizes of the vectors. -/
theorem addEdge_sizes (c c' : CyclicDFS) (u v : Int) (h : c.addEdge u v = some c')
    (hwf : c.WF) : c'.WF := by
  unfold addEdge at h
  split at h
  · rename_i hcond
    obtain ⟨_, hu, _, _⟩ := hcond
    injection h with h
    subst h
    refine ⟨by simp [hwf.1], ?_, hwf.2.2.1, hwf.2.2.2.1, hwf.2.2.2.2⟩
    intro row hrow
    simp only at hrow
    rcases List.mem_or_eq_of_mem_set hrow with hm | hm
    · exact hwf.2.1 row hm
    · rw [hm, List.length_set]
      have hrowmem : c.adjMatrix.getD u.toNat [] ∈ c.adjMatrix := by
        rw [List.getD_eq_getElem _ _ hu]
        exact List.getElem_mem _
      exact hwf.2.1 _ hrowmem
  · cases h

/-! ## The parent walk of `findCyclePath` -/

/-- The method `hasCycle()` is its loop run from `hasCycleEntry`. -/
theorem hasCycle_eq_loop (c : CyclicDFS) :
    c.hasCycle =
      match hasCycleLoop (List.range c.vertices) (hasCycleEntry c) with
      | none => none
      | some (b, s) => some (b, s.self) := rfl

theorem inv_entry (c : CyclicDFS) (h : c.WF) : Inv (hasCycleEntry c).self [] := by
  obtain ⟨_, _, hV, hR, hP⟩ := h
  have hnv : ∀ u, ¬ (hasCycleEntry c).self.Vis u := fun u hu => hu (getD_replicate _ _ _)
  exact
    { lenV := by simp [hasCycleEntry, hV]
      lenR := by simp [hasCycleEntry, hR]
      lenP := by simp [hasCycleEntry, hP]
      stk := by
        intro u
        simp only [List.not_mem_nil, iff_false]
        exact fun hu => hu (getD_replicate _ _ _)
      stkV := fun u hu => absurd hu (List.not_mem_nil u)
      nodup := List.nodup_nil
      chain := List.chain'_nil
      closed := fun u _ hu _ => absurd hu.1 (hnv u)
      acyc := fun u hu => absurd hu.1 (hnv u) }

/-- A `true` result of the outer loop comes from a `dfsUtil` call that recorded a back edge on
its stack, followed by `findCyclePath` on what that call left. -/
theorem hasCycleLoop_back :
    ∀ (is : List Nat) (s : DfsState),
      Inv s.self [] → (∀ i ∈ is, i < s.self.vertices) →
      ∀ s', hasCycleLoop is s = some (true, s') →
      ∃ s0, Back s0 ∧ s0.self.findCyclePath s0.cycleStart s0.cycleEnd = some s'.self ∧
        s'.cycleStart = s0.cycleStart ∧ s'.cycleEnd = s0.cycleEnd ∧
        s0.self.vertices = s.self.vertices := by
  intro is
  induction is with
  | nil =>
    intro s _ _ s' h
    simp [hasCycleLoop] at h
  | cons i is ih =>
    intro s hinv hlt s' hrun
    have hlt' : ∀ x ∈ is, x < s.self.vertices := fun x hx => hlt x (List.mem_cons_of_mem _ hx)
    unfold hasCycleLoop at hrun
    by_cases h0 : s.self.visited.getD i 0 = 0
    · rw [if_pos h0] at hrun
      obtain ⟨b, s1, hrun1, hg, hf, ht⟩ := dfsUtil_spec s.self.vertices i s [] hinv
        (hlt i (List.mem_cons_self _ _)) (fun h => h h0) (List.chain'_singleton i)
        (unvisited_le _)
      rw [hrun1] at hrun
      cases b with
      | true =>
        simp only [] at hrun
        cases hfc : s1.self.findCyclePath s1.cycleStart s1.cycleEnd with
        | none => rw [hfc] at hrun; cases hrun
        | some c' =>
          rw [hfc] at hrun
          injection hrun with hrun
          injection hrun with _ hs
          subst hs
          exact ⟨s1, ht rfl, hfc, rfl, rfl, hg.1⟩
      | false =>
        simp only [] at hrun
        obtain ⟨hinv', _, _, _⟩ := hf rfl
        obtain ⟨s0, h1, h2, h3, h4, h5⟩ := ih s1 hinv' (by rw [hg.1]; exact hlt') s' hrun
        exact ⟨s0, h1, h2, h3, h4, h5.trans hg.1⟩
    · rw [if_neg h0] at hrun
      exact ih s hinv hlt' s' hrun

/-- From the recorded stack, the parent walk from `cycleEnd` reaches `cycleStart` within
`vertices - 1` steps; every vertex it stands on is in range and has a recorded parent. -/
theorem back_walk (s : DfsState) (h : Back s) :
    ∃ pre : List Nat,
      findCyclePathLoop s.self.parent s.cycleStart s.self.vertices s.cycleEnd []
        = some (pre.map (fun x : Nat => (x : Int))) ∧
      pre.length + 1 ≤ s.self.vertices ∧
      (∀ x ∈ pre, x < s.self.parent.length ∧ ∃ y : Nat, s.self.parent.getD x 0 = (y : Int)) ∧
      s.self.findCyclePath s.cycleStart s.cycleEnd = some { s.self with
        cyclePath := (pre.map (fun x : Nat => (x : Int)) ++ [s.cycleStart]).reverse
          ++ [s.cycleStart] } := by
  obtain ⟨w, u, T, hce, hcs, hu, hnd, hlt, hch, hedge, hlen⟩ := h
  obtain ⟨pre, post, hsplit⟩ := List.append_of_mem hu
  have hnd' : (pre ++ [u]).Nodup := by
    have : (pre ++ [u] ++ post).Nodup := by
      rw [List.append_assoc]
      simpa [← hsplit] using hnd
    exact (List.nodup_append.mp this).1
  have hupre : u ∉ pre := by
    intro hm
    exact (List.nodup_append.mp hnd').2.2 hm (List.mem_singleton_self u)
  have hch' : (pre ++ [u]).Chain' s.self.Link := by
    rw [hsplit, List.chain'_split] at hch
    exact hch.1
  have hlt' : ∀ x ∈ pre ++ [u], x < s.self.vertices := by
    intro x hx
    apply hlt x
    rw [hsplit]
    rcases List.mem_append.mp hx with h | h
    · exact List.mem_append_left _ h
    · simp at h
      subst h
      simp
  have hhead : (pre ++ [u]).head? = some w := by
    cases pre with
    | nil =>
      simp at hsplit
      simp [hsplit.1]
    | cons z pre =>
      simp at hsplit
      simp [hsplit.1]
  have hprelen : pre.length + 1 ≤ s.self.vertices := by
    have := nodup_lt_length_le s.self.vertices (pre ++ [u]) hnd' hlt'
    simpa using this
  have hpl : ∀ x ∈ pre, x < s.self.parent.length :=
    fun x hx => by rw [hlen]; exact hlt' x (List.mem_append_left _ hx)
  have hrun := findCyclePathLoop_chain s.self u pre s.self.vertices w [] hch' hupre hpl hhead
    (by omega)
  have hrun2 := findCyclePathLoop_chain s.self u pre (s.self.vertices + 1) w [] hch' hupre hpl
    hhead (by omega)
  rw [List.nil_append] at hrun hrun2
  refine ⟨pre, by rw [hcs, hce]; exact hrun, hprelen, ?_, ?_⟩
  · intro x hx
    refine ⟨hpl x hx, ?_⟩
    obtain ⟨l1, l2, hl⟩ := List.append_of_mem hx
    have hc2 : (x :: (l2 ++ [u])).Chain' s.self.Link := by
      have : pre ++ [u] = l1 ++ x :: (l2 ++ [u]) := by rw [hl]; simp
      rw [this, List.chain'_split] at hch'
      exact hch'.2
    rw [List.chain'_cons'] at hc2
    obtain ⟨y, hy⟩ : ∃ y, (l2 ++ [u]).head? = some y := by
      cases l2 with
      | nil => exact ⟨u, rfl⟩
      | cons z _ => exact ⟨z, rfl⟩
    exact ⟨y, (hc2.1 y hy).1⟩
  · unfold findCyclePath
    rw [hcs, hce, hrun2]

/-! ## Repeating a detection -/

theorem sameShape_same (c : CyclicDFS) : SameShape c c := ⟨rfl, rfl, rfl, rfl, rfl⟩

theorem sameShape_chain {c c' c'' : CyclicDFS} (h1 : SameShape c c') (h2 : SameShape c' c'') :
    SameShape c c'' :=
  ⟨h2.1.trans h1.1, h2.2.1.trans h1.2.1, h2.2.2.1.trans h1.2.2.1,
    h2.2.2.2.1.trans h1.2.2.2.1, h2.2.2.2.2.trans h1.2.2.2.2⟩

theorem dfsUtilLoop_shape (rec : Nat → DfsState → Option (Bool × DfsState))
    (hrec : ∀ u s b s', rec u s = some (b, s') → SameShape s.self s'.self) (v : Nat) :
    ∀ (us : List Nat) (s : DfsState) (b : Bool) (s' : DfsState),
      dfsUtilLoop rec v us s = some (b, s') → SameShape s.self s'.self := by
  intro us
  induction us with
  | nil =>
    intro s b s' h
    simp only [dfsUtilLoop] at h
    injection h with h
    injection h with _ hs
    subst hs
    exact sameShape_same _
  | cons u us ih =>
    intro s b s' h
    unfold dfsUtilLoop at h
    by_cases hadj : s.self.adj v u = 1
    · rw [if_pos hadj] at h
      by_cases hvis : s.self.visited.getD u 0 = 0
      · rw [if_pos hvis] at h
        cases hr : rec u { s with self := { s.self with
            parent := s.self.parent.set u (v : Int) } } with
        | none => rw [hr] at h; cases h
        | some r =>
          obtain ⟨b1, s1⟩ := r
          rw [hr] at h
          have h1 := hrec _ _ _ _ hr
          have h0 : SameShape s.self ({ s with self := { s.self with
              parent := s.self.parent.set u (v : Int) } } : DfsState).self :=
            ⟨rfl, rfl, rfl, rfl, by simp⟩
          cases b1 with
          | true =>
            simp only [] at h
            injection h with h
            injection h with _ hs
            subst hs
            exact sameShape_chain h0 h1
          | false =>
            simp only [] at h
            exact sameShape_chain (sameShape_chain h0 h1) (ih _ _ _ h)
      · rw [if_neg hvis] at h
        by_cases hrs : s.self.recStack.getD u 0 ≠ 0
        · rw [if_pos hrs] at h
          injection h with h
          injection h with _ hs
          subst hs
          exact sameShape_same _
        · rw [if_neg hrs] at h
          exact ih _ _ _ h
    · rw [if_neg hadj] at h
      exact ih _ _ _ h

theorem dfsUtil_shape :
    ∀ (fuel v : Nat) (s : DfsState) (b : Bool) (s' : DfsState),
      dfsUtil fuel v s = some (b, s') → SameShape s.self s'.self := by
  intro fuel
  induction fuel with
  | zero => intro v s b s' h; simp [dfsUtil] at h
  | succ fuel ih =>
    intro v s b s' h
    unfold dfsUtil at h
    simp only [] at h
    cases hr : dfsUtilLoop (dfsUtil fuel) v (List.range s.self.vertices)
        { s with self := { s.self with
            visited := s.self.visited.set v 1
            recStack := s.self.recStack.set v 1 } } with
    | none => rw [hr] at h; cases h
    | some r =>
      obtain ⟨b1, s1⟩ := r
      rw [hr] at h
      have h1 := dfsUtilLoop_shape (dfsUtil fuel) (fun u s b s' => ih u s b s') v _ _ _ _ hr
      have h0 : SameShape s.self ({ s with self := { s.self with
            visited := s.self.visited.set v 1
            recStack := s.self.recStack.set v 1 } } : DfsState).self :=
        ⟨rfl, rfl, by simp, by simp, rfl⟩
      cases b1 with
      | true =>
        simp only [] at h
        injection h with h
        injection h with _ hs
        subst hs
        exact sameShape_chain h0 h1
      | false =>
        simp only [] at h
        injection h with h
        injection h with _ hs
        subst hs
        exact sameShape_chain (sameShape_chain h0 h1) ⟨rfl, rfl, rfl, by simp, rfl⟩

theorem findCyclePath_shape (c c' : CyclicDFS) (cs ce : Int)
    (h : c.findCyclePath cs ce = some c') : SameShape c c' := by
  unfold findCyclePath at h
  cases hr : findCyclePathLoop c.parent cs (c.vertices + 1) ce [] with
  | none => rw [hr] at h; cases h
  | some t =>
    rw [hr] at h
    injection h with h
    subst h
    exact ⟨rfl, rfl, rfl, rfl, rfl⟩

theorem hasCycleLoop_shape :
    ∀ (is : List Nat) (s : DfsState) (b : Bool) (s' : DfsState),
      hasCycleLoop is s = some (b, s') → SameShape s.self s'.self := by
  intro is
  induction is with
  | nil =>
    intro s b s' h
    simp only [hasCycleLoop] at h
    injection h with h
    injection h with _ hs
    subst hs
    exact sameShape_same _
  | cons i is ih =>
    intro s b s' h
    unfold hasCycleLoop at h
    by_cases h0 : s.self.visited.getD i 0 = 0
    · rw [if_pos h0] at h
      cases hr : dfsUtil s.self.vertices i s with
      | none => rw [hr] at h; cases h
      | some r =>
        obtain ⟨b1, s1⟩ := r
        rw [hr] at h
        have h1 := dfsUtil_shape _ _ _ _ _ hr
        cases b1 with
        | true =>
          simp only [] at h
          cases hfc : s1.self.findCyclePath s1.cycleStart s1.cycleEnd with
          | none => rw [hfc] at h; cases h
          | some c' =>
            rw [hfc] at h
            injection h with h
            injection h with _ hs
            subst hs
            exact sameShape_chain h1 (findCyclePath_shape _ _ _ _ hfc)
        | false =>
          simp only [] at h
          exact sameShape_chain h1 (ih _ _ _ h)
    · rw [if_neg h0] at h
      exact ih _ _ _ h

/-- The neighbour scan does not read `cyclePath`. -/
theorem dfsUtilLoop_withPath (p : List Int) (rec : Nat → DfsState → Option (Bool × DfsState))
    (hrec : ∀ u s, rec u (withPath p s) = (rec u s).map (fun r => (r.1, withPath p r.2)))
    (v : Nat) :
    ∀ (us : List Nat) (s : DfsState),
      dfsUtilLoop rec v us (withPath p s)
        = (dfsUtilLoop rec v us s).map (fun r => (r.1, withPath p r.2)) := by
  intro us
  induction us with
  | nil => intro s; rfl
  | cons u us ih =>
    intro s
    unfold dfsUtilLoop
    have e1 : (withPath p s).self.adj v u = s.self.adj v u := rfl
    have e2 : (withPath p s).self.visited = s.self.visited := rfl
    have e3 : (withPath p s).self.recStack = s.self.recStack := rfl
    rw [e1, e2, e3]
    by_cases hadj : s.self.adj v u = 1
    · rw [if_pos hadj, if_pos hadj]
      by_cases hvis : s.self.visited.getD u 0 = 0
      · rw [if_pos hvis, if_pos hvis]
        have e4 : ({ withPath p s with self := { (withPath p s).self with
            parent := (withPath p s).self.parent.set u (v : Int) } } : DfsState)
            = withPath p { s with self := { s.self with
                parent := s.self.parent.set u (v : Int) } } := rfl
        rw [e4, hrec]
        cases hr : rec u { s with self := { s.self with
            parent := s.self.parent.set u (v : Int) } } with
        | none => rfl
        | some r =>
          obtain ⟨b1, s1⟩ := r
          cases b1 with
          | true => rfl
          | false =>
            simp only [Option.map_some']
            exact ih s1
      · rw [if_neg hvis, if_neg hvis]
        by_cases hrs : s.self.recStack.getD u 0 ≠ 0
        · rw [if_pos hrs, if_pos hrs]
          rfl
        · rw [if_neg hrs, if_neg hrs]
          exact ih s
    · rw [if_neg hadj, if_neg hadj]
      exact ih s

/-- The recursive search `dfsUtil` does not read `cyclePath`. -/
theorem dfsUtil_withPath (p : List Int) :
    ∀ (fuel v : Nat) (s : DfsState),
      dfsUtil fuel v (withPath p s)
        = (dfsUtil fuel v s).map (fun r => (r.1, withPath p r.2)) := by
  intro fuel
  induction fuel with
  | zero => intro v s; rfl
  | succ fuel ih =>
    intro v s
    unfold dfsUtil
    simp only []
    have e : ({ withPath p s with self := { (withPath p s).self with
          visited := (withPath p s).self.visited.set v 1
          recStack := (withPath p s).self.recStack.set v 1 } } : DfsState)
        = withPath p { s with self := { s.self with
            visited := s.self.visited.set v 1
            recStack := s.self.recStack.set v 1 } } := rfl
    have ev : (withPath p s).self.vertices = s.self.vertices := rfl
    rw [e, ev, dfsUtilLoop_withPath p (dfsUtil fuel) (fun u s => ih u s) v]
    cases hr : dfsUtilLoop (dfsUtil fuel) v (List.range s.self.vertices)
        { s with self := { s.self with
            visited := s.self.visited.set v 1
            recStack := s.self.recStack.set v 1 } } with
    | none => rfl
    | some r =>
      obtain ⟨b1, s1⟩ := r
      cases b1 with
      | true => rfl
      | false => rfl

/-- The outer loop of `hasCycle` reads `cyclePath` nowhere: a `true` result overwrites it, a
`false` result passes it through. -/
theorem hasCycleLoop_withPath (p : List Int) :
    ∀ (is : List Nat) (s : DfsState),
      hasCycleLoop is (withPath p s)
        = (hasCycleLoop is s).map
            (fun r => (r.1, if r.1 = true then r.2 else withPath p r.2)) := by
  intro is
  induction is with
  | nil => intro s; rfl
  | cons i is ih =>
    intro s
    unfold hasCycleLoop
    have e2 : (withPath p s).self.visited = s.self.visited := rfl
    have ev : (withPath p s).self.vertices = s.self.vertices := rfl
    rw [e2, ev]
    by_cases h0 : s.self.visited.getD i 0 = 0
    · rw [if_pos h0, if_pos h0, dfsUtil_withPath]
      cases hr : dfsUtil s.self.vertices i s with
      | none => rfl
      | some r =>
        obtain ⟨b1, s1⟩ := r
        cases b1 with
        | true =>
          simp only [Option.map_some']
          have e5 : (withPath p s1).self.findCyclePath (withPath p s1).cycleStart
              (withPath p s1).cycleEnd
              = (s1.self.findCyclePath s1.cycleStart s1.cycleEnd).map
                  (fun c' => c') := by
            unfold findCyclePath
            have ep : (withPath p s1).self.parent = s1.self.parent := rfl
            have ev1 : (withPath p s1).self.vertices = s1.self.vertices := rfl
            have ec1 : (withPath p s1).cycleStart = s1.cycleStart := rfl
            have ec2 : (withPath p s1).cycleEnd = s1.cycleEnd := rfl
            rw [ep, ev1, ec1, ec2]
            cases findCyclePathLoop s1.self.parent s1.cycleStart (s1.self.vertices + 1)
                s1.cycleEnd [] with
            | none => rfl
            | some t => rfl
          rw [e5]
          cases s1.self.findCyclePath s1.cycleStart s1.cycleEnd with
          | none => rfl
          | some c' => rfl
        | false =>
          simp only [Option.map_some']
          exact ih s1
    · rw [if_neg h0, if_neg h0]
      exact ih s

/-- Running `hasCycle` on the object it left behind gives the same flag and leaves the same
object. -/
theorem hasCycle_again (c : CyclicDFS) (b : Bool) (c1 : CyclicDFS)
    (h : c.hasCycle = some (b, c1)) : c1.hasCycle = some (b, c1) := by
  rw [hasCycle_eq_loop] at h
  cases hr : hasCycleLoop (List.range c.vertices) (hasCycleEntry c) with
  | none => rw [hr] at h; cases h
  | some r =>
    obtain ⟨b1, s⟩ := r
    rw [hr] at h
    simp only [] at h
    injection h with h
    injection h with hb hs
    subst hb hs
    have hshape := hasCycleLoop_shape _ _ _ _ hr
    obtain ⟨hv, ha, h1, h2, h3⟩ := hshape
    have h1' : s.self.visited.length = c.visited.length := by
      rw [h1]; simp [hasCycleEntry]
    have h2' : s.self.recStack.length = c.recStack.length := by
      rw [h2]; simp [hasCycleEntry]
    have h3' : s.self.parent.length = c.parent.length := by
      rw [h3]; simp [hasCycleEntry]
    have hv' : s.self.vertices = c.vertices := hv
    have ha' : s.self.adjMatrix = c.adjMatrix := ha
    have hentry : hasCycleEntry s.self = withPath s.self.cyclePath (hasCycleEntry c) := by
      unfold hasCycleEntry withPath
      simp only []
      rw [h1', h2', h3', hv', ha']
    rw [hasCycle_eq_loop, hentry, hv', hasCycleLoop_withPath, hr]
    simp only [Option.map_some']
    cases b1 with
    | true => rfl
    | false =>
      have hcp : ∀ s2 : DfsState, (withPath s2.self.cyclePath s2).self = s2.self := by
        intro s2
        rfl
      simp only [Bool.false_eq_true, if_false]
      rw [hcp]

end CyclicDFS

namespace CyclicBFS

/-! ## Repeating Kahn's detection -/

/-- The relaxation loop reads the object only through `adjMatrix`. -/
theorem kahnRelax_congr (c c' : CyclicBFS) (ha : c'.adjMatrix = c.adjMatrix) (u : Nat) :
    ∀ (vs : List Nat) (st : List Int × List Nat), kahnRelax c' u vs st = kahnRelax c u vs st := by
  intro vs
  induction vs with
  | nil => intro st; rfl
  | cons v vs ih =>
    intro st
    obtain ⟨temp, q⟩ := st
    unfold kahnRelax
    have e : c'.adj u v = c.adj u v := by unfold adj; rw [ha]
    rw [e]
    simp only [ih]

/-- The queue loop reads the object only through `vertices` and `adjMatrix`. -/
theorem kahnLoop_congr (c c' : CyclicBFS) (hv : c'.vertices = c.vertices)
    (ha : c'.adjMatrix = c.adjMatrix) :
    ∀ (fuel : Nat) (temp : List Int) (q topo : List Nat),
      kahnLoop c' fuel temp q topo = kahnLoop c fuel temp q topo := by
  intro fuel
  induction fuel with
  | zero =>
    intro temp q topo
    cases q with
    | nil => rfl
    | cons u q => rfl
  | succ fuel ih =>
    intro temp q topo
    cases q with
    | nil => rfl
    | cons u q =>
      unfold kahnLoop
      simp only []
      rw [hv, kahnRelax_congr c c' ha, ih]

/-- Running `hasCycleKahn` on the object it left behind gives the same result, and the call
leaves `vertices`, `adjMatrix` and `inDegree` as they were. -/
theorem hasCycleKahn_again (c : CyclicBFS) (r : KahnResult) (h : c.hasCycleKahn = some r) :
    r.self.hasCycleKahn = some r ∧ r.self.inDegree = c.inDegree ∧
      r.self.adjMatrix = c.adjMatrix ∧ r.self.vertices = c.vertices := by
  have h0 := h
  unfold hasCycleKahn at h
  simp only [] at h
  cases hk : kahnLoop c c.vertices c.inDegree
      ((List.range c.vertices).filter (fun i => c.inDegree.getD i 0 = 0)) [] with
  | none => rw [hk] at h; cases h
  | some res =>
    obtain ⟨t, topo⟩ := res
    rw [hk] at h
    simp only [] at h
    by_cases hl : topo.length = c.vertices
    · rw [if_pos hl] at h
      injection h with h
      subst h
      exact ⟨h0, rfl, rfl, rfl⟩
    · rw [if_neg hl] at h
      injection h with h
      subst h
      refine ⟨?_, rfl, rfl, rfl⟩
      unfold hasCycleKahn
      simp only []
      rw [kahnLoop_congr c { c with cyclePath := (List.range c.vertices).filter (fun i =>
        (topo.foldl (fun p v => p.set v true) (List.replicate c.vertices false)).getD i false
          = false) } rfl rfl, hk]
      simp only []
      rw [if_neg hl]

end CyclicBFS

/-! ## Graphs without edges -/

theorem matCell_replicate (n a b : Nat) :
    matCell (List.replicate n (List.replicate n (0 : Int))) a b = 0 := by
  unfold matCell
  by_cases ha : a < n
  · have : (List.replicate n (List.replicate n (0 : Int))).getD a [] = List.replicate n 0 := by
      simp [List.getD_eq_getElem?_getD, List.getElem?_replicate, ha]
    rw [this]
    exact getD_replicate _ _ _
  · rw [getD_ge (List.replicate n (List.replicate n (0 : Int))) a []
      (by rw [List.length_replicate]; omega)]
    rfl

theorem not_hasDirectedCycle_of_no_edge (n : Nat) (m : List (List Int))
    (h : ∀ a b, matCell m a b ≠ 1) : ¬ HasDirectedCycle n m := by
  rintro ⟨p, hlen, hch, _⟩
  match p, hlen, hch with
  | a :: b :: rest, _, hch =>
    have he : IsEdge n m a b := (List.chain'_cons.mp hch).1
    exact h a b he.2.2

namespace CyclicBFS

theorem kahnRelax_no_edge (c : CyclicBFS) (u : Nat) (h : ∀ v, c.adj u v ≠ 1) :
    ∀ (vs : List Nat) (st : List Int × List Nat), kahnRelax c u vs st = st := by
  intro vs
  induction vs with
  | nil => intro st; rfl
  | cons v vs ih =>
    intro st
    obtain ⟨temp, q⟩ := st
    unfold kahnRelax
    rw [if_neg (h v)]
    exact ih _

theorem kahnLoop_no_edge (c : CyclicBFS) (h : ∀ u v, c.adj u v ≠ 1) :
    ∀ (fuel : Nat) (temp : List Int) (q topo : List Nat), q.length ≤ fuel →
      kahnLoop c fuel temp q topo = some (temp, topo ++ q) := by
  intro fuel
  induction fuel with
  | zero =>
    intro temp q topo hq
    cases q with
    | nil => simp [kahnLoop]
    | cons u q => simp at hq
  | succ fuel ih =>
    intro temp q topo hq
    cases q with
    | nil => simp [kahnLoop]
    | cons u q =>
      unfold kahnLoop
      simp only []
      rw [kahnRelax_no_edge c u (h u)]
      simp only []
      rw [ih temp q (topo ++ [u]) (by simpa using hq)]
      simp

theorem init_adj (n u v : Nat) : (init n).adj u v = 0 :=
  matCell_replicate n u v

theorem init_seeds (n : Nat) :
    (List.range n).filter (fun i => (init n).inDegree.getD i 0 = 0) = List.range n := by
  rw [List.filter_eq_self]
  intro i hi
  have : (init n).inDegree.getD i 0 = 0 := getD_replicate _ _ _
  exact decide_eq_true this

theorem init_kahnLoop (n : Nat) :
    kahnLoop (init n) n (init n).inDegree
      ((List.range n).filter (fun i => (init n).inDegree.getD i 0 = 0)) []
      = some ((init n).inDegree, List.range n) := by
  rw [init_seeds, kahnLoop_no_edge (init n) (fun u v => by rw [init_adj]; decide) n _ _ _
    (by simp)]
  simp

theorem init_hasCycleKahn (n : Nat) :
    (init n).hasCycleKahn = some { ret := false, topoOrder := List.range n, self := init n } := by
  have h := init_kahnLoop n
  unfold hasCycleKahn
  simp only []
  have hv : (init n).vertices = n := rfl
  rw [hv, h]
  simp

end CyclicBFS

namespace CyclicDFS

theorem init_hasCycle (n : Nat) :
    ∃ c', (init n).hasCycle = some (false, c') ∧ c'.cyclePath = [] := by
  obtain ⟨b, c', hrun, _, _, hf, ht⟩ := hasCycle_spec (init n) (init_sizes n)
  cases b with
  | false => exact ⟨c', hrun, (hf rfl).2⟩
  | true =>
    exfalso
    obtain ⟨P, _, hP, _⟩ := ht rfl
    have hv : c'.vertices = n := by assumption
    have ha : c'.adjMatrix = List.replicate n (List.replicate n 0) := by assumption
    rw [hv, ha] at hP
    exact not_hasDirectedCycle_of_no_edge n _ (fun a b => by rw [matCell_replicate]; decide)
      ⟨P, hP⟩

end CyclicDFS

/-! ## `addEdge` and the index range -/

theorem row_length (m : List (List Int)) (n : Nat) (h1 : m.length = n)
    (h2 : ∀ row ∈ m, row.length = n) (i : Nat) (hi : i < n) : (m.getD i []).length = n := by
  have hi' : i < m.length := by rw [h1]; exact hi
  rw [List.getD_eq_getElem _ _ hi']
  exact h2 _ (List.getElem_mem _)

namespace CyclicDFS

theorem addEdge_in_range (c : CyclicDFS) (h : c.WF) (u v : Int)
    (hr : 0 ≤ u ∧ u < c.vertices ∧ 0 ≤ v ∧ v < c.vertices) :
    c.addEdge u v = some { c with
      adjMatrix := c.adjMatrix.set u.toNat ((c.adjMatrix.getD u.toNat []).set v.toNat 1) } := by
  obtain ⟨hu0, hu, hv0, hv⟩ := hr
  have hu' : u.toNat < c.vertices := by omega
  have hv' : v.toNat < c.vertices := by omega
  unfold addEdge
  rw [if_pos ⟨hu0, by rw [h.1]; exact hu', hv0,
    by rw [row_length c.adjMatrix c.vertices h.1 h.2.1 _ hu']; exact hv'⟩]

theorem addEdge_out_of_range (c : CyclicDFS) (h : c.WF) (u v : Int)
    (hr : ¬ (0 ≤ u ∧ u < c.vertices ∧ 0 ≤ v ∧ v < c.vertices)) : c.addEdge u v = none := by
  unfold addEdge
  rw [if_neg]
  rintro ⟨hu0, hu, hv0, hv⟩
  rw [h.1] at hu
  rw [row_length c.adjMatrix c.vertices h.1 h.2.1 _ hu] at hv
  exact hr ⟨hu0, by omega, hv0, by omega⟩

end CyclicDFS

namespace CyclicBFS

theorem addEdge_kahn_in_range (c : CyclicBFS) (h : c.WF) (u v : Int)
    (hr : 0 ≤ u ∧ u < c.vertices ∧ 0 ≤ v ∧ v < c.vertices) :
    c.addEdge u v = some { c with
      adjMatrix := c.adjMatrix.set u.toNat ((c.adjMatrix.getD u.toNat []).set v.toNat 1)
      inDegree := c.inDegree.set v.toNat (c.inDegree.getD v.toNat 0 + 1) } := by
  obtain ⟨hu0, hu, hv0, hv⟩ := hr
  have hu' : u.toNat < c.vertices := by omega
  have hv' : v.toNat < c.vertices := by omega
  unfold addEdge
  rw [if_pos ⟨hu0, by rw [h.1]; exact hu', hv0,
    by rw [row_length c.adjMatrix c.vertices h.1 h.2.1 _ hu']; exact hv',
    by rw [h.2.2]; exact hv'⟩]

theorem addEdge_kahn_out_of_range (c : CyclicBFS) (h : c.WF) (u v : Int)
    (hr : ¬ (0 ≤ u ∧ u < c.vertices ∧ 0 ≤ v ∧ v < c.vertices)) : c.addEdge u v = none := by
  unfold addEdge
  rw [if_neg]
  rintro ⟨hu0, hu, hv0, hv, _⟩
  rw [h.1] at hu
  rw [row_length c.adjMatrix c.vertices h.1 h.2.1 _ hu] at hv
  exact hr ⟨hu0, by omega, hv0, by omega⟩

/-! ## The unprocessed vertices of Kahn's loop -/

/-- A vertex that a cycle reaches is never processed. -/
theorem KahnFacts.not_mem_of_reach {c : CyclicBFS} {topo : List Nat} (h : KahnFacts c topo)
    {a v : Nat} (ha : Relation.TransGen c.Edge a a) (hav : Relation.ReflTransGen c.Edge a v) :
    v ∉ topo := by
  intro hv
  rcases Relation.reflTransGen_iff_eq_or_transGen.mp hav with heq | htg
  · subst heq
    exact h.not_mem_of_cycle ha hv
  · exact h.not_mem_of_cycle ha (h.before htg hv).1

/-- With an exact in-degree table, every unprocessed vertex is reached by a cycle. -/
theorem KahnFacts.reach_of_not_mem {c : CyclicBFS} {topo : List Nat} (h : KahnFacts c topo)
    (he : c.Exact) (v : Nat) (hv : v < c.vertices) (hvt : v ∉ topo) :
    ∃ a, Relation.TransGen c.Edge a a ∧ Relation.ReflTransGen c.Edge a v := by
  by_contra hno
  have hirr : ∀ a, a < c.vertices →
      ¬ Relation.TransGen (fun x y => c.Edge x y ∧ Relation.ReflTransGen c.Edge y v) a a := by
    intro a _ ha
    apply hno
    refine ⟨a, Relation.TransGen.mono (fun x y hxy => hxy.1) ha, ?_⟩
    obtain ⟨b, hab, _⟩ := Relation.TransGen.head'_iff.mp ha
    exact Relation.ReflTransGen.head hab.1 hab.2
  obtain ⟨m, hm, ⟨hmt, hmv⟩, hmin⟩ :=
    exists_source hirr (fun u => u ∉ topo ∧ Relation.ReflTransGen c.Edge u v) v hv
      ⟨hvt, Relation.ReflTransGen.refl⟩
  obtain ⟨u, hum, hut⟩ := h.unprocessed_pred he m hm hmt
  exact hmin u hum.1 ⟨hut, Relation.ReflTransGen.head hum hmv⟩ ⟨hum, hmv⟩

/-- With an exact in-degree table, the unprocessed set that a `true` verdict of `hasCycleKahn`
records is the set of vertices that a directed cycle reaches: the vertices on a cycle and the
vertices downstream of one. -/
theorem cyclePath_iff_reached_from_cycle (c : CyclicBFS) (hwf : c.WF)
    (he : c.Exact) (r : KahnResult) (hr : c.hasCycleKahn = some r) (ht : r.ret = true)
    (v : Nat) :
    v ∈ r.self.cyclePath ↔
      v < c.vertices ∧ ∃ a, Relation.TransGen (IsEdge c.vertices c.adjMatrix) a a ∧
        Relation.ReflTransGen (IsEdge c.vertices c.adjMatrix) a v := by
  obtain ⟨topo, hfacts, hrun⟩ := hasCycleKahn_spec c hwf he.covers
  rw [hrun] at hr
  injection hr with hr
  by_cases hlen : topo.length = c.vertices
  · rw [if_pos hlen] at hr
    subst hr
    cases ht
  · rw [if_neg hlen] at hr
    subst hr
    rw [mem_withUnprocessed]
    constructor
    · rintro ⟨hv, hvt⟩
      exact ⟨hv, hfacts.reach_of_not_mem he v hv hvt⟩
    · rintro ⟨hv, a, ha, hav⟩
      exact ⟨hv, hfacts.not_mem_of_reach ha hav⟩

/-! ## The depth bound of `dfsForCycle` -/

/-- In a call made on behalf of `findCyclePath`, the path is shorter than the component. -/
theorem FcPre.depth_lt {c : CyclicBFS} {target : Nat} {component path : List Nat}
    {visited : List Bool} {current : Nat} (hpre : FcPre c target component path visited current) :
    path.length < component.length := by
  have hnd : (path ++ [current]).Nodup := by
    rw [List.nodup_append]
    refine ⟨hpre.nodup, List.nodup_singleton _, ?_⟩
    intro a ha hb
    simp at hb
    subst hb
    exact hpre.fresh ha
  have := (List.subperm_of_subset hnd hpre.sub).length_le
  simp at this
  omega

/-- The neighbour scan calls `rec` only with arguments that meet `FcPre`: two recursive calls
that agree there give the same scan. -/
theorem dfsForCycleLoop_congr (c : CyclicBFS) (target : Nat) (component : List Nat)
    (rec rec2 : Nat → List Nat → List Bool → Option (Bool × List Nat × List Bool))
    (current depth : Nat) (path1 : List Nat) (visited1 : List Bool)
    (hrec : ∀ next, FcPre c target component path1 visited1 next →
      ∃ r, rec next path1 visited1 = some r ∧
        FcPost c target component path1 visited1 (depth + 1) r)
    (hagree : ∀ next, FcPre c target component path1 visited1 next →
      rec2 next path1 visited1 = rec next path1 visited1)
    (hhead : path1.head? = some target) (hlast : path1.getLast? = some current)
    (hchain : path1.Chain' c.Edge) (hsub : ∀ x ∈ path1, x ∈ component)
    (hvlen : visited1.length = c.vertices)
    (hvis : ∀ x, visited1.getD x false = true ↔ x ∈ path1) (hnd : path1.Nodup)
    (hlen : path1.length = depth + 1) (hcur : current < c.vertices) :
    ∀ rest : List Nat, (∀ x ∈ rest, x < c.vertices) →
      dfsForCycleLoop rec2 c current target component depth rest path1 visited1
        = dfsForCycleLoop rec c current target component depth rest path1 visited1 := by
  intro rest
  induction rest with
  | nil => intro _; rfl
  | cons next rest ih =>
    intro hlt
    have ih' := ih (fun x hx => hlt x (List.mem_cons_of_mem _ hx))
    have hnext : next < c.vertices := hlt next (List.mem_cons_self _ _)
    have hne : path1 ≠ [] := by
      intro h
      rw [h] at hlen
      simp at hlen
    unfold dfsForCycleLoop
    by_cases hadj : c.adj current next = 1
    · rw [if_pos hadj, if_pos hadj]
      by_cases hmem : next ∈ component
      · rw [if_pos hmem, if_pos hmem]
        by_cases hclose : next = target ∧ depth > 0
        · rw [if_pos hclose, if_pos hclose]
        · rw [if_neg hclose, if_neg hclose]
          by_cases hv : visited1.getD next false = false
          · rw [if_pos hv, if_pos hv]
            have hchain' : (path1 ++ [next]).Chain' c.Edge := by
              rw [List.chain'_append]
              refine ⟨hchain, List.chain'_singleton _, ?_⟩
              intro x hx y hy
              rw [hlast] at hx
              simp at hx hy
              subst hx hy
              exact ⟨hcur, hnext, hadj⟩
            have hhead' : (path1 ++ [next]).head? = some target := by
              rw [List.head?_append_of_ne_nil _ hne]
              exact hhead
            have hsub' : ∀ x ∈ path1 ++ [next], x ∈ component := by
              intro x hx
              rcases List.mem_append.mp hx with h | h
              · exact hsub x h
              · simp at h
                subst h
                exact hmem
            have hfresh : next ∉ path1 := by
              intro hm
              have := (hvis next).mpr hm
              rw [hv] at this
              cases this
            have hpre : FcPre c target component path1 visited1 next :=
              { head := hhead', chain := hchain', sub := hsub', vlen := hvlen, vis := hvis,
                fresh := hfresh, nodup := hnd, lt := hnext }
            obtain ⟨r, hr, hpost⟩ := hrec next hpre
            rw [hagree next hpre, hr]
            obtain ⟨b, p, v⟩ := r
            cases b with
            | true => rfl
            | false =>
              obtain ⟨hp, hv'⟩ := hpost.1 rfl
              simp only at hp hv'
              subst hp hv'
              exact ih'
          · rw [if_neg hv, if_neg hv]
            exact ih'
      · rw [if_neg hmem, if_neg hmem]
        exact ih'
    · rw [if_neg hadj, if_neg hadj]
      exact ih'

/-- In every call made on behalf of `findCyclePath`, the search with the depth branch turned
into a failure and the search with the depth branch deleted both compute what `dfsForCycle`
computes. -/
theorem dfsForCycle_eq_variants (c : CyclicBFS) (target : Nat) (component : List Nat) :
    ∀ (fuel current : Nat) (path : List Nat) (visited : List Bool),
      FcPre c target component path visited current →
      component.length + 1 ≤ fuel + path.length →
      dfsForCycleStrict c target component fuel current path visited path.length
          = dfsForCycle c target component fuel current path visited path.length ∧
        dfsForCycleNoBound c target component fuel current path visited path.length
          = dfsForCycle c target component fuel current path visited path.length := by
  intro fuel
  induction fuel with
  | zero => intro current path visited _ _; exact ⟨rfl, rfl⟩
  | succ fuel ih =>
    intro current path visited hpre hfuel
    have hdepth := hpre.depth_lt
    have hbr2 : ¬ path.length ≥ component.length := by omega
    have hcurlen : current < visited.length := by rw [hpre.vlen]; exact hpre.lt
    have hvis1 : ∀ x, (visited.set current true).getD x false = true ↔
        x ∈ path ++ [current] := by
      intro x
      rw [getD_set_eq, List.mem_append, List.mem_singleton]
      by_cases hx : current = x
      · subst hx
        rw [if_pos ⟨rfl, hcurlen⟩]
        exact ⟨fun _ => Or.inr rfl, fun _ => rfl⟩
      · have hx' : ¬ x = current := fun h => hx h.symm
        rw [if_neg (fun h => hx h.1), hpre.vis x]
        exact ⟨fun h => Or.inl h, fun h => h.resolve_right hx'⟩
    have hnd1 : (path ++ [current]).Nodup := by
      rw [List.nodup_append]
      refine ⟨hpre.nodup, List.nodup_singleton _, ?_⟩
      intro a ha hb
      simp at hb
      subst hb
      exact hpre.fresh ha
    have hspec : ∀ next, FcPre c target component (path ++ [current])
        (visited.set current true) next →
        ∃ r, dfsForCycle c target component fuel next (path ++ [current])
            (visited.set current true) (path.length + 1) = some r ∧
          FcPost c target component (path ++ [current]) (visited.set current true)
            (path.length + 1) r := by
      intro next hnext
      have := dfsForCycle_spec c target component fuel next (path ++ [current])
        (visited.set current true) hnext (by simp; omega)
      simpa using this
    have hih : ∀ next, FcPre c target component (path ++ [current])
        (visited.set current true) next →
        dfsForCycleStrict c target component fuel next (path ++ [current])
            (visited.set current true) (path.length + 1)
          = dfsForCycle c target component fuel next (path ++ [current])
            (visited.set current true) (path.length + 1) ∧
        dfsForCycleNoBound c target component fuel next (path ++ [current])
            (visited.set current true) (path.length + 1)
          = dfsForCycle c target component fuel next (path ++ [current])
            (visited.set current true) (path.length + 1) := by
      intro next hnext
      have := ih next (path ++ [current]) (visited.set current true) hnext (by simp; omega)
      simpa using this
    have hloop1 := dfsForCycleLoop_congr c target component
      (fun next p vis => dfsForCycle c target component fuel next p vis (path.length + 1))
      (fun next p vis => dfsForCycleStrict c target component fuel next p vis (path.length + 1))
      current path.length (path ++ [current]) (visited.set current true) hspec
      (fun next hnext => (hih next hnext).1)
      hpre.head (by rw [List.getLast?_append]; rfl) hpre.chain hpre.sub
      (by rw [List.length_set]; exact hpre.vlen) hvis1 hnd1 (by simp) hpre.lt
      (List.range c.vertices) (fun x hx => List.mem_range.mp hx)
    have hloop2 := dfsForCycleLoop_congr c target component
      (fun next p vis => dfsForCycle c target component fuel next p vis (path.length + 1))
      (fun next p vis => dfsForCycleNoBound c target component fuel next p vis (path.length + 1))
      current path.length (path ++ [current]) (visited.set current true) hspec
      (fun next hnext => (hih next hnext).2)
      hpre.head (by rw [List.getLast?_append]; rfl) hpre.chain hpre.sub
      (by rw [List.length_set]; exact hpre.vlen) hvis1 hnd1 (by simp) hpre.lt
      (List.range c.vertices) (fun x hx => List.mem_range.mp hx)
    constructor
    · unfold dfsForCycleStrict dfsForCycle
      simp only []
      by_cases hbr1 : path.length > 0 ∧ current = target
      · rw [if_pos hbr1, if_pos hbr1]
      · rw [if_neg hbr1, if_neg hbr1, if_neg hbr2, if_neg hbr2, hloop1]
        all_goals
          generalize dfsForCycleLoop _ c current target component path.length _ _ _ = L
          rcases L with _ | ⟨b, p, v⟩
          · rfl
          · cases b <;> rfl
    · unfold dfsForCycleNoBound dfsForCycle
      simp only []
      by_cases hbr1 : path.length > 0 ∧ current = target
      · rw [if_pos hbr1, if_pos hbr1]
      · rw [if_neg hbr1, if_neg hbr1, if_neg hbr2, hloop2]
        all_goals
          generalize dfsForCycleLoop _ c current target component path.length _ _ _ = L
          rcases L with _ | ⟨b, p, v⟩
          · rfl
          · cases b <;> rfl

/-- The initial call of `findCyclePath` meets `FcPre`. -/
theorem fcPre_initial (c : CyclicBFS) (component : List Nat) (start : Nat)
    (hs : start ∈ component) (hlt : start < c.vertices) :
    FcPre c start component [] (List.replicate c.vertices false) start :=
  { head := rfl
    chain := List.chain'_singleton _
    sub := by
      intro x hx
      simp at hx
      subst hx
      exact hs
    vlen := List.length_replicate _ _
    vis := by
      intro x
      rw [getD_replicate]
      simp
    fresh := List.not_mem_nil _
    nodup := List.nodup_nil
    lt := hlt }

end CyclicBFS

/-! ## Completeness of the path search -/

/-- A path of a relation can be shortened to one without repeated vertices. -/
theorem exists_simple_path {R : Nat → Nat → Prop} {a b : Nat}
    (h : Relation.ReflTransGen R a b) :
    a ≠ b → ∃ l : List Nat, List.Chain' R (a :: (l ++ [b])) ∧ l.Nodup ∧ a ∉ l ∧ b ∉ l ∧
      ∀ x ∈ l, ∃ z, R z x := by
  induction h using Relation.ReflTransGen.head_induction_on with
  | refl => intro h; exact absurd rfl h
  | @head a c hac _ ih =>
    intro hab
    by_cases hcb : c = b
    · subst hcb
      exact ⟨[], by simpa using hac, List.nodup_nil, List.not_mem_nil _, List.not_mem_nil _,
        fun x hx => absurd hx (List.not_mem_nil _)⟩
    · obtain ⟨l, hch, hnd, hcl, hbl, hin⟩ := ih hcb
      by_cases hac' : a = c
      · subst hac'
        exact ⟨l, hch, hnd, hcl, hbl, hin⟩
      · by_cases hal : a ∈ l
        · obtain ⟨l1, l2, rfl⟩ := List.append_of_mem hal
          have hsplit : c :: ((l1 ++ a :: l2) ++ [b]) = (c :: l1) ++ (a :: (l2 ++ [b])) := by
            simp
          rw [hsplit] at hch
          have hnd2 : (a :: l2).Nodup := hnd.of_append_right
          refine ⟨l2, hch.right_of_append, (List.nodup_cons.mp hnd2).2,
            (List.nodup_cons.mp hnd2).1, ?_, ?_⟩
          · intro hb
            exact hbl (List.mem_append_right _ (List.mem_cons_of_mem _ hb))
          · intro x hx
            exact hin x (List.mem_append_right _ (List.mem_cons_of_mem _ hx))
        · refine ⟨c :: l, ?_, List.nodup_cons.mpr ⟨hcl, hnd⟩, ?_, ?_, ?_⟩
          · rw [List.cons_append, List.chain'_cons]
            exact ⟨hac, hch⟩
          · intro hm
            rcases List.mem_cons.mp hm with h | h
            · exact hac' h
            · exact hal h
          · intro hm
            rcases List.mem_cons.mp hm with h | h
            · exact hcb h.symm
            · exact hbl h
          · intro x hx
            rcases List.mem_cons.mp hx with h | h
            · exact ⟨a, h ▸ hac⟩
            · exact hin x h

namespace CyclicBFS

/-- The neighbour scan returns `true` when one of the remaining neighbours closes the cycle or
starts a simple path back to `target`, given that the recursive call finds such paths. -/
theorem dfsForCycleLoop_complete (c : CyclicBFS) (target : Nat) (component : List Nat)
    (rec : Nat → List Nat → List Bool → Option (Bool × List Nat × List Bool))
    (current depth : Nat) (path1 : List Nat) (visited1 : List Bool)
    (hrec : ∀ next, FcPre c target component path1 visited1 next →
      ∃ r, rec next path1 visited1 = some r ∧
        FcPost c target component path1 visited1 (depth + 1) r)
    (hcomp : ∀ next, FcPre c target component path1 visited1 next →
      FcWalk c target component path1 next →
      ∃ p v, rec next path1 visited1 = some (true, p, v))
    (hhead : path1.head? = some target) (hlast : path1.getLast? = some current)
    (hchain : path1.Chain' c.Edge) (hsub : ∀ x ∈ path1, x ∈ component)
    (hvlen : visited1.length = c.vertices)
    (hvis : ∀ x, visited1.getD x false = true ↔ x ∈ path1) (hnd : path1.Nodup)
    (hlen : path1.length = depth + 1) (hcur : current < c.vertices) :
    ∀ rest : List Nat, (∀ x ∈ rest, x < c.vertices) →
      (∃ w ∈ rest, c.adj current w = 1 ∧ w ∈ component ∧
        ((w = target ∧ depth > 0) ∨
          (visited1.getD w false = false ∧ FcWalk c target component path1 w))) →
      ∃ p v, dfsForCycleLoop rec c current target component depth rest path1 visited1
        = some (true, p, v) := by
  intro rest
  induction rest with
  | nil =>
    intro _ hw
    obtain ⟨w, hw, _⟩ := hw
    exact absurd hw (List.not_mem_nil _)
  | cons next rest ih =>
    intro hlt hwin
    obtain ⟨w, hw, hadjw, hmemw, hwin⟩ := hwin
    have hnext : next < c.vertices := hlt next (List.mem_cons_self _ _)
    have hrest : w ≠ next →
        ∃ p v, dfsForCycleLoop rec c current target component depth rest path1 visited1
          = some (true, p, v) := by
      intro hne
      refine ih (fun x hx => hlt x (List.mem_cons_of_mem _ hx)) ⟨w, ?_, hadjw, hmemw, hwin⟩
      rcases List.mem_cons.mp hw with h | h
      · exact absurd h hne
      · exact h
    have hne : path1 ≠ [] := by
      intro h
      rw [h] at hlen
      simp at hlen
    unfold dfsForCycleLoop
    by_cases hadj : c.adj current next = 1
    · rw [if_pos hadj]
      by_cases hmem : next ∈ component
      · rw [if_pos hmem]
        by_cases hclose : next = target ∧ depth > 0
        · rw [if_pos hclose]
          exact ⟨_, _, rfl⟩
        · rw [if_neg hclose]
          by_cases hv : visited1.getD next false = false
          · rw [if_pos hv]
            have hchain' : (path1 ++ [next]).Chain' c.Edge := by
              rw [List.chain'_append]
              refine ⟨hchain, List.chain'_singleton _, ?_⟩
              intro x hx y hy
              rw [hlast] at hx
              simp at hx hy
              subst hx hy
              exact ⟨hcur, hnext, hadj⟩
            have hhead' : (path1 ++ [next]).head? = some target := by
              rw [List.head?_append_of_ne_nil _ hne]
              exact hhead
            have hsub' : ∀ x ∈ path1 ++ [next], x ∈ component := by
              intro x hx
              rcases List.mem_append.mp hx with h | h
              · exact hsub x h
              · simp at h
                subst h
                exact hmem
            have hfresh : next ∉ path1 := by
              intro hm
              have := (hvis next).mpr hm
              rw [hv] at this
              cases this
            have hpre : FcPre c target component path1 visited1 next :=
              { head := hhead', chain := hchain', sub := hsub', vlen := hvlen, vis := hvis,
                fresh := hfresh, nodup := hnd, lt := hnext }
            obtain ⟨r, hr, hpost⟩ := hrec next hpre
            rw [hr]
            obtain ⟨b, p, v⟩ := r
            cases b with
            | true => exact ⟨p, v, rfl⟩
            | false =>
              obtain ⟨hp, hv'⟩ := hpost.1 rfl
              simp only at hp hv'
              subst hp hv'
              apply hrest
              intro hwn
              subst hwn
              rcases hwin with h | h
              · exact hclose h
              · obtain ⟨p', v', hr'⟩ := hcomp w hpre h.2
                rw [hr] at hr'
                cases hr'
          · rw [if_neg hv]
            apply hrest
            intro hwn
            subst hwn
            rcases hwin with h | h
            · exact hclose h
            · exact hv h.1
      · rw [if_neg hmem]
        apply hrest
        intro hwn
        subst hwn
        exact hmem hmemw
    · rw [if_neg hadj]
      apply hrest
      intro hwn
      subst hwn
      exact hadj hadjw

/-- Completeness of `dfsForCycle`: a call made on behalf of `findCyclePath` from which a simple
path leads back to `target` returns `true`. -/
theorem dfsForCycle_complete (c : CyclicBFS) (target : Nat) (component : List Nat) :
    ∀ (fuel current : Nat) (path : List Nat) (visited : List Bool),
      FcPre c target component path visited current →
      component.length + 1 ≤ fuel + path.length →
      FcWalk c target component path current →
      ∃ p v, dfsForCycle c target component fuel current path visited path.length
        = some (true, p, v) := by
  intro fuel
  induction fuel with
  | zero =>
    intro current path visited hpre hfuel _
    have := hpre.depth_lt
    omega
  | succ fuel ih =>
    intro current path visited hpre hfuel hwalk
    have hdepth := hpre.depth_lt
    have hbr2 : ¬ path.length ≥ component.length := by omega
    have htarget : target ∈ path ++ [current] := by
      have hh := hpre.head
      cases hpc : path ++ [current] with
      | nil => simp at hpc
      | cons a l =>
        rw [hpc] at hh
        simp at hh
        subst hh
        exact List.mem_cons_self _ _
    have hbr1 : ¬ (path.length > 0 ∧ current = target) := by
      rintro ⟨hpos, heq⟩
      have hne : path ≠ [] := by
        intro h
        rw [h] at hpos
        simp at hpos
      have hh := hpre.head
      rw [List.head?_append_of_ne_nil _ hne] at hh
      have : target ∈ path := by
        cases path with
        | nil => exact absurd rfl hne
        | cons a l =>
          simp at hh
          subst hh
          exact List.mem_cons_self _ _
      exact hpre.fresh (heq ▸ this)
    have hcurlen : current < visited.length := by rw [hpre.vlen]; exact hpre.lt
    have hvis1 : ∀ x, (visited.set current true).getD x false = true ↔
        x ∈ path ++ [current] := by
      intro x
      rw [getD_set_eq, List.mem_append, List.mem_singleton]
      by_cases hx : current = x
      · subst hx
        rw [if_pos ⟨rfl, hcurlen⟩]
        exact ⟨fun _ => Or.inr rfl, fun _ => rfl⟩
      · have hx' : ¬ x = current := fun h => hx h.symm
        rw [if_neg (fun h => hx h.1), hpre.vis x]
        exact ⟨fun h => Or.inl h, fun h => h.resolve_right hx'⟩
    have hnd1 : (path ++ [current]).Nodup := by
      rw [List.nodup_append]
      refine ⟨hpre.nodup, List.nodup_singleton _, ?_⟩
      intro a ha hb
      simp at hb
      subst hb
      exact hpre.fresh ha
    have hunvis : ∀ x, x ∉ path → x ≠ current →
        (visited.set current true).getD x false = false := by
      intro x hxp hxc
      cases hb : (visited.set current true).getD x false with
      | false => rfl
      | true =>
        rcases List.mem_append.mp ((hvis1 x).mp hb) with h | h
        · exact absurd h hxp
        · exact absurd (List.mem_singleton.mp h) hxc
    have hwinner : ∃ w ∈ List.range c.vertices, c.adj current w = 1 ∧ w ∈ component ∧
        ((w = target ∧ path.length > 0) ∨
          ((visited.set current true).getD w false = false ∧
            FcWalk c target component (path ++ [current]) w)) := by
      obtain ⟨l, hch, hnd, hl, hne⟩ := hwalk
      cases l with
      | nil =>
        have he : c.Edge current target := by simpa using hch
        refine ⟨target, List.mem_range.mpr he.2.1, he.2.2, hpre.sub _ htarget, Or.inl ⟨rfl, ?_⟩⟩
        cases path with
        | nil => exact absurd rfl (hne rfl)
        | cons a l => simp
      | cons x l =>
        rw [List.cons_append, List.chain'_cons] at hch
        obtain ⟨hx1, hx2, hx3⟩ := hl x (List.mem_cons_self _ _)
        have hxl : x ∉ l := (List.nodup_cons.mp hnd).1
        refine ⟨x, List.mem_range.mpr hch.1.2.1, hch.1.2.2, hx1,
          Or.inr ⟨hunvis x hx2 hx3, l, hch.2, (List.nodup_cons.mp hnd).2, ?_, ?_⟩⟩
        · intro y hy
          obtain ⟨hy1, hy2, hy3⟩ := hl y (List.mem_cons_of_mem _ hy)
          refine ⟨hy1, ?_, ?_⟩
          · intro hm
            rcases List.mem_append.mp hm with h | h
            · exact hy2 h
            · exact hy3 (List.mem_singleton.mp h)
          · intro hyx
            subst hyx
            exact hxl hy
        · intro h
          simp at h
    obtain ⟨p, v, hL⟩ := dfsForCycleLoop_complete c target component
      (fun next p vis => dfsForCycle c target component fuel next p vis (path.length + 1))
      current path.length (path ++ [current]) (visited.set current true)
      (by
        intro next hnext
        have := dfsForCycle_spec c target component fuel next (path ++ [current])
          (visited.set current true) hnext (by simp; omega)
        simpa using this)
      (by
        intro next hnext hw
        have := ih next (path ++ [current]) (visited.set current true) hnext
          (by simp; omega) hw
        simpa using this)
      hpre.head (by rw [List.getLast?_append]; rfl) hpre.chain hpre.sub
      (by rw [List.length_set]; exact hpre.vlen) hvis1 hnd1 (by simp) hpre.lt
      (List.range c.vertices) (fun x hx => List.mem_range.mp hx) hwinner
    unfold dfsForCycle
    simp only []
    rw [if_neg hbr1, if_neg hbr2, hL]
    exact ⟨p, v, rfl⟩

/-- In a strongly connected component with two distinct vertices, a simple cycle of at least
two edges runs through every vertex. -/
theorem StronglyConnected.walk {c : CyclicBFS} {component : List Nat}
    (hsc : c.StronglyConnected component) (htwo : ∃ a ∈ component, ∃ b ∈ component, a ≠ b)
    (start : Nat) (hs : start ∈ component) :
    start < c.vertices ∧ FcWalk c start component [] start := by
  obtain ⟨t, ht, hts⟩ : ∃ t ∈ component, t ≠ start := by
    obtain ⟨a, ha, b, hb, hab⟩ := htwo
    by_cases h : a = start
    · exact ⟨b, hb, fun hbs => hab (h.trans hbs.symm)⟩
    · exact ⟨a, ha, h⟩
  obtain ⟨l1, hch1, _, hs1, _, _⟩ := exists_simple_path (hsc start hs t ht) (Ne.symm hts)
  obtain ⟨y, hy, hys⟩ : ∃ y, c.EdgeWithin component start y ∧ y ≠ start := by
    cases l1 with
    | nil => exact ⟨t, by simpa using hch1, hts⟩
    | cons x l =>
      rw [List.cons_append, List.chain'_cons] at hch1
      exact ⟨x, hch1.1, fun h => hs1 (h ▸ List.mem_cons_self _ _)⟩
  obtain ⟨l, hch, hnd, hyl, hsl, hin⟩ := exists_simple_path (hsc y hy.2.2 start hs) hys
  refine ⟨hy.1.1, y :: l, ?_, List.nodup_cons.mpr ⟨hyl, hnd⟩, ?_, fun _ => List.cons_ne_nil _ _⟩
  · rw [List.cons_append, List.chain'_cons]
    exact ⟨hy.1, hch.imp (fun _ _ h => h.1)⟩
  · intro x hx
    rcases List.mem_cons.mp hx with h | h
    · subst h
      exact ⟨hy.2.2, List.not_mem_nil _, hys⟩
    · obtain ⟨z, hz⟩ := hin x h
      exact ⟨hz.2.2, List.not_mem_nil _, fun hxs => hsl (hxs ▸ h)⟩

/-- Sorting the component keeps it strongly connected. -/
theorem StronglyConnected.sorted {c : CyclicBFS} {component : List Nat}
    (hsc : c.StronglyConnected component) :
    c.StronglyConnected (component.insertionSort (· ≤ ·)) := by
  have hmem : ∀ x, x ∈ component.insertionSort (· ≤ ·) ↔ x ∈ component :=
    fun x => (List.perm_insertionSort (· ≤ ·) component).mem_iff
  intro a ha b hb
  exact Relation.ReflTransGen.mono
    (fun x y h => ⟨h.1, (hmem x).mpr h.2.1, (hmem y).mpr h.2.2⟩)
    (hsc a ((hmem a).mp ha) b ((hmem b).mp hb))

end CyclicBFS

theorem getD_zero_mem (l : List Nat) (h : l ≠ []) : l.getD 0 0 ∈ l := by
  cases l with
  | nil => exact absurd rfl h
  | cons a l => exact List.mem_cons_self _ _

theorem sorted_getD_zero_le (l : List Nat) (hs : l.Sorted (· ≤ ·)) (x : Nat) (hx : x ∈ l) :
    l.getD 0 0 ≤ x := by
  cases l with
  | nil => exact absurd hx (List.not_mem_nil _)
  | cons a l =>
    rcases List.mem_cons.mp hx with h | h
    · subst h
      exact le_refl _
    · exact List.rel_of_sorted_cons hs x h

theorem two_le_length_of_ne (l : List Nat) (h : ∃ a ∈ l, ∃ b ∈ l, a ≠ b) : 2 ≤ l.length := by
  obtain ⟨a, ha, b, hb, hab⟩ := h
  match l, ha, hb with
  | [x], ha, hb =>
    simp at ha hb
    exact absurd (ha.trans hb.symm) hab
  | _ :: _ :: _, _, _ => simp

namespace CyclicBFS

/-- On a strongly connected component with two distinct vertices, `findCyclePath` traces a
complete path: the search from the first vertex of the sorted component returns `true`. -/
theorem findCyclePath_complete (c : CyclicBFS) (component : List Nat)
    (htwo : ∃ a ∈ component, ∃ b ∈ component, a ≠ b) (hsc : c.StronglyConnected component) :
    (∃ p v, c.dfsForCycle ((component.insertionSort (· ≤ ·)).getD 0 0)
        (component.insertionSort (· ≤ ·)) ((component.insertionSort (· ≤ ·)).length + 1)
        ((component.insertionSort (· ≤ ·)).getD 0 0) [] (List.replicate c.vertices false) 0
        = some (true, p, v)) ∧
      ∃ p, c.findCyclePath component = some (CycleTrace.complete p) := by
  have hmem : ∀ x, x ∈ component.insertionSort (· ≤ ·) ↔ x ∈ component :=
    fun x => (List.perm_insertionSort (· ≤ ·) component).mem_iff
  have htwo' : ∃ a ∈ component.insertionSort (· ≤ ·),
      ∃ b ∈ component.insertionSort (· ≤ ·), a ≠ b := by
    obtain ⟨a, ha, b, hb, hab⟩ := htwo
    exact ⟨a, (hmem a).mpr ha, b, (hmem b).mpr hb, hab⟩
  have hne : component.insertionSort (· ≤ ·) ≠ [] := by
    obtain ⟨a, ha, _⟩ := htwo'
    exact List.ne_nil_of_mem ha
  have hstart := getD_zero_mem _ hne
  obtain ⟨hlt, hwalk⟩ := hsc.sorted.walk htwo' _ hstart
  have hpre := fcPre_initial c _ _ hstart hlt
  obtain ⟨p, v, hrun⟩ := dfsForCycle_complete c _ _
    ((component.insertionSort (· ≤ ·)).length + 1) _ [] (List.replicate c.vertices false)
    hpre (by simp) hwalk
  refine ⟨⟨p, v, hrun⟩, p, ?_⟩
  have hlen : ¬ component.length < 2 := by
    have := two_le_length_of_ne component htwo
    omega
  unfold findCyclePath
  rw [if_neg hlen]
  simp only []
  have hrun' : c.dfsForCycle ((component.insertionSort (· ≤ ·)).getD 0 0)
      (component.insertionSort (· ≤ ·)) ((component.insertionSort (· ≤ ·)).length + 1)
      ((component.insertionSort (· ≤ ·)).getD 0 0) [] (List.replicate c.vertices false) 0
      = some (true, p, v) := hrun
  rw [hrun']

end CyclicBFS

namespace CyclicDFS

/-! ## The logged detector computes what the detector computes -/

theorem dfsUtilLoopTr_erase
    (recTr : Nat → DfsState → List DfsEvent → Option (Bool × DfsState × List DfsEvent))
    (rec : Nat → DfsState → Option (Bool × DfsState))
    (hrec : ∀ u s log, (recTr u s log).map (fun r => (r.1, r.2.1)) = rec u s) (v : Nat) :
    ∀ (us : List Nat) (s : DfsState) (log : List DfsEvent),
      (dfsUtilLoopTr recTr v us s log).map (fun r => (r.1, r.2.1)) = dfsUtilLoop rec v us s := by
  intro us
  induction us with
  | nil => intro s log; rfl
  | cons u us ih =>
    intro s log
    unfold dfsUtilLoopTr dfsUtilLoop
    simp only []
    by_cases hadj : s.self.adj v u = 1
    · rw [if_pos hadj, if_pos hadj]
      by_cases hvis : s.self.visited.getD u 0 = 0
      · rw [if_pos hvis, if_pos hvis]
        have h := hrec u { s with self := { s.self with
            parent := s.self.parent.set u (v : Int) } }
          (log ++ [DfsEvent.state { s with self := { s.self with
            parent := s.self.parent.set u (v : Int) } }])
        rw [← h]
        cases recTr u { s with self := { s.self with
            parent := s.self.parent.set u (v : Int) } }
          (log ++ [DfsEvent.state { s with self := { s.self with
            parent := s.self.parent.set u (v : Int) } }]) with
        | none => rfl
        | some r =>
          obtain ⟨b, s', log'⟩ := r
          cases b with
          | true => rfl
          | false => exact ih s' log'
      · rw [if_neg hvis, if_neg hvis]
        by_cases hrs : s.self.recStack.getD u 0 ≠ 0
        · rw [if_pos hrs, if_pos hrs]
          rfl
        · rw [if_neg hrs, if_neg hrs]
          exact ih s log
    · rw [if_neg hadj, if_neg hadj]
      exact ih s log

theorem dfsUtilTr_erase :
    ∀ (fuel v : Nat) (s : DfsState) (log : List DfsEvent),
      (dfsUtilTr fuel v s log).map (fun r => (r.1, r.2.1)) = dfsUtil fuel v s := by
  intro fuel
  induction fuel with
  | zero => intro v s log; rfl
  | succ fuel ih =>
    intro v s log
    unfold dfsUtilTr dfsUtil
    simp only []
    have h := dfsUtilLoopTr_erase (dfsUtilTr fuel) (dfsUtil fuel) (fun u s log => ih u s log) v
      (List.range s.self.vertices)
      { s with self := { s.self with
          visited := s.self.visited.set v 1
          recStack := s.self.recStack.set v 1 } }
      (log ++ [DfsEvent.state { s with self := { s.self with
          visited := s.self.visited.set v 1 } },
        DfsEvent.state { s with self := { s.self with
          visited := s.self.visited.set v 1
          recStack := s.self.recStack.set v 1 } }])
    rw [← h]
    cases dfsUtilLoopTr (dfsUtilTr fuel) v (List.range s.self.vertices)
      { s with self := { s.self with
          visited := s.self.visited.set v 1
          recStack := s.self.recStack.set v 1 } }
      (log ++ [DfsEvent.state { s with self := { s.self with
          visited := s.self.visited.set v 1 } },
        DfsEvent.state { s with self := { s.self with
          visited := s.self.visited.set v 1
          recStack := s.self.recStack.set v 1 } }]) with
    | none => rfl
    | some r =>
      obtain ⟨b, s', log'⟩ := r
      cases b with
      | true => rfl
      | false => rfl

theorem hasCycleLoopTr_erase :
    ∀ (is : List Nat) (s : DfsState) (log : List DfsEvent),
      (hasCycleLoopTr is s log).map (fun r => (r.1, r.2.1)) = hasCycleLoop is s := by
  intro is
  induction is with
  | nil => intro s log; rfl
  | cons i is ih =>
    intro s log
    unfold hasCycleLoopTr hasCycleLoop
    by_cases h0 : s.self.visited.getD i 0 = 0
    · rw [if_pos h0, if_pos h0, ← dfsUtilTr_erase s.self.vertices i s log]
      cases dfsUtilTr s.self.vertices i s log with
      | none => rfl
      | some r =>
        obtain ⟨b, s', log'⟩ := r
        cases b with
        | true =>
          simp only [Option.map_some']
          cases s'.self.findCyclePath s'.cycleStart s'.cycleEnd with
          | none => rfl
          | some c' => rfl
        | false => exact ih s' log'
    · rw [if_neg h0, if_neg h0]
      exact ih s log

/-- Dropping the log of `hasCycleTr` gives `hasCycle`. -/
theorem hasCycleTr_erase (c : CyclicDFS) :
    (hasCycleTr c).map (fun r => (r.1, r.2.1)) = hasCycle c := by
  rw [hasCycle_eq_loop]
  unfold hasCycleTr
  rw [← hasCycleLoopTr_erase (List.range c.vertices) (hasCycleEntry c)
    [DfsEvent.state (hasCycleEntry c)]]
  cases hasCycleLoopTr (List.range c.vertices) (hasCycleEntry c)
    [DfsEvent.state (hasCycleEntry c)] with
  | none => rfl
  | some r =>
    obtain ⟨b, s', log'⟩ := r
    rfl

/-! ## `recStack[v]` implies `visited[v]` in every logged state -/

theorem StackGood.stackVisited {s : DfsState} (h : StackGood s) : StackVisited s := by
  intro v hv
  exact h.2 v (by rw [hv]; decide)

theorem EventGood.ok {e : DfsEvent} (h : EventGood e) : EventOk e := by
  cases e with
  | state s => exact StackGood.stackVisited h
  | ret v entry result exit => exact h

theorem forall_mem_append_of {P : DfsEvent → Prop} {log new : List DfsEvent}
    (h1 : ∀ e ∈ log, P e) (h2 : ∀ e ∈ new, P e) : ∀ e ∈ log ++ new, P e := by
  intro e he
  rcases List.mem_append.mp he with h | h
  · exact h1 e h
  · exact h2 e h

/-- The assignment `visited[v] = 1` keeps `StackGood`. -/
theorem StackGood.setVisited {s : DfsState} (h : StackGood s) (v : Nat) :
    StackGood { s with self := { s.self with visited := s.self.visited.set v 1 } } := by
  refine ⟨by simp only [List.length_set]; exact h.1, ?_⟩
  intro i hi
  show (s.self.visited.set v 1).getD i 0 = 1
  rw [getD_set_eq]
  by_cases hc : v = i ∧ v < s.self.visited.length
  · rw [if_pos hc]
  · rw [if_neg hc]
    exact h.2 i hi

/-- The assignment `recStack[v] = 1` right after `visited[v] = 1` keeps `StackGood`. -/
theorem StackGood.setStack {s : DfsState} (h : StackGood s) (v : Nat) :
    StackGood { s with self := { s.self with
      visited := s.self.visited.set v 1
      recStack := s.self.recStack.set v 1 } } := by
  refine ⟨by simp only [List.length_set]; exact h.1, ?_⟩
  intro i hi
  have hi' : (s.self.recStack.set v 1).getD i 0 ≠ 0 := hi
  show (s.self.visited.set v 1).getD i 0 = 1
  rw [getD_set_eq] at hi' ⊢
  by_cases hc : v = i ∧ v < s.self.visited.length
  · rw [if_pos hc]
  · rw [if_neg hc]
    have hc' : ¬ (v = i ∧ v < s.self.recStack.length) := by rw [← h.1]; exact hc
    rw [if_neg hc'] at hi'
    exact h.2 i hi'

/-- The assignment `recStack[v] = 0` keeps `StackGood`. -/
theorem StackGood.clearStack {s : DfsState} (h : StackGood s) (v : Nat) :
    StackGood { s with self := { s.self with recStack := s.self.recStack.set v 0 } } := by
  refine ⟨by simp only [List.length_set]; exact h.1, ?_⟩
  intro i hi
  have hi' : (s.self.recStack.set v 0).getD i 0 ≠ 0 := hi
  show s.self.visited.getD i 0 = 1
  rw [getD_set_eq] at hi'
  by_cases hc : v = i ∧ v < s.self.recStack.length
  · rw [if_pos hc] at hi'
    exact absurd rfl hi'
  · rw [if_neg hc] at hi'
    exact h.2 i hi'

theorem dfsUtilLoopTr_ok
    (recTr : Nat → DfsState → List DfsEvent → Option (Bool × DfsState × List DfsEvent))
    (hrec : ∀ u s log b s' log', StackGood s → s.self.visited.getD u 0 = 0 →
      (∀ e ∈ log, EventGood e) → recTr u s log = some (b, s', log') → TrPost s b s' log')
    (v : Nat) :
    ∀ (us : List Nat) (s : DfsState) (log : List DfsEvent) (b : Bool) (s' : DfsState)
      (log' : List DfsEvent), StackGood s → (∀ e ∈ log, EventGood e) →
      dfsUtilLoopTr recTr v us s log = some (b, s', log') → TrPost s b s' log' := by
  intro us
  induction us with
  | nil =>
    intro s log b s' log' hs hlog h
    simp only [dfsUtilLoopTr] at h
    injection h with h
    injection h with hb h
    injection h with h1 h2
    subst hb h1 h2
    exact ⟨hs, hlog, fun _ => rfl⟩
  | cons u us ih =>
    intro s log b s' log' hs hlog h
    unfold dfsUtilLoopTr at h
    simp only [] at h
    by_cases hadj : s.self.adj v u = 1
    · rw [if_pos hadj] at h
      by_cases hvis : s.self.visited.getD u 0 = 0
      · rw [if_pos hvis] at h
        have hs1 : StackGood { s with self := { s.self with
            parent := s.self.parent.set u (v : Int) } } := hs
        have hlog1 : ∀ e ∈ log ++ [DfsEvent.state { s with self := { s.self with
            parent := s.self.parent.set u (v : Int) } }], EventGood e :=
          forall_mem_append_of hlog (by
            intro e he
            rw [List.mem_singleton] at he
            subst he
            exact hs1)
        cases hr : recTr u { s with self := { s.self with
            parent := s.self.parent.set u (v : Int) } }
          (log ++ [DfsEvent.state { s with self := { s.self with
            parent := s.self.parent.set u (v : Int) } }]) with
        | none => rw [hr] at h; cases h
        | some r =>
          obtain ⟨b1, s1, l1⟩ := r
          rw [hr] at h
          obtain ⟨g1, g2, g3⟩ := hrec _ _ _ _ _ _ hs1 hvis hlog1 hr
          cases b1 with
          | true =>
            simp only [] at h
            injection h with h
            injection h with hb h
            injection h with h1 h2
            subst hb h1 h2
            exact ⟨g1, g2, fun hf => by cases hf⟩
          | false =>
            simp only [] at h
            obtain ⟨k1, k2, k3⟩ := ih s1 l1 b s' log' g1 g2 h
            exact ⟨k1, k2, fun hb => (k3 hb).trans (g3 rfl)⟩
      · rw [if_neg hvis] at h
        by_cases hrs : s.self.recStack.getD u 0 ≠ 0
        · rw [if_pos hrs] at h
          injection h with h
          injection h with hb h
          injection h with h1 h2
          subst hb h1 h2
          refine ⟨hs, forall_mem_append_of hlog ?_, fun hf => by cases hf⟩
          intro e he
          simp only [List.mem_cons, List.mem_singleton, List.not_mem_nil, or_false] at he
          rcases he with he | he
          · subst he
            exact hs
          · subst he
            exact hs
        · rw [if_neg hrs] at h
          exact ih s log b s' log' hs hlog h
    · rw [if_neg hadj] at h
      exact ih s log b s' log' hs hlog h

theorem dfsUtilTr_ok :
    ∀ (fuel v : Nat) (s : DfsState) (log : List DfsEvent) (b : Bool) (s' : DfsState)
      (log' : List DfsEvent), StackGood s → s.self.visited.getD v 0 = 0 →
      (∀ e ∈ log, EventGood e) → dfsUtilTr fuel v s log = some (b, s', log') →
      TrPost s b s' log' := by
  intro fuel
  induction fuel with
  | zero =>
    intro v s log b s' log' _ _ _ h
    simp [dfsUtilTr] at h
  | succ fuel ih =>
    intro v s log b s' log' hs hv hlog h
    unfold dfsUtilTr at h
    simp only [] at h
    have hs1 := hs.setVisited v
    have hs2 := hs.setStack v
    have hstk0 : s.self.recStack.getD v 0 = 0 := by
      by_contra hne
      have := hs.2 v hne
      rw [hv] at this
      exact absurd this (by decide)
    have hlog2 : ∀ e ∈ log ++ [DfsEvent.state { s with self := { s.self with
          visited := s.self.visited.set v 1 } },
        DfsEvent.state { s with self := { s.self with
          visited := s.self.visited.set v 1
          recStack := s.self.recStack.set v 1 } }], EventGood e :=
      forall_mem_append_of hlog (by
        intro e he
        simp only [List.mem_cons, List.mem_singleton, List.not_mem_nil, or_false] at he
        rcases he with he | he
        · subst he
          exact hs1
        · subst he
          exact hs2)
    cases hL : dfsUtilLoopTr (dfsUtilTr fuel) v (List.range s.self.vertices)
      { s with self := { s.self with
          visited := s.self.visited.set v 1
          recStack := s.self.recStack.set v 1 } }
      (log ++ [DfsEvent.state { s with self := { s.self with
          visited := s.self.visited.set v 1 } },
        DfsEvent.state { s with self := { s.self with
          visited := s.self.visited.set v 1
          recStack := s.self.recStack.set v 1 } }]) with
    | none => rw [hL] at h; cases h
    | some r =>
      obtain ⟨b1, s1, l1⟩ := r
      rw [hL] at h
      obtain ⟨g1, g2, g3⟩ := dfsUtilLoopTr_ok (dfsUtilTr fuel)
        (fun u s log b s' log' => ih u s log b s' log') v _ _ _ _ _ _ hs2 hlog2 hL
      cases b1 with
      | true =>
        simp only [] at h
        injection h with h
        injection h with hb h
        injection h with h1 h2
        subst hb h1 h2
        refine ⟨g1, forall_mem_append_of g2 ?_, fun hf => by cases hf⟩
        intro e he
        rw [List.mem_singleton] at he
        subst he
        intro hf
        cases hf
      | false =>
        simp only [] at h
        injection h with h
        injection h with hb h
        injection h with h1 h2
        subst hb h1 h2
        have hs3 := g1.clearStack v
        have hrest : (s1.self.recStack.set v 0) = s.self.recStack := by
          have e1 : s1.self.recStack = s.self.recStack.set v 1 := g3 rfl
          rw [e1, List.set_set]
          conv_lhs => rw [← hstk0]
          exact set_getD_self _ _ _
        refine ⟨hs3, forall_mem_append_of g2 ?_, fun _ => hrest⟩
        intro e he
        simp only [List.mem_cons, List.mem_singleton, List.not_mem_nil, or_false] at he
        rcases he with he | he
        · subst he
          exact hs3
        · subst he
          intro _
          exact hrest

theorem findCyclePath_keeps (c c' : CyclicDFS) (cs ce : Int)
    (h : c.findCyclePath cs ce = some c') :
    c'.visited = c.visited ∧ c'.recStack = c.recStack := by
  unfold findCyclePath at h
  cases hr : findCyclePathLoop c.parent cs (c.vertices + 1) ce [] with
  | none => rw [hr] at h; cases h
  | some t =>
    rw [hr] at h
    injection h with h
    subst h
    exact ⟨rfl, rfl⟩

theorem hasCycleLoopTr_ok :
    ∀ (is : List Nat) (s : DfsState) (log : List DfsEvent) (b : Bool) (s' : DfsState)
      (log' : List DfsEvent), StackGood s → (∀ e ∈ log, EventGood e) →
      hasCycleLoopTr is s log = some (b, s', log') →
      StackGood s' ∧ ∀ e ∈ log', EventGood e := by
  intro is
  induction is with
  | nil =>
    intro s log b s' log' hs hlog h
    simp only [hasCycleLoopTr] at h
    injection h with h
    injection h with hb h
    injection h with h1 h2
    subst hb h1 h2
    exact ⟨hs, hlog⟩
  | cons i is ih =>
    intro s log b s' log' hs hlog h
    unfold hasCycleLoopTr at h
    by_cases h0 : s.self.visited.getD i 0 = 0
    · rw [if_pos h0] at h
      cases hr : dfsUtilTr s.self.vertices i s log with
      | none => rw [hr] at h; cases h
      | some r =>
        obtain ⟨b1, s1, l1⟩ := r
        rw [hr] at h
        obtain ⟨g1, g2, _⟩ := dfsUtilTr_ok _ _ _ _ _ _ _ hs h0 hlog hr
        cases b1 with
        | true =>
          simp only [] at h
          cases hfc : s1.self.findCyclePath s1.cycleStart s1.cycleEnd with
          | none => rw [hfc] at h; cases h
          | some c' =>
            rw [hfc] at h
            injection h with h
            injection h with hb h
            injection h with h1 h2
            subst hb h1 h2
            obtain ⟨e1, e2⟩ := findCyclePath_keeps _ _ _ _ hfc
            have hgood : StackGood { s1 with self := c' } := by
              unfold StackGood
              show c'.visited.length = c'.recStack.length ∧
                ∀ v, c'.recStack.getD v 0 ≠ 0 → c'.visited.getD v 0 = 1
              rw [e1, e2]
              exact g1
            refine ⟨hgood, forall_mem_append_of g2 ?_⟩
            intro e he
            rw [List.mem_singleton] at he
            subst he
            exact hgood
        | false =>
          simp only [] at h
          exact ih s1 l1 b s' log' g1 g2 h
    · rw [if_neg h0] at h
      exact ih s log b s' log' hs hlog h

/-- The reset state satisfies the invariant. -/
theorem stackGood_entry (c : CyclicDFS) (h : c.visited.length = c.recStack.length) :
    StackGood (hasCycleEntry c) := by
  refine ⟨by simp [hasCycleEntry, h], ?_⟩
  intro v hv
  exfalso
  apply hv
  show (List.replicate c.recStack.length (0 : Int)).getD v 0 = 0
  exact getD_replicate _ _ _

/-- The logged functions only append to the log. -/
theorem dfsUtilLoopTr_log
    (recTr : Nat → DfsState → List DfsEvent → Option (Bool × DfsState × List DfsEvent))
    (hrec : ∀ u s log b s' log', recTr u s log = some (b, s', log') → ∀ e ∈ log, e ∈ log')
    (v : Nat) :
    ∀ (us : List Nat) (s : DfsState) (log : List DfsEvent) (b : Bool) (s' : DfsState)
      (log' : List DfsEvent),
      dfsUtilLoopTr recTr v us s log = some (b, s', log') → ∀ e ∈ log, e ∈ log' := by
  intro us
  induction us with
  | nil =>
    intro s log b s' log' h
    simp only [dfsUtilLoopTr] at h
    injection h with h
    injection h with hb h
    injection h with h1 h2
    subst h2
    exact fun e he => he
  | cons u us ih =>
    intro s log b s' log' h
    unfold dfsUtilLoopTr at h
    simp only [] at h
    by_cases hadj : s.self.adj v u = 1
    · rw [if_pos hadj] at h
      by_cases hvis : s.self.visited.getD u 0 = 0
      · rw [if_pos hvis] at h
        cases hr : recTr u { s with self := { s.self with
            parent := s.self.parent.set u (v : Int) } }
          (log ++ [DfsEvent.state { s with self := { s.self with
            parent := s.self.parent.set u (v : Int) } }]) with
        | none => rw [hr] at h; cases h
        | some r =>
          obtain ⟨b1, s1, l1⟩ := r
          rw [hr] at h
          have g := hrec _ _ _ _ _ _ hr
          cases b1 with
          | true =>
            simp only [] at h
            injection h with h
            injection h with hb h
            injection h with h1 h2
            subst h2
            exact fun e he => g e (List.mem_append_left _ he)
          | false =>
            simp only [] at h
            exact fun e he => ih s1 l1 b s' log' h e (g e (List.mem_append_left _ he))
      · rw [if_neg hvis] at h
        by_cases hrs : s.self.recStack.getD u 0 ≠ 0
        · rw [if_pos hrs] at h
          injection h with h
          injection h with hb h
          injection h with h1 h2
          subst h2
          exact fun e he => List.mem_append_left _ he
        · rw [if_neg hrs] at h
          exact ih s log b s' log' h
    · rw [if_neg hadj] at h
      exact ih s log b s' log' h

theorem dfsUtilTr_log :
    ∀ (fuel v : Nat) (s : DfsState) (log : List DfsEvent) (b : Bool) (s' : DfsState)
      (log' : List DfsEvent),
      dfsUtilTr fuel v s log = some (b, s', log') → ∀ e ∈ log, e ∈ log' := by
  intro fuel
  induction fuel with
  | zero =>
    intro v s log b s' log' h
    simp [dfsUtilTr] at h
  | succ fuel ih =>
    intro v s log b s' log' h
    unfold dfsUtilTr at h
    simp only [] at h
    cases hL : dfsUtilLoopTr (dfsUtilTr fuel) v (List.range s.self.vertices)
      { s with self := { s.self with
          visited := s.self.visited.set v 1
          recStack := s.self.recStack.set v 1 } }
      (log ++ [DfsEvent.state { s with self := { s.self with
          visited := s.self.visited.set v 1 } },
        DfsEvent.state { s with self := { s.self with
          visited := s.self.visited.set v 1
          recStack := s.self.recStack.set v 1 } }]) with
    | none => rw [hL] at h; cases h
    | some r =>
      obtain ⟨b1, s1, l1⟩ := r
      rw [hL] at h
      have g := dfsUtilLoopTr_log (dfsUtilTr fuel)
        (fun u s log b s' log' => ih u s log b s' log') v _ _ _ _ _ _ hL
      cases b1 with
      | true =>
        simp only [] at h
        injection h with h
        injection h with hb h
        injection h with h1 h2
        subst h2
        exact fun e he => List.mem_append_left _ (g e (List.mem_append_left _ he))
      | false =>
        simp only [] at h
        injection h with h
        injection h with hb h
        injection h with h1 h2
        subst h2
        exact fun e he => List.mem_append_left _ (g e (List.mem_append_left _ he))

theorem hasCycleLoopTr_log :
    ∀ (is : List Nat) (s : DfsState) (log : List DfsEvent) (b : Bool) (s' : DfsState)
      (log' : List DfsEvent),
      hasCycleLoopTr is s log = some (b, s', log') → ∀ e ∈ log, e ∈ log' := by
  intro is
  induction is with
  | nil =>
    intro s log b s' log' h
    simp only [hasCycleLoopTr] at h
    injection h with h
    injection h with hb h
    injection h with h1 h2
    subst h2
    exact fun e he => he
  | cons i is ih =>
    intro s log b s' log' h
    unfold hasCycleLoopTr at h
    by_cases h0 : s.self.visited.getD i 0 = 0
    · rw [if_pos h0] at h
      cases hr : dfsUtilTr s.self.vertices i s log with
      | none => rw [hr] at h; cases h
      | some r =>
        obtain ⟨b1, s1, l1⟩ := r
        rw [hr] at h
        have g := dfsUtilTr_log _ _ _ _ _ _ _ hr
        cases b1 with
        | true =>
          simp only [] at h
          cases hfc : s1.self.findCyclePath s1.cycleStart s1.cycleEnd with
          | none => rw [hfc] at h; cases h
          | some c' =>
            rw [hfc] at h
            injection h with h
            injection h with hb h
            injection h with h1 h2
            subst h2
            exact fun e he => List.mem_append_left _ (g e he)
        | false =>
          simp only [] at h
          exact fun e he => ih s1 l1 b s' log' h e (g e he)
    · rw [if_neg h0] at h
      exact ih s log b s' log' h

/-- The log of `hasCycleTr` holds the reset state. -/
theorem hasCycleTr_log_entry (c : CyclicDFS) (b : Bool) (c' : CyclicDFS)
    (log : List DfsEvent) (hr : hasCycleTr c = some (b, c', log)) :
    DfsEvent.state (hasCycleEntry c) ∈ log := by
  unfold hasCycleTr at hr
  cases hL : hasCycleLoopTr (List.range c.vertices) (hasCycleEntry c)
    [DfsEvent.state (hasCycleEntry c)] with
  | none => rw [hL] at hr; cases hr
  | some r =>
    obtain ⟨b1, s1, l1⟩ := r
    rw [hL] at hr
    simp only [] at hr
    injection hr with hr
    injection hr with hb hr
    injection hr with h1 h2
    subst h2
    exact hasCycleLoopTr_log _ _ _ _ _ _ hL _ (List.mem_singleton.mpr rfl)

/-- Every state and every call in the log of `hasCycleTr` is good, and so is the final
state. -/
theorem hasCycleTr_ok (c : CyclicDFS) (h : c.visited.length = c.recStack.length) (b : Bool)
    (c' : CyclicDFS) (log : List DfsEvent) (hr : hasCycleTr c = some (b, c', log)) :
    (∀ e ∈ log, EventGood e) ∧
      ∀ v, c'.recStack.getD v 0 ≠ 0 → c'.visited.getD v 0 = 1 := by
  unfold hasCycleTr at hr
  cases hL : hasCycleLoopTr (List.range c.vertices) (hasCycleEntry c)
    [DfsEvent.state (hasCycleEntry c)] with
  | none => rw [hL] at hr; cases hr
  | some r =>
    obtain ⟨b1, s1, l1⟩ := r
    rw [hL] at hr
    simp only [] at hr
    injection hr with hr
    injection hr with hb hr
    injection hr with h1 h2
    subst hb h1 h2
    have hentry := stackGood_entry c h
    obtain ⟨g1, g2⟩ := hasCycleLoopTr_ok _ _ _ _ _ _ hentry (by
      intro e he
      rw [List.mem_singleton] at he
      subst he
      exact hentry) hL
    exact ⟨g2, g1.2⟩

/-! ## The self-loop that the search meets first -/

/-- Every entry of the recursion stack reaches the top of the stack along edges. -/
theorem stack_reach {c : CyclicDFS} :
    ∀ (l : List Nat) (x : Nat), (x :: l).Chain' c.Link →
      ∀ u ∈ x :: l, Relation.ReflTransGen c.Edge u x := by
  intro l
  induction l with
  | nil =>
    intro x _ u hu
    rw [List.mem_singleton] at hu
    subst hu
    exact Relation.ReflTransGen.refl
  | cons y l ih =>
    intro x hch u hu
    rw [List.chain'_cons] at hch
    rcases List.mem_cons.mp hu with h | h
    · subst h
      exact Relation.ReflTransGen.refl
    · exact Relation.ReflTransGen.tail (ih y hch.2 u h) hch.1.2

theorem reachedBefore_step {c : CyclicDFS} {v x u : Nat} (hx : ReachedBefore c v x)
    (he : c.Edge x u) : u = v ∨ ReachedBefore c v u := by
  by_cases h : u = v
  · exact Or.inl h
  · obtain ⟨r, hr, hp⟩ := hx
    exact Or.inr ⟨r, hr, Relation.ReflTransGen.tail hp ⟨he, h⟩⟩

theorem reachedBefore_of_lt {c : CyclicDFS} {v u : Nat} (h : u < v) : ReachedBefore c v u :=
  ⟨u, h, Relation.ReflTransGen.refl⟩

/-- The scan of a concatenated list of counters is the scan of the first part, continued on
the second part when the first part ran to its end. -/
theorem dfsUtilLoop_append (rec : Nat → DfsState → Option (Bool × DfsState)) (x : Nat) :
    ∀ (l1 l2 : List Nat) (s : DfsState),
      dfsUtilLoop rec x (l1 ++ l2) s =
        match dfsUtilLoop rec x l1 s with
        | none => none
        | some (true, s') => some (true, s')
        | some (false, s') => dfsUtilLoop rec x l2 s' := by
  intro l1
  induction l1 with
  | nil => intro l2 s; rfl
  | cons u l1 ih =>
    intro l2 s
    rw [List.cons_append]
    simp only [dfsUtilLoop]
    by_cases hadj : s.self.adj x u = 1
    · simp only [if_pos hadj]
      by_cases hvis : s.self.visited.getD u 0 = 0
      · simp only [if_pos hvis]
        cases rec u { s with self := { s.self with
            parent := s.self.parent.set u (x : Int) } } with
        | none => rfl
        | some r =>
          obtain ⟨b, s'⟩ := r
          cases b with
          | true => rfl
          | false => exact ih l2 s'
      · simp only [if_neg hvis]
        by_cases hrs : s.self.recStack.getD u 0 ≠ 0
        · simp only [if_pos hrs]
        · simp only [if_neg hrs]
          exact ih l2 s
    · simp only [if_neg hadj]
      exact ih l2 s

/-- The assignment `parent[u] = x` for an unvisited neighbour `u` of the stack top `x` keeps
the invariant and links `u` to the stack. -/
theorem inv_setParent {s : DfsState} {x u : Nat} {S : List Nat} (hinv : Inv s.self (x :: S))
    (hult : u < s.self.vertices) (hnv : ¬ s.self.Vis u) (hedge : s.self.Edge x u) :
    Inv ({ s with self := { s.self with
        parent := s.self.parent.set u (x : Int) } } : DfsState).self (x :: S) ∧
      (u :: x :: S).Chain' ({ s with self := { s.self with
        parent := s.self.parent.set u (x : Int) } } : DfsState).self.Link := by
  have hnS : u ∉ x :: S := fun hm => hnv (hinv.stkV u hm)
  have hg2 : SameGraph s.self ({ s with self := { s.self with
      parent := s.self.parent.set u (x : Int) } } : DfsState).self := ⟨rfl, rfl, rfl⟩
  have hpar2 : ∀ y, y ≠ u → (s.self.parent.set u (x : Int)).getD y 0
      = s.self.parent.getD y 0 := by
    intro y hy
    exact getD_set_ne _ _ _ _ _ (Ne.symm hy)
  have hinv2 : Inv ({ s with self := { s.self with
      parent := s.self.parent.set u (x : Int) } } : DfsState).self (x :: S) :=
    { lenV := hinv.lenV
      lenR := hinv.lenR
      lenP := by simp [hinv.lenP]
      stk := hinv.stk
      stkV := hinv.stkV
      nodup := hinv.nodup
      chain := chain_congr hg2
        (fun y hy => hpar2 y (fun h => hnS (h ▸ hy))) hinv.chain
      closed := hinv.closed
      acyc := hinv.acyc }
  refine ⟨hinv2, ?_⟩
  rw [List.chain'_cons]
  refine ⟨⟨?_, hedge⟩, hinv2.chain⟩
  exact getD_set_self _ _ _ _ (by rw [hinv.lenP]; exact hult)

/-- The assignments `visited[x] = 1; recStack[x] = 1` at the entry of a call on an unvisited
`x` push `x` on the stack. -/
theorem inv_enter {s : DfsState} {x : Nat} {S : List Nat} (hinv : Inv s.self S)
    (hv : x < s.self.vertices) (hnv : ¬ s.self.Vis x) (hch : (x :: S).Chain' s.self.Link) :
    Inv ({ s with self := { s.self with
        visited := s.self.visited.set x 1
        recStack := s.self.recStack.set x 1 } } : DfsState).self (x :: S) ∧
      (∀ u, ({ s with self := { s.self with
        visited := s.self.visited.set x 1
        recStack := s.self.recStack.set x 1 } } : DfsState).self.Vis u ↔
          (u = x ∨ s.self.Vis u)) ∧
      unvisited ({ s with self := { s.self with
        visited := s.self.visited.set x 1
        recStack := s.self.recStack.set x 1 } } : DfsState).self < unvisited s.self := by
  have hvS : x ∉ S := fun hm => hnv (hinv.stkV x hm)
  have hvis1 : ∀ u, ({ s with self := { s.self with
        visited := s.self.visited.set x 1
        recStack := s.self.recStack.set x 1 } } : DfsState).self.Vis u ↔
      (u = x ∨ s.self.Vis u) := by
    intro u
    unfold Vis
    show (s.self.visited.set x 1).getD u 0 ≠ 0 ↔ _
    rw [getD_set_eq]
    by_cases huv : x = u
    · subst huv
      simp [hinv.lenV, hv]
    · simp [huv, Ne.symm huv]
  have hstk1 : ∀ u, ({ s with self := { s.self with
        visited := s.self.visited.set x 1
        recStack := s.self.recStack.set x 1 } } : DfsState).self.OnStack u ↔
      (u = x ∨ s.self.OnStack u) := by
    intro u
    unfold OnStack
    show (s.self.recStack.set x 1).getD u 0 ≠ 0 ↔ _
    rw [getD_set_eq]
    by_cases huv : x = u
    · subst huv
      simp [hinv.lenR, hv]
    · simp [huv, Ne.symm huv]
  have hdone1 : ∀ u, ({ s with self := { s.self with
        visited := s.self.visited.set x 1
        recStack := s.self.recStack.set x 1 } } : DfsState).self.Done u →
      s.self.Done u ∧ u ≠ x := by
    intro u hu
    have hne : u ≠ x := fun h => hu.2 ((hstk1 u).mpr (Or.inl h))
    refine ⟨⟨?_, fun h => hu.2 ((hstk1 u).mpr (Or.inr h))⟩, hne⟩
    rcases (hvis1 u).mp hu.1 with h | h
    · exact absurd h hne
    · exact h
  refine ⟨?_, hvis1, ?_⟩
  · exact
      { lenV := by simp [hinv.lenV]
        lenR := by simp [hinv.lenR]
        lenP := hinv.lenP
        stk := by
          intro u
          rw [hstk1, hinv.stk, List.mem_cons]
        stkV := by
          intro u hu
          rw [hvis1]
          rcases List.mem_cons.mp hu with h | h
          · exact Or.inl h
          · exact Or.inr (hinv.stkV u h)
        nodup := List.nodup_cons.mpr ⟨hvS, hinv.nodup⟩
        chain := hch
        closed := by
          intro u w hu hw
          obtain ⟨hu', _⟩ := hdone1 u hu
          have hw' := hinv.closed u w hu' hw
          have hwv : w ≠ x := fun h => hnv (h ▸ hw'.1)
          refine ⟨(hvis1 w).mpr (Or.inr hw'.1), ?_⟩
          rw [hstk1]
          rintro (h | h)
          · exact hwv h
          · exact hw'.2 h
        acyc := fun u hu => hinv.acyc u (hdone1 u hu).1 }
  · exact unvisited_lt rfl (fun u hu => (hvis1 u).mpr (Or.inr hu)) x hv hnv
      ((hvis1 x).mpr (Or.inl rfl))

/-- The scan of the neighbours of the stack top `x`, while every vertex it can enter is `v` or
a vertex of `ReachedBefore c v`, none of which lies on a cycle: the only back edge it can meet
is `v -> v`. -/
theorem dfsUtilLoop_first (c : CyclicDFS) (v : Nat)
    (H : ∀ y, ReachedBefore c v y → ¬ Relation.TransGen c.Edge y y)
    (rec : Nat → DfsState → Option (Bool × DfsState)) (k : Nat)
    (hrec : RecSpec rec k) (hfirst : FirstSpec c v rec k)
    (x : Nat) (S : List Nat) (hx : x = v ∨ ReachedBefore c v x) :
    ∀ (us : List Nat) (s : DfsState),
      Inv s.self (x :: S) → (∀ u ∈ us, u < s.self.vertices) → unvisited s.self ≤ k →
      SameGraph c s.self → EarlyOnly c v s →
      (∀ u ∈ us, c.Edge x u → u = v ∨ ReachedBefore c v u) →
      ∀ b s', dfsUtilLoop rec x us s = some (b, s') →
        (b = true → s'.cycleStart = (v : Int) ∧ s'.cycleEnd = (v : Int)) ∧
        (b = false → Inv s'.self (x :: S) ∧ SameGraph c s'.self ∧ EarlyOnly c v s' ∧
          unvisited s'.self ≤ k) := by
  intro us
  induction us with
  | nil =>
    intro s hinv _ hk hg hJ _ b s' h
    simp only [dfsUtilLoop] at h
    injection h with h
    injection h with hb hs
    subst hb hs
    exact ⟨(fun h => by cases h), fun _ => ⟨hinv, hg, hJ, hk⟩⟩
  | cons u us ih =>
    intro s hinv hlt hk hg hJ hA b s' h
    have hxlt : x < s.self.vertices :=
      vis_lt (hinv.stkV x (List.mem_cons_self _ _)) hinv.lenV
    have hult : u < s.self.vertices := hlt u (List.mem_cons_self _ _)
    have hlt' : ∀ y ∈ us, y < s.self.vertices := fun y hy => hlt y (List.mem_cons_of_mem _ hy)
    have hA' : ∀ y ∈ us, c.Edge x y → y = v ∨ ReachedBefore c v y :=
      fun y hy => hA y (List.mem_cons_of_mem _ hy)
    unfold dfsUtilLoop at h
    by_cases hadj : s.self.adj x u = 1
    · rw [if_pos hadj] at h
      have hedge : s.self.Edge x u := ⟨hxlt, hult, hadj⟩
      have hedgec : c.Edge x u := (edge_congr hg x u).mp hedge
      have huA := hA u (List.mem_cons_self _ _) hedgec
      by_cases hvis : s.self.visited.getD u 0 = 0
      · rw [if_pos hvis] at h
        have hnv : ¬ s.self.Vis u := fun h => h hvis
        obtain ⟨hinv2, hchain2⟩ := inv_setParent hinv hult hnv hedge
        obtain ⟨b1, s1, hrun, hpost⟩ := hrec u _ (x :: S) hinv2 hult hnv hchain2 hk
        rw [hrun] at h
        obtain ⟨ht1, hf1⟩ := hfirst u _ (x :: S) hinv2 hult hnv hchain2 hk hg hJ huA
          b1 s1 hrun
        obtain ⟨hg', hfalse, _⟩ := hpost
        cases b1 with
        | true =>
          simp only [] at h
          injection h with h
          injection h with hb hs
          subst hb hs
          exact ⟨fun _ => ht1 rfl, fun h => by cases h⟩
        | false =>
          simp only [] at h
          obtain ⟨hinv', _, hkept, _⟩ := hfalse rfl
          have hg1 : SameGraph c s1.self :=
            ⟨hg'.1.trans hg.1, hg'.2.1.trans hg.2.1, hg'.2.2.trans hg.2.2⟩
          exact ih s1 hinv' (by rw [hg'.1]; exact hlt')
            (le_trans (unvisited_mono hg'.1 hkept.vis) hk) hg1 (hf1 rfl).1 hA' b s' h
      · rw [if_neg hvis] at h
        by_cases hrs : s.self.recStack.getD u 0 ≠ 0
        · rw [if_pos hrs] at h
          injection h with h
          injection h with hb hs
          subst hb hs
          refine ⟨fun _ => ?_, fun h => by cases h⟩
          have hmem : u ∈ x :: S := (hinv.stk u).mp hrs
          have hpath : Relation.ReflTransGen c.Edge u x := by
            have := stack_reach S x hinv.chain u hmem
            rw [edge_eq hg] at this
            exact this
          have hcx : Relation.TransGen c.Edge x x := Relation.TransGen.head' hedgec hpath
          have hcu : Relation.TransGen c.Edge u u := Relation.TransGen.tail' hpath hedgec
          rcases huA with hu | hu
          · rcases hx with hx | hx
            · show ((u : Int) = (v : Int)) ∧ ((x : Int) = (v : Int))
              rw [hu, hx]
              exact ⟨rfl, rfl⟩
            · exact absurd hcx (H x hx)
          · exact absurd hcu (H u hu)
        · rw [if_neg hrs] at h
          exact ih s hinv hlt' hk hg hJ hA' b s' h
    · rw [if_neg hadj] at h
      exact ih s hinv hlt' hk hg hJ hA' b s' h

/-- The recursive search while no cycle other than the self-loop on `v` can be met: it
returns `true` only with `cycleStart = cycleEnd = v`, and a call on `v` itself returns
`true`. -/
theorem dfsUtil_first (c : CyclicDFS) (v : Nat) (hloop : c.adj v v = 1)
    (H : ∀ y, ReachedBefore c v y → ¬ Relation.TransGen c.Edge y y) :
    ∀ fuel : Nat, FirstSpec c v (dfsUtil fuel) fuel := by
  intro fuel
  induction fuel with
  | zero =>
    intro x s S _ _ _ _ _ _ _ _ b s' h
    simp [dfsUtil] at h
  | succ fuel ih =>
    intro x s S hinv hxlt hnv hch hk hg hJ hxA b s' h
    obtain ⟨hinv1, hvis1, hunv⟩ := inv_enter hinv hxlt hnv hch
    have hk1 : unvisited ({ s with self := { s.self with
        visited := s.self.visited.set x 1
        recStack := s.self.recStack.set x 1 } } : DfsState).self ≤ fuel := by omega
    have hg1 : SameGraph c ({ s with self := { s.self with
        visited := s.self.visited.set x 1
        recStack := s.self.recStack.set x 1 } } : DfsState).self := hg
    have hJ1 : EarlyOnly c v ({ s with self := { s.self with
        visited := s.self.visited.set x 1
        recStack := s.self.recStack.set x 1 } } : DfsState) := by
      intro y hy
      rcases (hvis1 y).mp hy with h | h
      · rw [h]
        exact hxA
      · exact hJ y h
    have hspec := dfsUtil_spec fuel
    unfold dfsUtil at h
    simp only [] at h
    by_cases hxv : x = v
    · -- the call on `v`: the scan reaches the counter `v` at the latest
      subst hxv
      have hrange : List.range s.self.vertices
          = List.range' 0 x ++ x :: List.range' (x + 1) (s.self.vertices - x - 1) :=
        range_split s.self.vertices x hxlt
      rw [hrange, dfsUtilLoop_append] at h
      cases hL : dfsUtilLoop (dfsUtil fuel) x (List.range' 0 x)
          { s with self := { s.self with
            visited := s.self.visited.set x 1
            recStack := s.self.recStack.set x 1 } } with
      | none => rw [hL] at h; cases h
      | some r =>
        obtain ⟨b1, sL⟩ := r
        rw [hL] at h
        obtain ⟨htL, hfL⟩ := dfsUtilLoop_first c x H (dfsUtil fuel) fuel hspec ih x S
          (Or.inl rfl) (List.range' 0 x) _ hinv1
          (fun u hu => by
            have := List.mem_range'_1.mp hu
            show u < s.self.vertices
            omega)
          hk1 hg1 hJ1
          (fun u hu _ => Or.inr (reachedBefore_of_lt (by
            have := List.mem_range'_1.mp hu
            omega)))
          b1 sL hL
        cases b1 with
        | true =>
          simp only [] at h
          injection h with h
          injection h with hb hs
          subst hb hs
          exact ⟨fun _ => htL rfl, fun h => by cases h⟩
        | false =>
          simp only [] at h
          obtain ⟨hinvL, hgL, _, _⟩ := hfL rfl
          have hadjL : sL.self.adj x x = 1 := by
            unfold adj at hloop ⊢
            rw [hgL.2.1]
            exact hloop
          have hvisL : ¬ sL.self.visited.getD x 0 = 0 :=
            hinvL.stkV x (List.mem_cons_self _ _)
          have hstkL : sL.self.recStack.getD x 0 ≠ 0 :=
            (hinvL.stk x).mpr (List.mem_cons_self _ _)
          unfold dfsUtilLoop at h
          rw [if_pos hadjL, if_neg hvisL, if_pos hstkL] at h
          simp only [] at h
          injection h with h
          injection h with hb hs
          subst hb hs
          exact ⟨fun _ => ⟨rfl, rfl⟩, fun h => by cases h⟩
    · have hxr : ReachedBefore c v x := hxA.resolve_left hxv
      cases hL : dfsUtilLoop (dfsUtil fuel) x (List.range s.self.vertices)
          { s with self := { s.self with
            visited := s.self.visited.set x 1
            recStack := s.self.recStack.set x 1 } } with
      | none => rw [hL] at h; cases h
      | some r =>
        obtain ⟨b1, sL⟩ := r
        rw [hL] at h
        obtain ⟨htL, hfL⟩ := dfsUtilLoop_first c v H (dfsUtil fuel) fuel hspec ih x S
          (Or.inr hxr) (List.range s.self.vertices) _ hinv1
          (fun u hu => List.mem_range.mp hu) hk1 hg1 hJ1
          (fun u _ he => reachedBefore_step hxr he) b1 sL hL
        cases b1 with
        | true =>
          simp only [] at h
          injection h with h
          injection h with hb hs
          subst hb hs
          exact ⟨fun _ => htL rfl, fun h => by cases h⟩
        | false =>
          simp only [] at h
          injection h with h
          injection h with hb hs
          subst hb hs
          obtain ⟨_, _, hJL, _⟩ := hfL rfl
          exact ⟨(fun h => by cases h), fun _ => ⟨fun y hy => hJL y hy, hxv⟩⟩

/-- The parent walk from `cycleEnd = v` to `cycleStart = v` is empty: the path is `[v, v]`. -/
theorem findCyclePath_self (c : CyclicDFS) (v : Nat) :
    c.findCyclePath (v : Int) (v : Int)
      = some { c with cyclePath := [(v : Int), (v : Int)] } := by
  unfold findCyclePath
  simp [findCyclePathLoop]

/-- The outer loop of `hasCycle` over the roots up to `v`: while no cycle other than the
self-loop on `v` can be met, it returns `true` with `cyclePath = [v, v]`. -/
theorem hasCycleLoop_first (c : CyclicDFS) (v : Nat) (hloop : c.adj v v = 1)
    (H : ∀ y, ReachedBefore c v y → ¬ Relation.TransGen c.Edge y y) (rest : List Nat) :
    ∀ (l1 : List Nat) (s : DfsState),
      Inv s.self [] → v < s.self.vertices → (∀ i ∈ l1, i < v) →
      SameGraph c s.self → EarlyOnly c v s →
      ∃ s', hasCycleLoop (l1 ++ v :: rest) s = some (true, s') ∧
        s'.self.cyclePath = [(v : Int), (v : Int)] := by
  have hself : ∀ s : DfsState, SameGraph c s.self → v < s.self.vertices →
      s.self.Edge v v := by
    intro s hg hv
    refine ⟨hv, hv, ?_⟩
    have : s.self.adj v v = 1 := by
      unfold adj at hloop ⊢
      rw [hg.2.1]
      exact hloop
    exact this
  have hcall : ∀ (i : Nat) (s : DfsState), Inv s.self [] → i < s.self.vertices →
      s.self.visited.getD i 0 = 0 → SameGraph c s.self → EarlyOnly c v s →
      (i = v ∨ ReachedBefore c v i) →
      ∃ b s1, dfsUtil s.self.vertices i s = some (b, s1) ∧
        (b = true → s1.self.findCyclePath s1.cycleStart s1.cycleEnd
          = some { s1.self with cyclePath := [(v : Int), (v : Int)] }) ∧
        (b = false → Inv s1.self [] ∧ SameGraph c s1.self ∧ EarlyOnly c v s1 ∧ i ≠ v) := by
    intro i s hinv hi h0 hg hJ hiA
    obtain ⟨b, s1, hrun, hg', hf, _⟩ := dfsUtil_spec s.self.vertices i s [] hinv hi
      (fun h => h h0) (List.chain'_singleton i) (unvisited_le _)
    obtain ⟨ht1, hf1⟩ := dfsUtil_first c v hloop H s.self.vertices i s [] hinv hi
      (fun h => h h0) (List.chain'_singleton i) (unvisited_le _) hg hJ hiA b s1 hrun
    refine ⟨b, s1, hrun, ?_, ?_⟩
    · intro hb
      obtain ⟨hcs, hce⟩ := ht1 hb
      rw [hcs, hce]
      exact findCyclePath_self _ v
    · intro hb
      obtain ⟨hinv', _, _, _⟩ := hf hb
      exact ⟨hinv', ⟨hg'.1.trans hg.1, hg'.2.1.trans hg.2.1, hg'.2.2.trans hg.2.2⟩,
        (hf1 hb).1, (hf1 hb).2⟩
  intro l1
  induction l1 with
  | nil =>
    intro s hinv hv _ hg hJ
    rw [List.nil_append]
    unfold hasCycleLoop
    by_cases h0 : s.self.visited.getD v 0 = 0
    · rw [if_pos h0]
      obtain ⟨b, s1, hrun, ht, hf⟩ := hcall v s hinv hv h0 hg hJ (Or.inl rfl)
      rw [hrun]
      cases b with
      | true =>
        simp only []
        rw [ht rfl]
        exact ⟨_, rfl, rfl⟩
      | false => exact absurd rfl (hf rfl).2.2.2
    · exfalso
      have hdone : s.self.Done v :=
        ⟨h0, fun hs => absurd ((hinv.stk v).mp hs) (List.not_mem_nil v)⟩
      exact hinv.acyc v hdone (Relation.TransGen.single (hself s hg hv))
  | cons i l1 ih =>
    intro s hinv hv hlt hg hJ
    have hiv : i < v := hlt i (List.mem_cons_self _ _)
    have hlt' : ∀ j ∈ l1, j < v := fun j hj => hlt j (List.mem_cons_of_mem _ hj)
    rw [List.cons_append]
    unfold hasCycleLoop
    by_cases h0 : s.self.visited.getD i 0 = 0
    · rw [if_pos h0]
      obtain ⟨b, s1, hrun, ht, hf⟩ := hcall i s hinv (by omega) h0 hg hJ
        (Or.inr (reachedBefore_of_lt hiv))
      rw [hrun]
      cases b with
      | true =>
        simp only []
        rw [ht rfl]
        exact ⟨_, rfl, rfl⟩
      | false =>
        simp only []
        obtain ⟨hinv', hg1, hJ1, _⟩ := hf rfl
        exact ih s1 hinv' (by rw [hg1.1, ← hg.1]; exact hv) hlt' hg1 hJ1
    · rw [if_neg h0]
      exact ih s hinv hv hlt' hg hJ

/-- On a well-formed graph with a self-loop on `v` in which no vertex of `ReachedBefore c v`
lies on a cycle, `hasCycle` returns `true` with `cyclePath = [v, v]`. -/
theorem hasCycle_self_loop_first (c : CyclicDFS) (h : c.WF) (v : Nat) (hv : v < c.vertices)
    (hloop : c.adj v v = 1)
    (H : ∀ y, ReachedBefore c v y → ¬ Relation.TransGen c.Edge y y) :
    ∃ c', c.hasCycle = some (true, c') ∧ c'.cyclePath = [(v : Int), (v : Int)] := by
  have hH : ∀ y, ReachedBefore (hasCycleEntry c).self v y →
      ¬ Relation.TransGen (hasCycleEntry c).self.Edge y y := H
  obtain ⟨s', hrun, hpath⟩ := hasCycleLoop_first (hasCycleEntry c).self v hloop hH
    (List.range' (v + 1) (c.vertices - v - 1)) (List.range' 0 v) (hasCycleEntry c)
    (inv_entry c h) hv
    (fun i hi => by
      have := List.mem_range'_1.mp hi
      omega)
    (sameGraph_same _)
    (fun y hy => absurd (getD_replicate _ _ _) hy)
  rw [hasCycle_eq_loop, range_split c.vertices v hv, hrun]
  exact ⟨s'.self, rfl, hpath⟩

end CyclicDFS

/-! # The claims -/

/-- C1: for every well-formed `CyclicDFS` object (any vertex count, any square matrix),
`hasCycle` returns, and it returns `true` if and only if the graph with an edge `u -> v`
exactly when `adjMatrix[u][v] == 1` contains a directed cycle (a closed walk with at least one
edge, self-loops included). -/
theorem CyclicDFS.hasCycle_iff_directed_cycle (c : CyclicDFS) (h : c.WF) :
    ∃ b c', c.hasCycle = some (b, c') ∧
      (b = true ↔ HasDirectedCycle c.vertices c.adjMatrix) := by
  obtain ⟨b, c', hrun, hv, ha, hf, ht⟩ := CyclicDFS.hasCycle_spec c h
  refine ⟨b, c', hrun, ?_, ?_⟩
  · intro hb
    obtain ⟨P, _, hP, _⟩ := ht hb
    rw [hv, ha] at hP
    exact ⟨P, hP⟩
  · intro hcyc
    cases b with
    | true => rfl
    | false => exact absurd hcyc (hf rfl).1

theorem CyclicDFS.hasCycle_iff_directed_cycle_witness :
    (CyclicDFS.ofMatrix 3 [[0, 1, 0], [0, 0, 1], [1, 0, 0]]).WF ∧
      ∃ b c', (CyclicDFS.ofMatrix 3 [[0, 1, 0], [0, 0, 1], [1, 0, 0]]).hasCycle = some (b, c') ∧
        (b = true ↔ HasDirectedCycle 3 [[0, 1, 0], [0, 0, 1], [1, 0, 0]]) :=
  ⟨⟨rfl, by decide, rfl, rfl, rfl⟩,
   CyclicDFS.hasCycle_iff_directed_cycle _ ⟨rfl, by decide, rfl, rfl, rfl⟩⟩

/-- C2: whenever `hasCycle` returns `true` on a well-formed object, the stored `cyclePath` has at
least two entries, every entry lies in `[0, vertices)`, the first and last entries are equal,
and every consecutive pair `(a, b)` satisfies `adjMatrix[a][b] == 1`. -/
theorem CyclicDFS.hasCycle_cyclePath_closed_walk (c : CyclicDFS) (h : c.WF) (c' : CyclicDFS)
    (hr : c.hasCycle = some (true, c')) :
    IsCyclePath c.vertices c.adjMatrix c'.cyclePath := by
  obtain ⟨b, c'', hrun, hv, ha, _, ht⟩ := CyclicDFS.hasCycle_spec c h
  rw [hrun] at hr
  injection hr with hr
  injection hr with hb hc
  subst hb hc
  obtain ⟨P, hP1, hP2, _⟩ := ht rfl
  rw [hP1, ← hv, ← ha]
  exact isCyclePath_of_closedWalk hP2

theorem CyclicDFS.hasCycle_cyclePath_closed_walk_witness :
    IsCyclePath 3 [[0, 1, 0], [0, 0, 1], [1, 0, 0]] [0, 1, 2, 0] :=
  CyclicDFS.hasCycle_cyclePath_closed_walk
    (CyclicDFS.ofMatrix 3 [[0, 1, 0], [0, 0, 1], [1, 0, 0]]) ⟨rfl, by decide, rfl, rfl, rfl⟩
    { vertices := 3, adjMatrix := [[0, 1, 0], [0, 0, 1], [1, 0, 0]], visited := [1, 1, 1],
      recStack := [1, 1, 1], parent := [-1, 0, 1], cyclePath := [0, 1, 2, 0] }
    (by decide)

/-- C3: for every `CyclicBFS` object whose vectors have the constructor's sizes and whose
in-degree table is at least the column counts of the matrix (every object obtained from the
constructor by `addEdge`, `inputGraph` and `hasCycleKahn` is one: `CyclicBFS.Built.wf_covers`),
if `hasCycleKahn` returns `false` then the matrix contains no directed cycle, `topoOrder` is a
permutation of `0 .. vertices - 1`, and `u` comes before `v` in it for every edge `u -> v`. -/
theorem CyclicBFS.hasCycleKahn_false_topological (c : CyclicBFS) (hwf : c.WF) (hc : c.Covers)
    (r : KahnResult) (hr : c.hasCycleKahn = some r) (hf : r.ret = false) :
    ¬ HasDirectedCycle c.vertices c.adjMatrix ∧
      r.topoOrder.Perm (List.range c.vertices) ∧
      ∀ u v, IsEdge c.vertices c.adjMatrix u v →
        r.topoOrder.indexOf u < r.topoOrder.indexOf v := by
  obtain ⟨topo, hfacts, hrun⟩ := CyclicBFS.hasCycleKahn_spec c hwf hc
  rw [hrun] at hr
  injection hr with hr
  by_cases hlen : topo.length = c.vertices
  · rw [if_pos hlen] at hr
    subst hr
    have hperm := hfacts.perm hlen
    have hall : ∀ v, v < c.vertices → v ∈ topo :=
      fun v hv => hperm.symm.subset (List.mem_range.mpr hv)
    refine ⟨?_, hperm, fun u v huv => (hfacts.ord v (hall v huv.2.1) u huv).2⟩
    intro hcyc
    obtain ⟨p, hp⟩ := hcyc
    obtain ⟨a, ha, hta⟩ := transGen_of_closedWalk hp
    exact hfacts.not_mem_of_cycle hta (hall a ha)
  · rw [if_neg hlen] at hr
    subst hr
    cases hf

theorem CyclicBFS.hasCycleKahn_false_topological_witness :
    ¬ HasDirectedCycle 4 [[0, 1, 0, 0], [0, 0, 1, 0], [0, 0, 0, 1], [0, 0, 0, 0]] ∧
      [0, 1, 2, 3].Perm (List.range 4) ∧
      ∀ u v, IsEdge 4 [[0, 1, 0, 0], [0, 0, 1, 0], [0, 0, 0, 1], [0, 0, 0, 0]] u v →
        [0, 1, 2, 3].indexOf u < [0, 1, 2, 3].indexOf v :=
  CyclicBFS.hasCycleKahn_false_topological
    (CyclicBFS.ofMatrix 4 [[0, 1, 0, 0], [0, 0, 1, 0], [0, 0, 0, 1], [0, 0, 0, 0]] [0, 1, 1, 1])
    ⟨rfl, by decide, rfl⟩ (by unfold CyclicBFS.Covers; decide)
    { ret := false, topoOrder := [0, 1, 2, 3],
      self := CyclicBFS.ofMatrix 4 [[0, 1, 0, 0], [0, 0, 1, 0], [0, 0, 0, 1], [0, 0, 0, 0]]
        [0, 1, 1, 1] }
    (by decide) rfl

/-- C4 (evaluation at the failing input): on a fresh `CyclicBFS(2)`, the call sequence
`addEdge(0, 1); addEdge(0, 1)` yields a matrix without a directed cycle, yet `hasCycleKahn`
returns `true` after processing only vertex `0`: the second call raised `inDegree[1]` to `2`
although the matrix holds a single edge into vertex `1`. -/
theorem CyclicBFS.hasCycleKahn_true_on_acyclic_after_repeated_addEdge :
    ∃ c r, (CyclicBFS.init 2).addEdges [(0, 1), (0, 1)] = some c ∧
      ¬ HasDirectedCycle c.vertices c.adjMatrix ∧
      c.hasCycleKahn = some r ∧ r.ret = true ∧ r.topoOrder = [0] ∧ r.topoOrder.length ≠ 2 := by
  refine ⟨CyclicBFS.ofMatrix 2 [[0, 1], [0, 0]] [0, 2],
    { ret := true, topoOrder := [0],
      self := { CyclicBFS.ofMatrix 2 [[0, 1], [0, 0]] [0, 2] with cyclePath := [1] } },
    by decide, ?_, by decide, rfl, rfl, by decide⟩
  obtain ⟨b, c', hrun, _, _, hf, _⟩ := CyclicDFS.hasCycle_spec
    (CyclicDFS.ofMatrix 2 [[0, 1], [0, 0]]) ⟨rfl, by decide, rfl, rfl, rfl⟩
  have hb : b = false := by
    have h2 : (CyclicDFS.ofMatrix 2 [[0, 1], [0, 0]]).hasCycle
        = some (false, { CyclicDFS.ofMatrix 2 [[0, 1], [0, 0]] with
            visited := [1, 1], parent := [-1, 0] }) := by decide
    rw [h2] at hrun
    injection hrun with hrun
    injection hrun with hb _
    exact hb.symm
  exact (hf hb).1

/-- The `CyclicDFS` half of the idempotence of `addEdge`: a second call `addEdge(u, v)` on the
object returned by the first leaves it as it is. -/
theorem CyclicDFS.addEdge_addEdge (c c1 : CyclicDFS) (u v : Int)
    (h : c.addEdge u v = some c1) : c1.addEdge u v = some c1 := by
  unfold CyclicDFS.addEdge at h
  split at h
  · rename_i hcond
    obtain ⟨hu0, hu, hv0, hv⟩ := hcond
    injection h with h
    subst h
    unfold CyclicDFS.addEdge
    simp only []
    have hrow : (c.adjMatrix.set u.toNat ((c.adjMatrix.getD u.toNat []).set v.toNat 1)).getD
        u.toNat [] = (c.adjMatrix.getD u.toNat []).set v.toNat 1 := getD_set_self _ _ _ _ hu
    rw [hrow, if_pos ⟨hu0, by rw [List.length_set]; exact hu, hv0,
      by rw [List.length_set]; exact hv⟩, List.set_set, List.set_set]
  · cases h

/-- C5 (evaluation at the failing input): on a fresh `CyclicBFS(2)`, the second call
`addEdge(0, 1)` leaves the matrix as it is but changes the in-degree table from `[0, 1]` to
`[0, 2]`, so the object after the second call differs from the object after the first. -/
theorem CyclicBFS.addEdge_twice_changes_inDegree :
    ∃ c1 c2, (CyclicBFS.init 2).addEdge 0 1 = some c1 ∧ c1.addEdge 0 1 = some c2 ∧
      c2.adjMatrix = c1.adjMatrix ∧ c1.inDegree = [0, 1] ∧ c2.inDegree = [0, 2] ∧ c2 ≠ c1 :=
  ⟨CyclicBFS.ofMatrix 2 [[0, 1], [0, 0]] [0, 1], CyclicBFS.ofMatrix 2 [[0, 1], [0, 0]] [0, 2],
    by decide, by decide, rfl, rfl, rfl, by decide⟩

/-- C6 (counterexample): the 3-vertex graph built by `addEdge(0,1)`, `addEdge(1,0)`,
`addEdge(2,2)` has a self-loop on vertex `2`, and `hasCycle` returns `true`, but the reported
`cyclePath` is `[0, 1, 0]`, not `[2, 2]`. -/
theorem CyclicDFS.self_loop_path_counterexample :
    ∃ c c', (CyclicDFS.init 3).addEdges [(0, 1), (1, 0), (2, 2)] = some c ∧ c.WF ∧
      c.adj 2 2 = 1 ∧ c.hasCycle = some (true, c') ∧ c'.cyclePath = [0, 1, 0] ∧
      c'.cyclePath ≠ [2, 2] :=
  ⟨CyclicDFS.ofMatrix 3 [[0, 1, 0], [1, 0, 0], [0, 0, 1]],
    { vertices := 3, adjMatrix := [[0, 1, 0], [1, 0, 0], [0, 0, 1]], visited := [1, 1, 0],
      recStack := [1, 1, 0], parent := [-1, 0, -1], cyclePath := [0, 1, 0] },
    by decide, ⟨rfl, by decide, rfl, rfl, rfl⟩, by decide, by decide, rfl, by decide⟩

/-- C6 (amended): for every well-formed graph that contains a self-loop on a vertex `v`,
`hasCycle` returns `true` and the reported `cyclePath` meets the cycle-path contract; it is
exactly `[v, v]` unless the search can meet another cycle first, that is, whenever no vertex
`y` that can be reached from a vertex `u` with an index below `v` along edges that do not
enter `v` lies on a directed cycle. -/
theorem CyclicDFS.hasCycle_self_loop (c : CyclicDFS) (h : c.WF) (v : Nat)
    (hv : v < c.vertices) (hloop : c.adj v v = 1) :
    ∃ c', c.hasCycle = some (true, c') ∧ IsCyclePath c.vertices c.adjMatrix c'.cyclePath ∧
      ((∀ u y, u < v →
          Relation.ReflTransGen (fun a b => IsEdge c.vertices c.adjMatrix a b ∧ b ≠ v) u y →
          ¬ Relation.TransGen (IsEdge c.vertices c.adjMatrix) y y) →
        c'.cyclePath = [(v : Int), (v : Int)]) := by
  obtain ⟨b, c', hrun, hvert, hadj, hf, ht⟩ := CyclicDFS.hasCycle_spec c h
  have hcyc : HasDirectedCycle c.vertices c.adjMatrix :=
    ⟨[v, v], by simp,
      List.chain'_pair.mpr (⟨hv, hv, hloop⟩ : IsEdge c.vertices c.adjMatrix v v), rfl⟩
  cases b with
  | false => exact absurd hcyc (hf rfl).1
  | true =>
    refine ⟨c', hrun, ?_, ?_⟩
    · obtain ⟨P, hP1, hP2, _⟩ := ht rfl
      rw [hP1, ← hvert, ← hadj]
      exact isCyclePath_of_closedWalk hP2
    · intro hfree
      obtain ⟨c'', hrun2, hpath⟩ := CyclicDFS.hasCycle_self_loop_first c h v hv hloop
        (fun y hy => by
          obtain ⟨u, hu, hp⟩ := hy
          exact hfree u y hu hp)
      rw [hrun] at hrun2
      injection hrun2 with hrun2
      injection hrun2 with _ hc
      rw [hc]
      exact hpath

theorem CyclicDFS.hasCycle_self_loop_witness :
    ∃ c', (CyclicDFS.ofMatrix 3 [[0, 1, 0], [0, 1, 1], [0, 1, 0]]).hasCycle = some (true, c') ∧
      IsCyclePath 3 [[0, 1, 0], [0, 1, 1], [0, 1, 0]] c'.cyclePath ∧ c'.cyclePath = [1, 1] := by
  obtain ⟨c', h1, h2, h3⟩ := CyclicDFS.hasCycle_self_loop
    (CyclicDFS.ofMatrix 3 [[0, 1, 0], [0, 1, 1], [0, 1, 0]])
    ⟨rfl, by decide, rfl, rfl, rfl⟩ 1 (by decide) (by decide)
  refine ⟨c', h1, h2, h3 ?_⟩
  have hin : ∀ b, ¬ IsEdge 3 [[0, 1, 0], [0, 1, 1], [0, 1, 0]] b 0 := by
    rintro b ⟨hb, _, hcell⟩
    interval_cases b <;> revert hcell <;> decide
  have hout : ∀ b, IsEdge 3 [[0, 1, 0], [0, 1, 1], [0, 1, 0]] 0 b → b = 1 := by
    rintro b ⟨_, hb, hcell⟩
    interval_cases b <;> first | rfl | (revert hcell; decide)
  intro u y hu hp hcyc
  have hu0 : u = 0 := by omega
  subst hu0
  have hy : y = 0 := by
    rcases Relation.ReflTransGen.cases_head hp with heq | ⟨b, hb, _⟩
    · exact heq.symm
    · exact absurd (hout b hb.1) hb.2
  subst hy
  obtain ⟨b, _, hb⟩ := Relation.TransGen.tail'_iff.mp hcyc
  exact hin b hb

/-- C7 (counterexample): on the 1-vertex graph with the single edge `0 -> 0` (in-degree table
equal to the column counts), `hasCycleKahn` returns `true` with unprocessed set `[0]`, but
`displayCycle` finds no component of more than one vertex and no path at all is traced; in
particular the witness path `[0, 0]` is not reported. -/
theorem CyclicBFS.lone_self_loop_counterexample :
    ∃ c r, (CyclicBFS.init 1).addEdge 0 0 = some c ∧ c.WF ∧ c.Exact ∧ c.adj 0 0 = 1 ∧
      c.hasCycleKahn = some r ∧ r.ret = true ∧ r.self.cyclePath = [0] ∧
      r.self.displayCycle = some SccReport.noComponent ∧
      ∀ comp, r.self.displayCycle
        ≠ some (SccReport.selected comp (CycleTrace.complete [0, 0])) := by
  refine ⟨CyclicBFS.ofMatrix 1 [[1]] [1],
    { ret := true, topoOrder := [],
      self := { CyclicBFS.ofMatrix 1 [[1]] [1] with cyclePath := [0] } },
    by decide, ⟨rfl, by decide, rfl⟩, ?_, by decide, by decide, rfl, rfl, by decide, ?_⟩
  · unfold CyclicBFS.Exact
    decide
  · intro comp hc
    have h2 : CyclicBFS.displayCycle { CyclicBFS.ofMatrix 1 [[1]] [1] with cyclePath := [0] }
        = some SccReport.noComponent := by decide
    rw [h2] at hc
    cases hc

/-- C7 (amended): for every `CyclicBFS` graph (in-degree table equal to the matrix column
counts) that contains a self-loop on a vertex `v`, `hasCycleKahn` returns `true` and records
`v` among the unprocessed vertices; `displayCycle` then returns a report, in which a selected
component has at least two vertices and a traced path is a closed walk of at least three
entries inside that component, so a path `[v, v]` is never reported. -/
theorem CyclicBFS.hasCycleKahn_self_loop (c : CyclicBFS) (hwf : c.WF) (he : c.Exact) (v : Nat)
    (hv : v < c.vertices) (hloop : c.adj v v = 1) :
    ∃ r rep, c.hasCycleKahn = some r ∧ r.ret = true ∧ v ∈ r.self.cyclePath ∧
      r.self.displayCycle = some rep ∧
      ∀ comp p, rep = SccReport.selected comp (CycleTrace.complete p) →
        2 ≤ comp.length ∧ 3 ≤ p.length ∧ IsClosedWalk c.vertices c.adjMatrix p ∧
        (∀ x ∈ p, x ∈ comp) ∧ p ≠ [v, v] := by
  obtain ⟨topo, hfacts, hrun⟩ := CyclicBFS.hasCycleKahn_spec c hwf he.covers
  have hvt : v ∉ topo :=
    hfacts.not_mem_of_cycle (Relation.TransGen.single (⟨hv, hv, hloop⟩ : c.Edge v v))
  have hlen : topo.length ≠ c.vertices := by
    intro hl
    exact hvt ((hfacts.perm hl).symm.subset (List.mem_range.mpr hv))
  rw [if_neg hlen] at hrun
  obtain ⟨rep, hrep, _, hsel⟩ := CyclicBFS.displayCycle_spec (c.withUnprocessed topo)
    (fun s hs => (CyclicBFS.mem_withUnprocessed s).mp hs |>.1)
  refine ⟨_, rep, hrun, rfl, (CyclicBFS.mem_withUnprocessed v).mpr ⟨hv, hvt⟩, hrep, ?_⟩
  intro comp p hc
  obtain ⟨h1, _, h3⟩ := hsel comp (CycleTrace.complete p) hc
  obtain ⟨g1, g2, g3⟩ := h3.2 p rfl
  refine ⟨h1, g2, g1, g3, ?_⟩
  intro hp
  rw [hp] at g2
  simp at g2

theorem CyclicBFS.hasCycleKahn_self_loop_witness :
    ∃ r rep, (CyclicBFS.ofMatrix 2 [[1, 1], [1, 0]] [2, 1]).hasCycleKahn = some r ∧
      r.ret = true ∧ 0 ∈ r.self.cyclePath ∧ r.self.displayCycle = some rep ∧
      ∀ comp p, rep = SccReport.selected comp (CycleTrace.complete p) →
        2 ≤ comp.length ∧ 3 ≤ p.length ∧ IsClosedWalk 2 [[1, 1], [1, 0]] p ∧
        (∀ x ∈ p, x ∈ comp) ∧ p ≠ [0, 0] :=
  CyclicBFS.hasCycleKahn_self_loop (CyclicBFS.ofMatrix 2 [[1, 1], [1, 0]] [2, 1])
    ⟨rfl, by decide, rfl⟩ (by unfold CyclicBFS.Exact; decide) 0 (by decide) (by decide)

/-- C8: for every graph, every component (a list of vertex indices) and every vertex `start`
of it (in particular its lowest-index vertex), the call
`dfsForCycle(start, start, component, path = [], visited = all false, depth = 0)` returns, and
if it returns `true` then the resulting path has at least two entries, begins and ends with
`start`, joins every consecutive pair `(a, b)` by an edge `adjMatrix[a][b] == 1`, and contains
only vertices of the component. -/
theorem CyclicBFS.dfsForCycle_closed_walk (c : CyclicBFS) (component : List Nat) (start : Nat)
    (hlt : ∀ x ∈ component, x < c.vertices) (hstart : start ∈ component) :
    ∃ r, c.dfsForCycle start component (component.length + 1) start []
        (List.replicate c.vertices false) 0 = some r ∧
      (r.1 = true →
        2 ≤ r.2.1.length ∧ r.2.1.head? = some start ∧ r.2.1.getLast? = some start ∧
        r.2.1.Chain' (fun a b => c.adj a b = 1) ∧ ∀ x ∈ r.2.1, x ∈ component) := by
  obtain ⟨r, hr, hpost⟩ := CyclicBFS.dfsForCycle_spec c start component (component.length + 1)
    start [] (List.replicate c.vertices false)
    { head := rfl
      chain := List.chain'_singleton _
      sub := by
        intro x hx
        simp at hx
        subst hx
        exact hstart
      vlen := List.length_replicate _ _
      vis := by
        intro x
        rw [getD_replicate]
        simp
      fresh := List.not_mem_nil _
      nodup := List.nodup_nil
      lt := hlt start hstart } (by simp)
  refine ⟨r, hr, fun hb => ?_⟩
  obtain ⟨g1, g2, g3, g4, _, g6⟩ := hpost.2 hb
  exact ⟨by omega, g1, g2, g3.imp (fun a b hab => hab.2.2), g4⟩

theorem CyclicBFS.dfsForCycle_closed_walk_witness :
    ∃ r, (CyclicBFS.ofMatrix 3 [[0, 1, 0], [0, 0, 1], [1, 0, 0]] [1, 1, 1]).dfsForCycle 0
        [0, 1, 2] ([0, 1, 2].length + 1) 0 [] (List.replicate 3 false) 0 = some r ∧
      (r.1 = true →
        2 ≤ r.2.1.length ∧ r.2.1.head? = some 0 ∧ r.2.1.getLast? = some 0 ∧
        r.2.1.Chain' (fun a b =>
          (CyclicBFS.ofMatrix 3 [[0, 1, 0], [0, 0, 1], [1, 0, 0]] [1, 1, 1]).adj a b = 1) ∧
        ∀ x ∈ r.2.1, x ∈ [0, 1, 2]) :=
  CyclicBFS.dfsForCycle_closed_walk
    (CyclicBFS.ofMatrix 3 [[0, 1, 0], [0, 0, 1], [1, 0, 0]] [1, 1, 1]) [0, 1, 2] 0
    (by decide) (by decide)

/-- C9: on the 3-vertex graph built by `addEdge(0,1)`, `addEdge(1,2)`, `addEdge(2,0)`,
`CyclicDFS::hasCycle` returns `true` with `cyclePath = [0,1,2,0]`, and
`CyclicBFS::hasCycleKahn` returns `true`, after which `displayCycle` selects the component
`[0,1,2]` and traces the complete cycle path `[0,1,2,0]`. -/
theorem predefined_three_cycle :
    (∃ c c', (CyclicDFS.init 3).addEdges [(0, 1), (1, 2), (2, 0)] = some c ∧
        c.hasCycle = some (true, c') ∧ c'.cyclePath = [0, 1, 2, 0]) ∧
    (∃ c r, (CyclicBFS.init 3).addEdges [(0, 1), (1, 2), (2, 0)] = some c ∧
        c.hasCycleKahn = some r ∧ r.ret = true ∧
        r.self.displayCycle
          = some (SccReport.selected [0, 1, 2] (CycleTrace.complete [0, 1, 2, 0]))) :=
  ⟨⟨CyclicDFS.ofMatrix 3 [[0, 1, 0], [0, 0, 1], [1, 0, 0]],
      { vertices := 3, adjMatrix := [[0, 1, 0], [0, 0, 1], [1, 0, 0]], visited := [1, 1, 1],
        recStack := [1, 1, 1], parent := [-1, 0, 1], cyclePath := [0, 1, 2, 0] },
      by decide, by decide, rfl⟩,
   ⟨CyclicBFS.ofMatrix 3 [[0, 1, 0], [0, 0, 1], [1, 0, 0]] [1, 1, 1],
      { ret := true, topoOrder := [],
        self := { CyclicBFS.ofMatrix 3 [[0, 1, 0], [0, 0, 1], [1, 0, 0]] [1, 1, 1] with
          cyclePath := [0, 1, 2] } },
      by decide, by decide, rfl, by decide⟩⟩

theorem disjoint_two_cycles_example :
    TwoDisjointCycles 4 [[0, 1, 0, 0], [1, 0, 0, 0], [0, 0, 0, 1], [0, 0, 1, 0]] 0 1 2 3 :=
  { alt := by decide, blt := by decide, clt := by decide, dlt := by decide
    ab := by decide, ac := by decide, ad := by decide, bc := by decide, bd := by decide
    cd := by decide
    edges := by
      intro u w hu hw
      interval_cases u <;> interval_cases w <;> decide }

/-- C10: for every graph whose edge set is exactly `a -> b, b -> a, c -> d, d -> c` with
`a, b, c, d` pairwise distinct vertices, `CyclicDFS::hasCycle` returns `true` and every entry of
its `cyclePath` lies in `{a, b}`, or every entry lies in `{c, d}`; and (with the in-degree
table equal to the column counts, each edge added once) `CyclicBFS::hasCycleKahn` returns `true`
and `displayCycle` traces a complete cycle path all of whose entries lie in `{a, b}`, or all in
`{c, d}`. -/
theorem disjoint_two_cycles_witness_within_one (n : Nat) (m : List (List Int))
    (a b c d : Nat) (h : TwoDisjointCycles n m a b c d)
    (g1 : CyclicDFS) (hwf1 : g1.WF) (hn1 : g1.vertices = n) (hm1 : g1.adjMatrix = m)
    (g2 : CyclicBFS) (hwf2 : g2.WF) (he2 : g2.Exact) (hn2 : g2.vertices = n)
    (hm2 : g2.adjMatrix = m) :
    (∃ g1', g1.hasCycle = some (true, g1') ∧
      ((∀ x ∈ g1'.cyclePath, x = (a : Int) ∨ x = (b : Int)) ∨
        (∀ x ∈ g1'.cyclePath, x = (c : Int) ∨ x = (d : Int)))) ∧
    (∃ r comp p, g2.hasCycleKahn = some r ∧ r.ret = true ∧
      r.self.displayCycle = some (SccReport.selected comp (CycleTrace.complete p)) ∧
      ((∀ x ∈ p, x = a ∨ x = b) ∨ (∀ x ∈ p, x = c ∨ x = d))) := by
  refine ⟨?_, h.kahn g2 hwf2 he2 hn2 hm2⟩
  obtain ⟨b', g1', hrun, hvert, hadj, hf, ht⟩ := CyclicDFS.hasCycle_spec g1 hwf1
  cases b' with
  | false =>
    exfalso
    apply (hf rfl).1
    rw [hn1, hm1]
    exact ⟨[a, b, a], h.cycle⟩
  | true =>
    refine ⟨g1', hrun, ?_⟩
    obtain ⟨P, hP1, hP2, _⟩ := ht rfl
    rw [hvert, hadj, hn1, hm1] at hP2
    rw [hP1]
    rcases h.walk_within P hP2 with hw | hw
    · left
      intro x hx
      obtain ⟨y, hy, rfl⟩ := List.mem_map.mp hx
      rcases hw y hy with e | e <;> simp [e]
    · right
      intro x hx
      obtain ⟨y, hy, rfl⟩ := List.mem_map.mp hx
      rcases hw y hy with e | e <;> simp [e]

theorem disjoint_two_cycles_witness_within_one_witness :
    (∃ g1', (CyclicDFS.ofMatrix 4
        [[0, 1, 0, 0], [1, 0, 0, 0], [0, 0, 0, 1], [0, 0, 1, 0]]).hasCycle = some (true, g1') ∧
      ((∀ x ∈ g1'.cyclePath, x = ((0 : Nat) : Int) ∨ x = ((1 : Nat) : Int)) ∨
        (∀ x ∈ g1'.cyclePath, x = ((2 : Nat) : Int) ∨ x = ((3 : Nat) : Int)))) ∧
    (∃ r comp p, (CyclicBFS.ofMatrix 4
        [[0, 1, 0, 0], [1, 0, 0, 0], [0, 0, 0, 1], [0, 0, 1, 0]] [1, 1, 1, 1]).hasCycleKahn
          = some r ∧ r.ret = true ∧
      r.self.displayCycle = some (SccReport.selected comp (CycleTrace.complete p)) ∧
      ((∀ x ∈ p, x = 0 ∨ x = 1) ∨ (∀ x ∈ p, x = 2 ∨ x = 3))) :=
  disjoint_two_cycles_witness_within_one 4 [[0, 1, 0, 0], [1, 0, 0, 0], [0, 0, 0, 1], [0, 0, 1, 0]]
    0 1 2 3 disjoint_two_cycles_example
    (CyclicDFS.ofMatrix 4 [[0, 1, 0, 0], [1, 0, 0, 0], [0, 0, 0, 1], [0, 0, 1, 0]])
    ⟨rfl, by decide, rfl, rfl, rfl⟩ rfl rfl
    (CyclicBFS.ofMatrix 4 [[0, 1, 0, 0], [1, 0, 0, 0], [0, 0, 0, 1], [0, 0, 1, 0]] [1, 1, 1, 1])
    ⟨rfl, by decide, rfl⟩ (by unfold CyclicBFS.Exact; decide) rfl rfl

/-- C11: detection is repeatable.  If `hasCycle` returned the flag `b` and left the object `c1`
(with its `visited`, `recStack`, `parent`, `cyclePath`), then `hasCycle` on `c1` returns the
same flag and leaves the same object, so the same `cyclePath`.  If `hasCycleKahn` returned the
result `r` (flag, topological order, object with the unprocessed set in `cyclePath`), then
`hasCycleKahn` on the object it left returns the same `r`; the call leaves `inDegree`,
`adjMatrix` and `vertices` unchanged. -/
theorem detection_repeatable (c : CyclicDFS) (b : Bool) (c1 : CyclicDFS)
    (h1 : c.hasCycle = some (b, c1)) (k : CyclicBFS) (r : KahnResult)
    (h2 : k.hasCycleKahn = some r) :
    c1.hasCycle = some (b, c1) ∧
      r.self.hasCycleKahn = some r ∧ r.self.inDegree = k.inDegree ∧
      r.self.adjMatrix = k.adjMatrix ∧ r.self.vertices = k.vertices :=
  ⟨CyclicDFS.hasCycle_again c b c1 h1, CyclicBFS.hasCycleKahn_again k r h2⟩

theorem detection_repeatable_witness :
    (({ vertices := 3, adjMatrix := [[0, 1, 0], [0, 0, 1], [1, 0, 0]], visited := [1, 1, 1],
        recStack := [1, 1, 1], parent := [-1, 0, 1], cyclePath := [0, 1, 2, 0] } : CyclicDFS).hasCycle
      = some (true,
          { vertices := 3, adjMatrix := [[0, 1, 0], [0, 0, 1], [1, 0, 0]],
            visited := [1, 1, 1], recStack := [1, 1, 1], parent := [-1, 0, 1],
            cyclePath := [0, 1, 2, 0] })) ∧
      ({ vertices := 3, adjMatrix := [[0, 1, 0], [0, 0, 1], [1, 0, 0]], inDegree := [1, 1, 1],
         cyclePath := [0, 1, 2] } : CyclicBFS).hasCycleKahn
        = some { ret := true, topoOrder := [],
                 self := { vertices := 3, adjMatrix := [[0, 1, 0], [0, 0, 1], [1, 0, 0]],
                           inDegree := [1, 1, 1], cyclePath := [0, 1, 2] } } ∧
      ([1, 1, 1] : List Int) = [1, 1, 1] ∧
      [[0, 1, 0], [0, 0, 1], [(1 : Int), 0, 0]] = [[0, 1, 0], [0, 0, 1], [1, 0, 0]] ∧
      3 = 3 :=
  detection_repeatable
    (CyclicDFS.ofMatrix 3 [[0, 1, 0], [0, 0, 1], [1, 0, 0]]) true
    { vertices := 3, adjMatrix := [[0, 1, 0], [0, 0, 1], [1, 0, 0]], visited := [1, 1, 1],
      recStack := [1, 1, 1], parent := [-1, 0, 1], cyclePath := [0, 1, 2, 0] }
    (by decide)
    (CyclicBFS.ofMatrix 3 [[0, 1, 0], [0, 0, 1], [1, 0, 0]] [1, 1, 1])
    { ret := true, topoOrder := [],
      self := { vertices := 3, adjMatrix := [[0, 1, 0], [0, 0, 1], [1, 0, 0]],
                inDegree := [1, 1, 1], cyclePath := [0, 1, 2] } }
    (by decide)

/-- C12: on the graph with `n` vertices and no edges (the constructed object, no `addEdge`),
`hasCycle` returns `false` and `hasCycleKahn` returns `false` with the topological order
`0, 1, .., n - 1`, which lists every vertex once.  Every vertex is enqueued by the seeding loop,
where its in-degree is 0: the in-degree table is all 0, the seed queue is `0 .. n - 1`, and the
queue loop ends with the working table `tempInDegree` still all 0. -/
theorem edgeless_graph_no_cycle (n : Nat) :
    (∃ c', (CyclicDFS.init n).hasCycle = some (false, c') ∧ c'.cyclePath = []) ∧
      (CyclicBFS.init n).hasCycleKahn
        = some { ret := false, topoOrder := List.range n, self := CyclicBFS.init n } ∧
      (List.range n).Nodup ∧ (∀ v, v ∈ List.range n ↔ v < n) ∧
      (CyclicBFS.init n).inDegree = List.replicate n 0 ∧
      (List.range n).filter (fun i => (CyclicBFS.init n).inDegree.getD i 0 = 0) = List.range n ∧
      CyclicBFS.kahnLoop (CyclicBFS.init n) n (CyclicBFS.init n).inDegree
        ((List.range n).filter (fun i => (CyclicBFS.init n).inDegree.getD i 0 = 0)) []
        = some (List.replicate n 0, List.range n) :=
  ⟨CyclicDFS.init_hasCycle n, CyclicBFS.init_hasCycleKahn n, List.nodup_range n,
    fun _ => List.mem_range, rfl, CyclicBFS.init_seeds n, CyclicBFS.init_kahnLoop n⟩

/-- C13 (counterexample): `addEdge(2, 0)` on a fresh `CyclicDFS(2)` and `addEdge(0, 2)` on a
fresh `CyclicBFS(2)` index a cell that does not exist; the method has no range check, so the
call has no defined result, in particular not the unchanged graph. -/
theorem addEdge_out_of_range_counterexample :
    (CyclicDFS.init 2).addEdge 2 0 = none ∧ (CyclicDFS.init 2).addEdge 2 0 ≠ some (CyclicDFS.init 2) ∧
      (CyclicBFS.init 2).addEdge 0 2 = none ∧
      (CyclicBFS.init 2).addEdge 0 2 ≠ some (CyclicBFS.init 2) := by
  decide

/-- C13 (amended): `addEdge` has no range check.  On objects with the constructor's sizes,
`addEdge(u, v)` has a defined result exactly when `u` and `v` lie in `[0, vertices)`: then it
writes `adjMatrix[u][v] = 1` (and, in `CyclicBFS`, `inDegree[v]++`) and nothing else; with `u`
or `v` out of range it indexes a cell that does not exist and has no defined result. -/
theorem addEdge_unchecked (c : CyclicDFS) (hc : c.WF) (k : CyclicBFS) (hk : k.WF) (u v : Int) :
    (if 0 ≤ u ∧ u < c.vertices ∧ 0 ≤ v ∧ v < c.vertices then
        c.addEdge u v = some { c with
          adjMatrix := c.adjMatrix.set u.toNat ((c.adjMatrix.getD u.toNat []).set v.toNat 1) }
      else c.addEdge u v = none) ∧
    (if 0 ≤ u ∧ u < k.vertices ∧ 0 ≤ v ∧ v < k.vertices then
        k.addEdge u v = some { k with
          adjMatrix := k.adjMatrix.set u.toNat ((k.adjMatrix.getD u.toNat []).set v.toNat 1)
          inDegree := k.inDegree.set v.toNat (k.inDegree.getD v.toNat 0 + 1) }
      else k.addEdge u v = none) := by
  constructor
  · split
    · rename_i h
      exact CyclicDFS.addEdge_in_range c hc u v h
    · rename_i h
      exact CyclicDFS.addEdge_out_of_range c hc u v h
  · split
    · rename_i h
      exact CyclicBFS.addEdge_kahn_in_range k hk u v h
    · rename_i h
      exact CyclicBFS.addEdge_kahn_out_of_range k hk u v h

theorem addEdge_unchecked_witness :
    (if (0 : Int) ≤ 3 ∧ (3 : Int) < (CyclicDFS.init 3).vertices ∧ (0 : Int) ≤ 1 ∧
          (1 : Int) < (CyclicDFS.init 3).vertices then
        (CyclicDFS.init 3).addEdge 3 1 = some { CyclicDFS.init 3 with
          adjMatrix := (CyclicDFS.init 3).adjMatrix.set (3 : Int).toNat
            (((CyclicDFS.init 3).adjMatrix.getD (3 : Int).toNat []).set (1 : Int).toNat 1) }
      else (CyclicDFS.init 3).addEdge 3 1 = none) ∧
    (if (0 : Int) ≤ 3 ∧ (3 : Int) < (CyclicBFS.init 4).vertices ∧ (0 : Int) ≤ 1 ∧
          (1 : Int) < (CyclicBFS.init 4).vertices then
        (CyclicBFS.init 4).addEdge 3 1 = some { CyclicBFS.init 4 with
          adjMatrix := (CyclicBFS.init 4).adjMatrix.set (3 : Int).toNat
            (((CyclicBFS.init 4).adjMatrix.getD (3 : Int).toNat []).set (1 : Int).toNat 1)
          inDegree := (CyclicBFS.init 4).inDegree.set (1 : Int).toNat
            ((CyclicBFS.init 4).inDegree.getD (1 : Int).toNat 0 + 1) }
      else (CyclicBFS.init 4).addEdge 3 1 = none) :=
  addEdge_unchecked (CyclicDFS.init 3) ⟨rfl, by decide, rfl, rfl, rfl⟩ (CyclicBFS.init 4)
    ⟨rfl, by decide, rfl⟩ 3 1

/-- C14 (evaluation at the failing input): on the `CyclicBFS(3)` graph built by `addEdge(0,1)`,
`addEdge(1,0)`, `addEdge(1,2)` the in-degree table equals the column counts, and
`hasCycleKahn` returns `true` and records (and prints as "Vertices in cycle") the unprocessed
set `0, 1, 2`, although vertex `2` lies on no directed cycle: it has no outgoing edge. -/
theorem CyclicBFS.unprocessed_contains_vertex_off_cycle :
    ∃ c r, (CyclicBFS.init 3).addEdges [(0, 1), (1, 0), (1, 2)] = some c ∧ c.Exact ∧
      c.hasCycleKahn = some r ∧ r.ret = true ∧ r.self.cyclePath = [0, 1, 2] ∧
      ¬ Relation.TransGen (IsEdge c.vertices c.adjMatrix) 2 2 := by
  have hno : ∀ b, ¬ IsEdge 3 [[0, 1, 0], [1, 0, 1], [0, 0, 0]] 2 b := by
    rintro b ⟨_, hb, hcell⟩
    interval_cases b <;> revert hcell <;> decide
  refine ⟨CyclicBFS.ofMatrix 3 [[0, 1, 0], [1, 0, 1], [0, 0, 0]] [1, 1, 1],
    { ret := true, topoOrder := [],
      self := { vertices := 3, adjMatrix := [[0, 1, 0], [1, 0, 1], [0, 0, 0]],
                inDegree := [1, 1, 1], cyclePath := [0, 1, 2] } },
    by decide, by unfold CyclicBFS.Exact; decide, by decide, rfl, rfl, ?_⟩
  intro h
  obtain ⟨b, hb, _⟩ := Relation.TransGen.head'_iff.mp h
  exact hno b hb

/-- C15 (evaluation at the failing input): on the `CyclicBFS(4)` graph built by `addEdge(1,2)`,
`addEdge(2,1)`, `addEdge(2,0)`, `addEdge(0,3)` the in-degree table equals the column counts and
`hasCycleKahn` returns `true` with the unprocessed set `0, 1, 2, 3`; `displayCycle` then selects
the component `[0, 3]` built by `dfsComponent` from the seed `0`, and `findCyclePath` falls back
to reporting it ("Cycle exists among these vertices: 0 3"), although vertex `3` reaches no
vertex at all, so not `0`, and no cycle runs through `0` or `3`. -/
theorem CyclicBFS.selected_component_not_strongly_connected :
    ∃ c r, (CyclicBFS.init 4).addEdges [(1, 2), (2, 1), (2, 0), (0, 3)] = some c ∧
      c.Exact ∧ c.hasCycleKahn = some r ∧ r.ret = true ∧ r.self.cyclePath = [0, 1, 2, 3] ∧
      r.self.displayCycle = some (SccReport.selected [0, 3] (CycleTrace.among [0, 3])) ∧
      ¬ Relation.ReflTransGen (IsEdge c.vertices c.adjMatrix) 3 0 ∧
      ¬ Relation.TransGen (IsEdge c.vertices c.adjMatrix) 0 0 ∧
      ¬ Relation.TransGen (IsEdge c.vertices c.adjMatrix) 3 3 := by
  have hno : ∀ b, ¬ IsEdge 4 [[0, 0, 0, 1], [0, 0, 1, 0], [1, 1, 0, 0], [0, 0, 0, 0]] 3 b := by
    rintro b ⟨_, hb, hcell⟩
    interval_cases b <;> revert hcell <;> decide
  have h0 : ∀ b, IsEdge 4 [[0, 0, 0, 1], [0, 0, 1, 0], [1, 1, 0, 0], [0, 0, 0, 0]] 0 b →
      b = 3 := by
    rintro b ⟨_, hb, hcell⟩
    interval_cases b <;> first | rfl | (revert hcell; decide)
  refine ⟨CyclicBFS.ofMatrix 4 [[0, 0, 0, 1], [0, 0, 1, 0], [1, 1, 0, 0], [0, 0, 0, 0]]
      [1, 1, 1, 1],
    { ret := true, topoOrder := [],
      self := { CyclicBFS.ofMatrix 4 [[0, 0, 0, 1], [0, 0, 1, 0], [1, 1, 0, 0], [0, 0, 0, 0]]
        [1, 1, 1, 1] with cyclePath := [0, 1, 2, 3] } },
    by decide, by unfold CyclicBFS.Exact; decide, by decide, rfl, rfl, by decide, ?_, ?_, ?_⟩
  · intro h
    rcases Relation.ReflTransGen.cases_head h with heq | ⟨b, hb, _⟩
    · exact absurd heq (by decide)
    · exact hno b hb
  · intro h
    obtain ⟨b, hb, hrest⟩ := Relation.TransGen.head'_iff.mp h
    have hb3 := h0 b hb
    subst hb3
    rcases Relation.ReflTransGen.cases_head hrest with heq | ⟨d, hd, _⟩
    · exact absurd heq (by decide)
    · exact hno d hd
  · intro h
    obtain ⟨b, hb, _⟩ := Relation.TransGen.head'_iff.mp h
    exact hno b hb

/-- C16: for every graph and every component `C` with at least two distinct vertices that is
strongly connected using only edges between vertices of `C`, the search
`dfsForCycle(start, start, sorted C, [], all false, 0)` from `start = (sorted C)[0]`, the least
vertex of `C`, returns `true` with the fuel `findCyclePath` gives it, so `findCyclePath`
reports a complete cycle path and not the fallback with the bare component. -/
theorem CyclicBFS.findCyclePath_complete_on_strongly_connected (c : CyclicBFS)
    (component : List Nat) (htwo : ∃ a ∈ component, ∃ b ∈ component, a ≠ b)
    (hsc : c.StronglyConnected component) :
    (component.insertionSort (· ≤ ·)).getD 0 0 ∈ component ∧
      (∀ x ∈ component, (component.insertionSort (· ≤ ·)).getD 0 0 ≤ x) ∧
      (∃ p v, c.dfsForCycle ((component.insertionSort (· ≤ ·)).getD 0 0)
        (component.insertionSort (· ≤ ·)) ((component.insertionSort (· ≤ ·)).length + 1)
        ((component.insertionSort (· ≤ ·)).getD 0 0) [] (List.replicate c.vertices false) 0
        = some (true, p, v)) ∧
      ∃ p, c.findCyclePath component = some (CycleTrace.complete p) := by
  have hmem : ∀ x, x ∈ component.insertionSort (· ≤ ·) ↔ x ∈ component :=
    fun x => (List.perm_insertionSort (· ≤ ·) component).mem_iff
  have hne : component.insertionSort (· ≤ ·) ≠ [] := by
    obtain ⟨a, ha, _⟩ := htwo
    exact List.ne_nil_of_mem ((hmem a).mpr ha)
  refine ⟨(hmem _).mp (getD_zero_mem _ hne), ?_, CyclicBFS.findCyclePath_complete c component htwo hsc⟩
  intro x hx
  exact sorted_getD_zero_le _ (List.sorted_insertionSort (· ≤ ·) component) x ((hmem x).mpr hx)

theorem CyclicBFS.findCyclePath_complete_on_strongly_connected_witness :
    ([1, 0].insertionSort (· ≤ ·)).getD 0 0 ∈ [1, 0] ∧
      (∀ x ∈ [1, 0], ([1, 0].insertionSort (· ≤ ·)).getD 0 0 ≤ x) ∧
      (∃ p v, (CyclicBFS.ofMatrix 2 [[0, 1], [1, 0]] [1, 1]).dfsForCycle
        (([1, 0].insertionSort (· ≤ ·)).getD 0 0)
        ([1, 0].insertionSort (· ≤ ·)) (([1, 0].insertionSort (· ≤ ·)).length + 1)
        (([1, 0].insertionSort (· ≤ ·)).getD 0 0) []
        (List.replicate (CyclicBFS.ofMatrix 2 [[0, 1], [1, 0]] [1, 1]).vertices false) 0
        = some (true, p, v)) ∧
      ∃ p, (CyclicBFS.ofMatrix 2 [[0, 1], [1, 0]] [1, 1]).findCyclePath [1, 0]
        = some (CycleTrace.complete p) :=
  CyclicBFS.findCyclePath_complete_on_strongly_connected
    (CyclicBFS.ofMatrix 2 [[0, 1], [1, 0]] [1, 1]) [1, 0]
    ⟨1, by decide, 0, by decide, by decide⟩
    (by
      have e01 : (CyclicBFS.ofMatrix 2 [[0, 1], [1, 0]] [1, 1]).EdgeWithin [1, 0] 0 1 :=
        ⟨⟨by decide, by decide, by decide⟩, by decide, by decide⟩
      have e10 : (CyclicBFS.ofMatrix 2 [[0, 1], [1, 0]] [1, 1]).EdgeWithin [1, 0] 1 0 :=
        ⟨⟨by decide, by decide, by decide⟩, by decide, by decide⟩
      intro a ha b hb
      simp only [List.mem_cons, List.mem_singleton, List.not_mem_nil, or_false] at ha hb
      rcases ha with rfl | rfl <;> rcases hb with rfl | rfl
      · exact Relation.ReflTransGen.refl
      · exact Relation.ReflTransGen.single e10
      · exact Relation.ReflTransGen.single e01
      · exact Relation.ReflTransGen.refl)

/-- C17: for every well-formed graph on which the loop of `hasCycle` (run from the reset state)
ends with a `dfsUtil` call that returned `true` with `(cycleStart, cycleEnd)`, the parent walk
of `findCyclePath` from `cycleEnd` reaches `cycleStart` with fuel `vertices`, that is after at
most `vertices - 1` steps; every vertex it stands on is an index in range, and the parent entry
it reads there is not `-1`. -/
theorem CyclicDFS.findCyclePath_walk_bounded (c : CyclicDFS) (h : c.WF) (s : DfsState)
    (hrun : CyclicDFS.hasCycleLoop (List.range c.vertices) c.hasCycleEntry = some (true, s)) :
    ∃ tempPath : List Int,
      CyclicDFS.findCyclePathLoop s.self.parent s.cycleStart c.vertices s.cycleEnd []
        = some tempPath ∧
      tempPath.length + 1 ≤ c.vertices ∧
      (∀ x ∈ tempPath, 0 ≤ x ∧ x.toNat < s.self.parent.length ∧
        s.self.parent.getD x.toNat 0 ≠ -1) ∧
      s.self.cyclePath = (tempPath ++ [s.cycleStart]).reverse ++ [s.cycleStart] := by
  obtain ⟨s0, hback, hfc, hcs, hce, hvert⟩ := CyclicDFS.hasCycleLoop_back
    (List.range c.vertices) c.hasCycleEntry (CyclicDFS.inv_entry c h)
    (fun i hi => List.mem_range.mp hi) s hrun
  obtain ⟨pre, hwalk, hlen, hreads, hfc2⟩ := CyclicDFS.back_walk s0 hback
  rw [hfc2] at hfc
  injection hfc with hfc
  have hvert' : s0.self.vertices = c.vertices := hvert
  have hpar : s.self.parent = s0.self.parent := by rw [← hfc]
  have hpath : s.self.cyclePath = (pre.map (fun x : Nat => (x : Int)) ++ [s0.cycleStart]).reverse
      ++ [s0.cycleStart] := by rw [← hfc]
  refine ⟨pre.map (fun x : Nat => (x : Int)), ?_, by simpa [hvert'] using hlen, ?_, ?_⟩
  · rw [hpar, hcs, hce, ← hvert']
    exact hwalk
  · intro x hx
    obtain ⟨y, hy, rfl⟩ := List.mem_map.mp hx
    obtain ⟨h1, z, hz⟩ := hreads y hy
    refine ⟨Int.ofNat_nonneg y, by rw [hpar]; simpa using h1, ?_⟩
    rw [hpar, Int.toNat_ofNat, hz]
    omega
  · rw [hpath, hcs]

theorem CyclicDFS.findCyclePath_walk_bounded_witness :
    ∃ tempPath : List Int,
      CyclicDFS.findCyclePathLoop [-1, 0, 1] 0 3 2 [] = some tempPath ∧
      tempPath.length + 1 ≤ 3 ∧
      (∀ x ∈ tempPath, 0 ≤ x ∧ x.toNat < [(-1 : Int), 0, 1].length ∧
        [(-1 : Int), 0, 1].getD x.toNat 0 ≠ -1) ∧
      [(0 : Int), 1, 2, 0] = (tempPath ++ [0]).reverse ++ [0] :=
  CyclicDFS.findCyclePath_walk_bounded
    (CyclicDFS.ofMatrix 3 [[0, 1, 0], [0, 0, 1], [1, 0, 0]]) ⟨rfl, by decide, rfl, rfl, rfl⟩
    { self := { vertices := 3, adjMatrix := [[0, 1, 0], [0, 0, 1], [1, 0, 0]],
                visited := [1, 1, 1], recStack := [1, 1, 1], parent := [-1, 0, 1],
                cyclePath := [0, 1, 2, 0] }
      cycleStart := 0
      cycleEnd := 2 }
    (by decide)

/-- C18: on every well-formed graph, `hasCycle` run with a log (`hasCycleTr`, which returns
the same flag and object as `hasCycle`) returns, and its log, which starts at the reset state
and holds the state after every assignment of `hasCycle` and `dfsUtil` and a record of every
finished `dfsUtil` call, has only good entries: every logged state satisfies
`recStack[v] == 1` implies `visited[v] == 1` for every `v`, and every `dfsUtil` call that
returned `false` left `recStack` exactly as it was at its entry.  The state left behind
satisfies the implication as well. -/
theorem CyclicDFS.recStack_implies_visited_throughout (c : CyclicDFS) (h : c.WF) :
    ∃ b c' log, c.hasCycleTr = some (b, c', log) ∧ c.hasCycle = some (b, c') ∧
      DfsEvent.state c.hasCycleEntry ∈ log ∧
      (∀ e ∈ log, CyclicDFS.EventOk e) ∧
      ∀ v, c'.recStack.getD v 0 = 1 → c'.visited.getD v 0 = 1 := by
  obtain ⟨b, c', hrun, _⟩ := CyclicDFS.hasCycle_spec c h
  have her := CyclicDFS.hasCycleTr_erase c
  rw [hrun] at her
  cases htr : c.hasCycleTr with
  | none => rw [htr] at her; cases her
  | some r =>
    obtain ⟨b2, c2, log⟩ := r
    rw [htr] at her
    simp only [Option.map_some'] at her
    injection her with her
    injection her with hb hc
    subst hb hc
    have hlen : c.visited.length = c.recStack.length := by rw [h.2.2.1, h.2.2.2.1]
    obtain ⟨g1, g2⟩ := CyclicDFS.hasCycleTr_ok c hlen _ _ _ htr
    refine ⟨_, _, log, rfl, hrun, ?_, fun e he => (g1 e he).ok, ?_⟩
    · exact CyclicDFS.hasCycleTr_log_entry c _ _ _ htr
    · intro v hv
      exact g2 v (by rw [hv]; decide)

theorem CyclicDFS.recStack_implies_visited_throughout_witness :
    ∃ b c' log, (CyclicDFS.ofMatrix 3 [[0, 1, 0], [0, 0, 0], [0, 1, 0]]).hasCycleTr
        = some (b, c', log) ∧
      (CyclicDFS.ofMatrix 3 [[0, 1, 0], [0, 0, 0], [0, 1, 0]]).hasCycle = some (b, c') ∧
      DfsEvent.state (CyclicDFS.ofMatrix 3 [[0, 1, 0], [0, 0, 0], [0, 1, 0]]).hasCycleEntry
        ∈ log ∧
      (∀ e ∈ log, CyclicDFS.EventOk e) ∧
      ∀ v, c'.recStack.getD v 0 = 1 → c'.visited.getD v 0 = 1 :=
  CyclicDFS.recStack_implies_visited_throughout
    (CyclicDFS.ofMatrix 3 [[0, 1, 0], [0, 0, 0], [0, 1, 0]]) ⟨rfl, by decide, rfl, rfl, rfl⟩

/-- C19: whenever `hasCycle` returns `true` on a well-formed graph, the `cyclePath` with its
final (closing) entry removed consists of pairwise distinct vertices, and `cyclePath` has at
most `vertices + 1` entries. -/
theorem CyclicDFS.hasCycle_cyclePath_simple (c : CyclicDFS) (h : c.WF) (c' : CyclicDFS)
    (hr : c.hasCycle = some (true, c')) :
    c'.cyclePath.dropLast.Nodup ∧ c'.cyclePath.length ≤ c.vertices + 1 := by
  obtain ⟨b, c'', hrun, hv, ha, _, ht⟩ := CyclicDFS.hasCycle_spec c h
  rw [hrun] at hr
  injection hr with hr
  injection hr with hb hc
  subst hb hc
  obtain ⟨P, hP1, hP2, hP3⟩ := ht rfl
  have hinj : Function.Injective (fun x : Nat => (x : Int)) := fun a b hab => Int.ofNat_inj.mp hab
  have hlt : ∀ x ∈ P.dropLast, x < c.vertices := by
    intro x hx
    rw [← hv]
    exact chain_mem_lt P hP2.2.1 hP2.1 x (List.dropLast_subset P hx)
  have hlen := nodup_lt_length_le c.vertices P.dropLast hP3 hlt
  rw [hP1]
  constructor
  · rw [← List.map_dropLast]
    exact hP3.map hinj
  · rw [List.length_map]
    rw [List.length_dropLast] at hlen
    omega

theorem CyclicDFS.hasCycle_cyclePath_simple_witness :
    ([0, 1, 2, 0] : List Int).dropLast.Nodup ∧ ([0, 1, 2, 0] : List Int).length ≤ 3 + 1 :=
  CyclicDFS.hasCycle_cyclePath_simple
    (CyclicDFS.ofMatrix 3 [[0, 1, 0], [0, 0, 1], [1, 0, 0]]) ⟨rfl, by decide, rfl, rfl, rfl⟩
    { vertices := 3, adjMatrix := [[0, 1, 0], [0, 0, 1], [1, 0, 0]], visited := [1, 1, 1],
      recStack := [1, 1, 1], parent := [-1, 0, 1], cyclePath := [0, 1, 2, 0] }
    (by decide)

/-- C20: the depth bound of `dfsForCycle` never stops a search.  For every graph, component and
vertex `start` of the component (an index below `vertices`), the initial call of
`findCyclePath`, `dfsForCycle(start, start, component, [], all false, 0)`, returns a result `r`
with the fuel `findCyclePath` gives it, and so does the same search in which taking the branch
`depth >= component.size()` in any recursive call is a failure: no call reachable from the
initial one takes the branch.  The search with the branch deleted returns the same `r`: the
`visited` flags alone end the recursion. -/
theorem CyclicBFS.dfsForCycle_depth_bound_unreachable (c : CyclicBFS) (component : List Nat)
    (start : Nat) (hs : start ∈ component) (hlt : start < c.vertices) :
    ∃ r, c.dfsForCycle start component (component.length + 1) start []
          (List.replicate c.vertices false) 0 = some r ∧
      c.dfsForCycleStrict start component (component.length + 1) start []
          (List.replicate c.vertices false) 0 = some r ∧
      c.dfsForCycleNoBound start component (component.length + 1) start []
          (List.replicate c.vertices false) 0 = some r := by
  have hpre := CyclicBFS.fcPre_initial c component start hs hlt
  obtain ⟨r, hr, _⟩ := CyclicBFS.dfsForCycle_spec c start component (component.length + 1) start
    [] (List.replicate c.vertices false) hpre (by simp)
  obtain ⟨h1, h2⟩ := CyclicBFS.dfsForCycle_eq_variants c start component (component.length + 1)
    start [] (List.replicate c.vertices false) hpre (by simp)
  exact ⟨r, hr, h1.trans hr, h2.trans hr⟩

theorem CyclicBFS.dfsForCycle_depth_bound_unreachable_witness :
    ∃ r, (CyclicBFS.ofMatrix 3 [[0, 1, 0], [0, 0, 1], [1, 0, 0]] [1, 1, 1]).dfsForCycle 0
          [0, 1, 2] ([0, 1, 2].length + 1) 0 []
          (List.replicate
            (CyclicBFS.ofMatrix 3 [[0, 1, 0], [0, 0, 1], [1, 0, 0]] [1, 1, 1]).vertices false) 0
          = some r ∧
      (CyclicBFS.ofMatrix 3 [[0, 1, 0], [0, 0, 1], [1, 0, 0]] [1, 1, 1]).dfsForCycleStrict 0
          [0, 1, 2] ([0, 1, 2].length + 1) 0 []
          (List.replicate
            (CyclicBFS.ofMatrix 3 [[0, 1, 0], [0, 0, 1], [1, 0, 0]] [1, 1, 1]).vertices false) 0
          = some r ∧
      (CyclicBFS.ofMatrix 3 [[0, 1, 0], [0, 0, 1], [1, 0, 0]] [1, 1, 1]).dfsForCycleNoBound 0
          [0, 1, 2] ([0, 1, 2].length + 1) 0 []
          (List.replicate
            (CyclicBFS.ofMatrix 3 [[0, 1, 0], [0, 0, 1], [1, 0, 0]] [1, 1, 1]).vertices false) 0
          = some r :=
  CyclicBFS.dfsForCycle_depth_bound_unreachable
    (CyclicBFS.ofMatrix 3 [[0, 1, 0], [0, 0, 1], [1, 0, 0]] [1, 1, 1]) [0, 1, 2] 0
    (by decide) (by decide)
